import Mathlib

/-!
# PW-Filetree: a directory tree with per-node readers/writers/removers locks

A shallow embedding of `src/readers_writers.c` and `src/Tree.c`, and theorems
about the sequential behaviour of `tree_list`, `tree_create`, `tree_remove`
and `tree_move`, and about one lock used by any number of threads.

Conventions of the embedding.

* C strings are lists of characters (`List Char`).
* A `Tree *` is the address of a node: the list of child names leading to it
  from the tree handle.  The program state is the whole tree value; a write
  through a pointer is an update of the state at that address.
* A call that blocks in `pthread_cond_wait` and is executed by the only thread
  never returns; such a call yields `none`.
* `int` counters and results are `Int`.
* Several threads at one lock are a step relation on the counters and the place of
  each thread: a step is a stretch of a lock function that runs with the mutex held.
-/

namespace Filetree

/-! ## `readers_writers.c` -/

/-- The counters of `struct Readwrite` (mutex and condition variables are not state
of the sequential model). -/
structure Readwrite where
  rcount : Int
  wcount : Int
  rwait : Int
  wwait : Int
  change : Int
  deriving DecidableEq, Repr

/-- The state set up by `rw_new`. -/
def rw_new : Readwrite :=
  { rcount := 0, wcount := 0, rwait := 0, wwait := 0, change := 0 }

/-- The loop test of `rw_before_read`, the sum taken exactly; `rw_before_read_waits_int`
is the test on `int`s, the same as long as the sum does not overflow. -/
def rw_before_read_waits (rw : Readwrite) : Bool :=
  decide (rw.change ≤ 0) && decide (rw.wcount + rw.wwait > 0)

/-- The body of `rw_before_read` after its wait loop. -/
def rw_before_read_enter (rw : Readwrite) : Readwrite :=
  let rw1 := if rw.change > 0 then { rw with change := rw.change - 1 } else rw
  { rw1 with rcount := rw1.rcount + 1 }

/-- Function `rw_before_read` run by the only thread: it never returns when the
loop test holds. -/
def rw_before_read (rw : Readwrite) : Option Readwrite :=
  if rw_before_read_waits rw then none else some (rw_before_read_enter rw)

/-- Function `rw_after_read`. -/
def rw_after_read (rw : Readwrite) : Readwrite :=
  let rw1 := { rw with rcount := rw.rcount - 1 }
  if rw1.rcount = 0 ∧ rw1.wwait > 0 then { rw1 with change := -1 } else rw1

/-- The loop test of `rw_before_write`, the sum taken exactly; `rw_before_write_waits_int`
is the test on `int`s, the same as long as the sum does not overflow. -/
def rw_before_write_waits (rw : Readwrite) : Bool :=
  decide (rw.change ≠ -1) && decide (rw.wcount + rw.rcount > 0)

/-- The body of `rw_before_write` after its wait loop. -/
def rw_before_write_enter (rw : Readwrite) : Readwrite :=
  let rw1 := { rw with change := 0 }
  { rw1 with wcount := rw1.wcount + 1 }

/-- Function `rw_before_write` run by the only thread. -/
def rw_before_write (rw : Readwrite) : Option Readwrite :=
  if rw_before_write_waits rw then none else some (rw_before_write_enter rw)

/-- Function `rw_after_write`. -/
def rw_after_write (rw : Readwrite) : Readwrite :=
  let rw1 := { rw with wcount := rw.wcount - 1 }
  if rw1.rwait > 0 then { rw1 with change := rw1.rwait }
  else if rw1.wwait > 0 then { rw1 with change := -1 }
  else rw1

/-- The loop test of `rw_before_remove`, the sum taken exactly;
`rw_before_remove_waits_int` is the test on `int`s, the same as long as the sum does not
overflow. -/
def rw_before_remove_waits (rw : Readwrite) : Bool :=
  decide (rw.rwait + rw.rcount + rw.wwait + rw.wcount > 0)

/-- Function `rw_before_remove` run by the only thread: no field is written. -/
def rw_before_remove (rw : Readwrite) : Option Readwrite :=
  if rw_before_remove_waits rw then none else some rw

/-- The condition variables of `struct Readwrite`. -/
inductive Cond where
  | readers
  | writers
  | removers
  deriving DecidableEq, Repr

/-- The `pthread_cond_signal` at the end of `rw_before_read`: the condition that is
signalled, if any. -/
def rw_before_read_signal (rw : Readwrite) : Option Cond :=
  if (rw_before_read_enter rw).change > 0 then some .readers else none

/-- The `pthread_cond_signal` of `rw_after_read`: the condition that is signalled,
if any. -/
def rw_after_read_signal (rw : Readwrite) : Option Cond :=
  let rw1 := { rw with rcount := rw.rcount - 1 }
  if rw1.rcount = 0 ∧ rw1.wwait > 0 then some .writers
  else if rw1.rcount = 0 then some .removers
  else none

/-- The `pthread_cond_signal` of `rw_after_write`: the condition that is signalled. -/
def rw_after_write_signal (rw : Readwrite) : Option Cond :=
  let rw1 := { rw with wcount := rw.wcount - 1 }
  if rw1.rwait > 0 then some .readers
  else if rw1.wwait > 0 then some .writers
  else some .removers

/-! ## The counters as `int`s

The definitions above compute on unbounded integers.  That is what the code computes
as long as no sum leaves the range of `int`, which is so in every state a lock
reaches with fewer than `2^31` threads.  The definitions below compute the three wait
tests and the two entries as the compiled code does on every value of the counters:
in 32 bits, two's complement. -/

/-- Where a thread stands at the lock: outside every lock function, in the
`pthread_cond_wait` of one of the three `rw_before_` functions, or between
`rw_before_read` and `rw_after_read`, or between `rw_before_write` and
`rw_after_write`. -/
inductive Pc where
  | idle
  | read_waiting
  | reading
  | write_waiting
  | writing
  | remove_waiting
  deriving DecidableEq, Repr

/-- The step a thread takes: a call of one of the five lock functions, or the return
from `pthread_cond_wait`. -/
inductive Act where
  | before_read
  | after_read
  | before_write
  | after_write
  | before_remove
  | wake
  deriving DecidableEq, Repr

/-- The turn of the loop of `rw_before_read` from its test on: the thread counts
itself as waiting and sleeps, or leaves the loop and enters. -/
def rw_before_read_turn (rw : Readwrite) : Readwrite × Pc :=
  if rw_before_read_waits rw then ({ rw with rwait := rw.rwait + 1 }, .read_waiting)
  else (rw_before_read_enter rw, .reading)

/-- The turn of the loop of `rw_before_write` from its test on. -/
def rw_before_write_turn (rw : Readwrite) : Readwrite × Pc :=
  if rw_before_write_waits rw then ({ rw with wwait := rw.wwait + 1 }, .write_waiting)
  else (rw_before_write_enter rw, .writing)

/-- The turn of the loop of `rw_before_remove` from its test on: the function
writes no counter, and its caller is outside the lock functions once it returns. -/
def rw_before_remove_turn (rw : Readwrite) : Readwrite × Pc :=
  if rw_before_remove_waits rw then (rw, .remove_waiting) else (rw, .idle)

/-- One step of one thread on the counters; `none` when the thread cannot take this
step where it stands (the release functions are called by a holder only). -/
def thread_step (rw : Readwrite) : Pc → Act → Option (Readwrite × Pc)
  | .idle, .before_read => some (rw_before_read_turn rw)
  | .read_waiting, .wake => some (rw_before_read_turn { rw with rwait := rw.rwait - 1 })
  | .reading, .after_read => some (rw_after_read rw, .idle)
  | .idle, .before_write => some (rw_before_write_turn rw)
  | .write_waiting, .wake => some (rw_before_write_turn { rw with wwait := rw.wwait - 1 })
  | .writing, .after_write => some (rw_after_write rw, .idle)
  | .idle, .before_remove => some (rw_before_remove_turn rw)
  | .remove_waiting, .wake => some (rw_before_remove_turn rw)
  | _, _ => none

/-- One lock and the threads that use it. -/
structure LockSys where
  rw : Readwrite
  pcs : List Pc
  deriving DecidableEq, Repr

/-- A lock fresh from `rw_new` and `n` threads outside it. -/
def lock_sys_new (n : Nat) : LockSys := { rw := rw_new, pcs := List.replicate n .idle }

/-- Thread `i` takes the step `a`. -/
def lock_sys_step (s : LockSys) (i : Nat) (a : Act) : Option LockSys :=
  match s.pcs[i]? with
  | none => none
  | some pc =>
    match thread_step s.rw pc a with
    | none => none
    | some (rw1, pc1) => some { rw := rw1, pcs := s.pcs.set i pc1 }

/-- The run of a schedule: a list of steps, each of one thread. -/
def lock_sys_run : LockSys → List (Nat × Act) → Option LockSys
  | s, [] => some s
  | s, (i, a) :: rest =>
    match lock_sys_step s i a with
    | none => none
    | some s1 => lock_sys_run s1 rest

/-- The counters of a lock are not negative. -/
def counters_nonneg (rw : Readwrite) : Prop :=
  0 ≤ rw.rcount ∧ 0 ≤ rw.wcount ∧ 0 ≤ rw.rwait ∧ 0 ≤ rw.wwait

/-! ## `HashMap` -/

/-- Modelled from the spec: the string-keyed map of `HashMap.h` (not among the
sources), a finite mapping from names to values; here an association list in
insertion order. -/
abbrev HashMap (α : Type) := List (List Char × α)

/-- Modelled from the spec: `hmap_get`, the value stored under `key`, if any. -/
def hmap_get {α : Type} : HashMap α → List Char → Option α
  | [], _ => none
  | (k, v) :: rest, key => if k = key then some v else hmap_get rest key

/-- Modelled from the spec: `hmap_insert`, which stores the value and reports
`true` only when the name was new. -/
def hmap_insert {α : Type} (m : HashMap α) (key : List Char) (v : α) : Bool × HashMap α :=
  match hmap_get m key with
  | some _ => (false, m)
  | none => (true, m ++ [(key, v)])

/-- The entry is stored under another name than `key`. -/
def key_ne {α : Type} (key : List Char) (kv : List Char × α) : Bool := decide (kv.1 ≠ key)

/-- Modelled from the spec: `hmap_remove`, which deletes the name and reports
whether it existed. -/
def hmap_remove {α : Type} (m : HashMap α) (key : List Char) : Bool × HashMap α :=
  ((hmap_get m key).isSome, m.filter (key_ne key))

/-- Modelled from the spec: `hmap_size`. -/
def hmap_size {α : Type} (m : HashMap α) : Nat := m.length

/-- Replace the value stored under `key` (a write through the pointer that
`hmap_get` returned). -/
def hmap_update {α : Type} (f : α → α) : HashMap α → List Char → HashMap α
  | [], _ => []
  | (k, v) :: rest, key =>
    if k = key then (k, f v) :: rest else (k, v) :: hmap_update f rest key

/-! ## `struct Tree` -/

/-- The node of `struct Tree`: the map of subdirectories and the lock. -/
inductive Tree where
  | mk (directories : List (List Char × Tree)) (readwrite : Readwrite)

/-- Field `directories`. -/
def Tree.directories : Tree → HashMap Tree
  | .mk d _ => d

/-- Field `readwrite`. -/
def Tree.readwrite : Tree → Readwrite
  | .mk _ rw => rw

/-- Function `tree_new`. -/
def tree_new : Tree := .mk [] rw_new

/-- A `Tree *`: the names leading from the handle to the node. -/
abbrev Addr := List (List Char)

/-- The node a pointer designates. -/
def deref (t : Tree) : Addr → Option Tree
  | [] => some t
  | c :: cs =>
    match hmap_get t.directories c with
    | none => none
    | some child => deref child cs

/-- A write through a pointer: the node at the address is replaced by its image. -/
def modifyAt (f : Tree → Tree) (t : Tree) : Addr → Tree
  | [] => f t
  | c :: cs => .mk (hmap_update (fun child => modifyAt f child cs) t.directories c) t.readwrite

mutual
/-- Every lock in the tree satisfies `P`. -/
def Tree.allLocks (P : Readwrite → Bool) : Tree → Bool
  | .mk dirs rw => P rw && allLocksList P dirs
/-- Every lock below the entries of a map satisfies `P`. -/
def allLocksList (P : Readwrite → Bool) : HashMap Tree → Bool
  | [] => true
  | (_, t) :: rest => Tree.allLocks P t && allLocksList P rest
end

/-! ## `path_utils` -/

/-- Modelled from the spec: the bound `MAX_PATH_LEN` on the length of a path
(`path_utils.h` is not among the sources). -/
def MAX_PATH_LEN : Nat := 4096

/-- Modelled from the spec: the bound `MAX_COMPONENT_LEN` on the length of a
component. -/
def MAX_COMPONENT_LEN : Nat := 64

/-- Modelled from the spec: the scan of `is_path_valid` behind the leading `/`;
`n` is the length of the component being read.  Every component is nonempty,
at most `MAX_COMPONENT_LEN` long, over `a`..`z`, and closed by a `/`. -/
def valid_components : List Char → Nat → Bool
  | [], n => n == 0
  | ch :: rest, n =>
    if ch = '/' then
      decide (0 < n) && decide (n ≤ MAX_COMPONENT_LEN) && valid_components rest 0
    else
      decide ('a' ≤ ch) && decide (ch ≤ 'z') && valid_components rest (n + 1)

/-- Modelled from the spec: `is_path_valid` of `path_utils` (not among the
sources): the path is at most `MAX_PATH_LEN` long, starts and ends with `/`, and
every component between separators is well formed. -/
def is_path_valid (path : List Char) : Bool :=
  decide (path.length ≤ MAX_PATH_LEN) &&
    match path with
    | [] => false
    | ch :: rest => decide (ch = '/') && valid_components rest 0

/-- The character is not the separator `/`. -/
def not_slash (ch : Char) : Bool := decide (ch ≠ '/')

/-- Modelled from the spec: `split_path` of `path_utils`: one component is read
off a subpath that begins with `/`; the result is the remaining subpath (which
begins with `/`) and the component, or `none` when no component is left. -/
def split_path (path : List Char) : Option (List Char × List Char) :=
  match path with
  | [] => none
  | _ :: rest =>
    match rest.dropWhile not_slash with
    | [] => none
    | ch :: subpath => some (ch :: subpath, rest.takeWhile not_slash)

/-- Modelled from the spec: `make_path_to_parent` of `path_utils`: the path to
the parent, with its closing `/`, and the last component.  For `/` the result is
`none`: `tree_move` tests it against `NULL` to recognise the root. -/
def make_path_to_parent (path : List Char) : Option (List Char × List Char) :=
  if path = ['/'] then none
  else
    let r := path.dropLast.reverse
    some ((r.dropWhile not_slash).reverse,
      (r.takeWhile not_slash).reverse)

/-- The longest common prefix of two strings. -/
def common_chars : List Char → List Char → List Char
  | x :: xs, y :: ys => if x = y then x :: common_chars xs ys else []
  | _, _ => []

/-- Modelled from the spec: `longest_common_path` of `path_utils`: the deepest
path prefix, ending in `/`, common to both paths. -/
def longest_common_path (a b : List Char) : List Char :=
  ((common_chars a b).reverse.dropWhile not_slash).reverse

/-- Modelled from the spec: `remove_prefix` of `path_utils`: the tail of `p`
behind `pre`; the tail keeps the `/` that closes `pre`, since `tree_move` hands
it to `split_path`. -/
def remove_prefix (pre p : List Char) : List Char :=
  p.drop (pre.length - 1)

/-- Modelled from the spec: `is_subdirectory` of `path_utils`: `b` lies inside
`a`, that is `a` is an ancestor of `b` or `b` itself. -/
def is_subdirectory (a b : List Char) : Bool :=
  a.isPrefixOf b

/-- Modelled from the spec: `make_map_contents_string` of `path_utils`: the
names of a map joined by `,`, in the order of the map. -/
def make_map_contents_string {α : Type} (m : HashMap α) : List Char :=
  List.intercalate [','] (m.map Prod.fst)

/-! ## `errno.h` -/

/-- The value of `ENOENT`. -/
def ENOENT : Int := 2
/-- The value of `EBUSY`. -/
def EBUSY : Int := 16
/-- The value of `EEXIST`. -/
def EEXIST : Int := 17
/-- The value of `EINVAL`. -/
def EINVAL : Int := 22
/-- The value of `ENOTEMPTY`. -/
def ENOTEMPTY : Int := 39

/-! ## `Tree.c` -/

/-- The expression `node->directories`; the empty map stands in when the
pointer designates no node, which the program never does. -/
def dirsAt (st : Tree) (a : Addr) : HashMap Tree :=
  match deref st a with
  | some n => n.directories
  | none => []

/-- The expression `node->readwrite`. -/
def lockAt (st : Tree) (a : Addr) : Option Readwrite :=
  (deref st a).map Tree.readwrite

/-- Overwrite the lock of a node. -/
def setRw (rw : Readwrite) (n : Tree) : Tree := .mk n.directories rw

/-- Overwrite the map of a node. -/
def setDirs (m : HashMap Tree) (n : Tree) : Tree := .mk m n.readwrite

/-- A call `op(node->readwrite)` of a lock function on the node at an address.
The result is `none` when the call never returns. -/
def rw_call (op : Readwrite → Option Readwrite) (st : Tree) (a : Addr) : Option Tree :=
  match lockAt st a with
  | none => none
  | some rw =>
    match op rw with
    | none => none
    | some rw1 => some (modifyAt (setRw rw1) st a)

/-- The acquisition made by `get_directory_tree`: `rw_before_read`, or
`rw_before_write` when `as_writer`. -/
def rw_before (as_writer : Bool) : Readwrite → Option Readwrite :=
  if !as_writer then rw_before_read else rw_before_write

/-- The release made by `get_directory_tree`: `rw_after_read`, or
`rw_after_write` when `as_writer`. -/
def rw_after (as_writer : Bool) : Readwrite → Option Readwrite :=
  if !as_writer then fun rw => some (rw_after_read rw) else fun rw => some (rw_after_write rw)

/-- The `while` loop of `get_directory_tree`; each turn consumes one component,
so a fuel of the length of the path is never used up. -/
def get_directory_tree_loop (as_writer : Bool) :
    Nat → Tree → Addr → List Char → Option (Tree × Option Addr)
  | 0, _, _, _ => none
  | fuel + 1, st, curr_tree, subpath =>
    match split_path subpath with
    | none => some (st, some curr_tree)
    | some (subpath1, component) =>
      match hmap_get (dirsAt st curr_tree) component with
      | none =>
        match rw_call (rw_after as_writer) st curr_tree with
        | none => none
        | some st1 => some (st1, none)
      | some _ =>
        match rw_call (rw_before as_writer) st (curr_tree ++ [component]) with
        | none => none
        | some st1 =>
          match rw_call (rw_after as_writer) st1 curr_tree with
          | none => none
          | some st2 =>
            get_directory_tree_loop as_writer fuel st2 (curr_tree ++ [component]) subpath1

/-- Function `get_directory_tree`: the state afterwards and the node reached
(`none` for `NULL`).  A path is a list here, never `NULL`, so the first test of the
function has no counterpart. -/
def get_directory_tree (st : Tree) (root : Addr) (path : List Char) (as_writer : Bool) :
    Option (Tree × Option Addr) :=
  match rw_call (rw_before as_writer) st root with
  | none => none
  | some st1 => get_directory_tree_loop as_writer path.length st1 root path

mutual
/-- Function `lock_subtree`, on the node it is given. -/
def lock_subtree : Tree → Option Tree
  | .mk dirs rw =>
    match rw_before_remove rw with
    | none => none
    | some rw1 =>
      match lock_subtree_children dirs with
      | none => none
      | some dirs1 => some (.mk dirs1 rw1)
/-- The `while` loop of `lock_subtree` over the entries of the map. -/
def lock_subtree_children : List (List Char × Tree) → Option (List (List Char × Tree))
  | [] => some []
  | (key, value) :: rest =>
    match lock_subtree value with
    | none => none
    | some value1 =>
      match lock_subtree_children rest with
      | none => none
      | some rest1 => some ((key, value1) :: rest1)
end

/-- Function `tree_list`: the state afterwards and the string returned (`none`
for `NULL`). -/
def tree_list (tree : Tree) (path : List Char) : Option (Tree × Option (List Char)) :=
  if !is_path_valid path then some (tree, none)
  else
    match get_directory_tree tree [] path false with
    | none => none
    | some (st, none) => some (st, none)
    | some (st, some dir_tree) =>
      let result := make_map_contents_string (dirsAt st dir_tree)
      match rw_call (fun rw => some (rw_after_read rw)) st dir_tree with
      | none => none
      | some st1 => some (st1, some result)

/-- The block `Lock parent directory as writer` that `tree_create` and
`tree_remove` share: the state afterwards and either the parent, locked as
writer, with the name of the child, or `none` where the function returns
`ENOENT`. -/
def lock_parent_directory (tree : Tree) (path : List Char) :
    Option (Tree × Option (Addr × List Char)) :=
  match make_path_to_parent path with
  | none => none
  | some (path_to_parent, child) =>
    if path_to_parent = ['/'] then
      match rw_call rw_before_write tree [] with
      | none => none
      | some st => some (st, some ([], child))
    else
      match make_path_to_parent path_to_parent with
      | none => none
      | some (path_to_grandparent, parent) =>
        match get_directory_tree tree [] path_to_grandparent false with
        | none => none
        | some (st, none) => some (st, none)
        | some (st, some grandparent_tree) =>
          match hmap_get (dirsAt st grandparent_tree) parent with
          | none =>
            match rw_call (fun rw => some (rw_after_read rw)) st grandparent_tree with
            | none => none
            | some st1 => some (st1, none)
          | some _ =>
            match rw_call rw_before_write st (grandparent_tree ++ [parent]) with
            | none => none
            | some st1 =>
              match rw_call (fun rw => some (rw_after_read rw)) st1 grandparent_tree with
              | none => none
              | some st2 => some (st2, some (grandparent_tree ++ [parent], child))

/-- Function `tree_create`: the state afterwards and the result. -/
def tree_create (tree : Tree) (path : List Char) : Option (Tree × Int) :=
  if !is_path_valid path then some (tree, EINVAL)
  else if path = ['/'] then some (tree, EEXIST)
  else
    match lock_parent_directory tree path with
    | none => none
    | some (st, none) => some (st, ENOENT)
    | some (st, some (parent_tree, child)) =>
      let new_tree := tree_new
      let ins := hmap_insert (dirsAt st parent_tree) child new_tree
      if !ins.1 then
        match rw_call (fun rw => some (rw_after_write rw)) st parent_tree with
        | none => none
        | some st1 => some (st1, EEXIST)
      else
        match rw_call (fun rw => some (rw_after_write rw))
            (modifyAt (setDirs ins.2) st parent_tree) parent_tree with
        | none => none
        | some st1 => some (st1, 0)

/-- Function `tree_remove`: the state afterwards and the result. -/
def tree_remove (tree : Tree) (path : List Char) : Option (Tree × Int) :=
  if !is_path_valid path then some (tree, EINVAL)
  else if path = ['/'] then some (tree, EBUSY)
  else
    match lock_parent_directory tree path with
    | none => none
    | some (st, none) => some (st, ENOENT)
    | some (st, some (parent_tree, child)) =>
      match hmap_get (dirsAt st parent_tree) child with
      | none =>
        match rw_call (fun rw => some (rw_after_write rw)) st parent_tree with
        | none => none
        | some st1 => some (st1, ENOENT)
      | some _ =>
        match rw_call rw_before_remove st (parent_tree ++ [child]) with
        | none => none
        | some st1 =>
          if hmap_size (dirsAt st1 (parent_tree ++ [child])) ≠ 0 then
            match rw_call (fun rw => some (rw_after_write rw)) st1 parent_tree with
            | none => none
            | some st2 => some (st2, ENOTEMPTY)
          else
            let rem := hmap_remove (dirsAt st1 parent_tree) child
            match rw_call (fun rw => some (rw_after_write rw))
                (modifyAt (setDirs rem.2) st1 parent_tree) parent_tree with
            | none => none
            | some st2 => some (st2, 0)

/-- The statement `if (!skip) rw_after_write(node->readwrite);`. -/
def rw_after_write_unless (skip : Bool) (st : Tree) (a : Addr) : Option Tree :=
  if !skip then rw_call (fun rw => some (rw_after_write rw)) st a else some st

/-- The block `Lock LCA of source's and target's parents' as writer` of
`tree_move` (lines 244-279): the state afterwards and the LCA node, or `none`
where the function returns `ENOENT`. -/
def tree_move_lock_lca (tree : Tree) (lcp : List Char) : Option (Tree × Option Addr) :=
  match make_path_to_parent lcp with
  | none =>
    match rw_call rw_before_write tree [] with
    | none => none
    | some st => some (st, some [])
  | some (path_to_lca_parent, lca) =>
    match get_directory_tree tree [] path_to_lca_parent false with
    | none => none
    | some (st, none) => some (st, none)
    | some (st, some lca_parent_tree) =>
      match hmap_get (dirsAt st lca_parent_tree) lca with
      | none =>
        match rw_call (fun rw => some (rw_after_read rw)) st lca_parent_tree with
        | none => none
        | some st1 => some (st1, none)
      | some _ =>
        match rw_call rw_before_write st (lca_parent_tree ++ [lca]) with
        | none => none
        | some st1 =>
          match rw_call (fun rw => some (rw_after_read rw)) st1 lca_parent_tree with
          | none => none
          | some st2 => some (st2, some (lca_parent_tree ++ [lca]))

/-- The blocks `Lock target's parent as writer` (lines 282-317) and `Lock
source's parent as writer` (lines 332-368) of `tree_move`, up to the releases
on their `ENOENT` exits: the state afterwards and either the parent with the
flag that it is the LCA node, or `none` where the function goes to the
`ENOENT` exit. -/
def tree_move_lock_from_lca (st : Tree) (lca_tree : Addr) (lcp path_to_parent : List Char) :
    Option (Tree × Option (Addr × Bool)) :=
  let path_to_parent_from_lca := remove_prefix lcp path_to_parent
  match split_path path_to_parent_from_lca with
  | none => some (st, some (lca_tree, true))
  | some (path_to_parent_from_lca_child, lca_child) =>
    match hmap_get (dirsAt st lca_tree) lca_child with
    | none => some (st, none)
    | some _ =>
      match get_directory_tree st (lca_tree ++ [lca_child])
          path_to_parent_from_lca_child true with
      | none => none
      | some (st1, none) => some (st1, none)
      | some (st1, some parent_tree) => some (st1, some (parent_tree, false))

/-- Lines 387-399 of `tree_move`: `lock_subtree` on the source, then the new
node, which takes over the map of the source under a fresh lock, is inserted
under the target's parent and the source is removed from its parent.  The map
handed over is the one read at the source before the insertion: the target's
parent is not inside the source here, `is_subdirectory` having been tested. -/
def tree_move_relocate (st : Tree) (target_parent_tree : Addr) (target_name : List Char)
    (source_parent_tree : Addr) (source_name : List Char) : Option Tree :=
  let source_tree := source_parent_tree ++ [source_name]
  match deref st source_tree with
  | none => none
  | some n =>
    match lock_subtree n with
    | none => none
    | some n1 =>
      let st1 := modifyAt (fun _ => n1) st source_tree
      let new_node := Tree.mk (dirsAt st1 source_tree) rw_new
      let st2 := modifyAt
        (setDirs (hmap_insert (dirsAt st1 target_parent_tree) target_name new_node).2)
        st1 target_parent_tree
      some (modifyAt
        (setDirs (hmap_remove (dirsAt st2 source_parent_tree) source_name).2)
        st2 source_parent_tree)

/-- Lines 370-408 of `tree_move`, from the lookup of the source on: the `ENOENT`
exit when the source is absent; else the release of the LCA node when it is
neither parent, `lock_subtree` and the move, the releases, and the result 0. -/
def tree_move_finish (st2 : Tree) (lca_tree target_parent_tree : Addr)
    (is_targets_parent_lca : Bool) (target_name : List Char) (source_parent_tree : Addr)
    (is_sources_parent_lca : Bool) (source_name : List Char) : Option (Tree × Int) :=
  match hmap_get (dirsAt st2 source_parent_tree) source_name with
  | none =>
    match rw_call (fun rw => some (rw_after_write rw)) st2 lca_tree with
    | none => none
    | some st3 =>
      match rw_after_write_unless is_targets_parent_lca st3 target_parent_tree with
      | none => none
      | some st4 =>
        match rw_after_write_unless is_sources_parent_lca st4 source_parent_tree with
        | none => none
        | some st5 => some (st5, ENOENT)
  | some _ =>
    match rw_after_write_unless (is_targets_parent_lca || is_sources_parent_lca)
        st2 lca_tree with
    | none => none
    | some st3 =>
      match tree_move_relocate st3 target_parent_tree target_name
          source_parent_tree source_name with
      | none => none
      | some st4 =>
        if is_targets_parent_lca && is_sources_parent_lca then
          match rw_call (fun rw => some (rw_after_write rw)) st4 lca_tree with
          | none => none
          | some st5 => some (st5, 0)
        else
          match rw_call (fun rw => some (rw_after_write rw)) st4 target_parent_tree with
          | none => none
          | some st5 =>
            match rw_call (fun rw => some (rw_after_write rw)) st5 source_parent_tree with
            | none => none
            | some st6 => some (st6, 0)

/-- Function `tree_move`: the state afterwards and the result. -/
def tree_move (tree : Tree) (source target : List Char) : Option (Tree × Int) :=
  if !is_path_valid source || !is_path_valid target then some (tree, EINVAL)
  else if source = ['/'] then some (tree, EBUSY)
  else if target = ['/'] then some (tree, EEXIST)
  else if source = target then some (tree, 0)
  else if is_subdirectory source target then some (tree, -1)
  else
    match make_path_to_parent target, make_path_to_parent source with
    | some (path_to_target_parent, target_name), some (path_to_source_parent, source_name) =>
      let lcp := longest_common_path path_to_source_parent path_to_target_parent
      match tree_move_lock_lca tree lcp with
      | none => none
      | some (st, none) => some (st, ENOENT)
      | some (st, some lca_tree) =>
        match tree_move_lock_from_lca st lca_tree lcp path_to_target_parent with
        | none => none
        | some (st1, none) =>
          match rw_call (fun rw => some (rw_after_write rw)) st1 lca_tree with
          | none => none
          | some st2 => some (st2, ENOENT)
        | some (st1, some (target_parent_tree, is_targets_parent_lca)) =>
          if (hmap_get (dirsAt st1 target_parent_tree) target_name).isSome then
            match rw_call (fun rw => some (rw_after_write rw)) st1 lca_tree with
            | none => none
            | some st2 =>
              match rw_after_write_unless is_targets_parent_lca st2 target_parent_tree with
              | none => none
              | some st3 => some (st3, EEXIST)
          else
            match tree_move_lock_from_lca st1 lca_tree lcp path_to_source_parent with
            | none => none
            | some (st2, none) =>
              match rw_call (fun rw => some (rw_after_write rw)) st2 lca_tree with
              | none => none
              | some st3 =>
                match rw_after_write_unless is_targets_parent_lca st3 target_parent_tree with
                | none => none
                | some st4 => some (st4, ENOENT)
            | some (st2, some (source_parent_tree, is_sources_parent_lca)) =>
              tree_move_finish st2 lca_tree target_parent_tree is_targets_parent_lca
                target_name source_parent_tree is_sources_parent_lca source_name
    | _, _ => none

/-! ## Equality of trees is decidable -/

mutual
/-- Equality of two trees is decidable. -/
def Tree.decEq : (a b : Tree) → Decidable (a = b)
  | .mk d1 r1, .mk d2 r2 =>
    if hr : r1 = r2 then
      match decEqList d1 d2 with
      | isTrue hd => isTrue (by rw [hr, hd])
      | isFalse hd => isFalse (by intro h; cases h; exact hd rfl)
    else isFalse (by intro h; cases h; exact hr rfl)
/-- Equality of two maps of trees is decidable. -/
def decEqList : (a b : List (List Char × Tree)) → Decidable (a = b)
  | [], [] => isTrue rfl
  | (k1, v1) :: r1, (k2, v2) :: r2 =>
    if hk : k1 = k2 then
      match Tree.decEq v1 v2 with
      | isTrue hv =>
        match decEqList r1 r2 with
        | isTrue h => isTrue (by rw [hk, hv, h])
        | isFalse h => isFalse (by intro e; cases e; exact h rfl)
      | isFalse hv => isFalse (by intro e; cases e; exact hv rfl)
    else isFalse (by intro e; cases e; exact hk rfl)
  | [], _ :: _ => isFalse (by simp)
  | _ :: _, [] => isFalse (by simp)
end

instance : DecidableEq Tree := Tree.decEq

/-! ## Vocabulary of the statements -/

/-- The lock of a node no thread is in or waits at: the state `rw_new` sets up. -/
def neutral (rw : Readwrite) : Bool := decide (rw = rw_new)

/-- Every lock of the tree is neutral. -/
def all_neutral (t : Tree) : Bool := t.allLocks neutral

/-- A well-formed component: nonempty, at most `MAX_COMPONENT_LEN` long, over
`a`..`z`. -/
def valid_name (c : List Char) : Bool :=
  decide (0 < c.length) && decide (c.length ≤ MAX_COMPONENT_LEN) &&
    c.all (fun ch => decide ('a' ≤ ch) && decide (ch ≤ 'z'))

mutual
/-- Every name in the tree is a well-formed component. -/
def names_valid : Tree → Bool
  | .mk dirs _ => names_valid_list dirs
/-- Every name in a map and below it is a well-formed component. -/
def names_valid_list : List (List Char × Tree) → Bool
  | [] => true
  | (k, t) :: rest => valid_name k && names_valid t && names_valid_list rest
end

/-- The path without its closing `/`. -/
def stem : List (List Char) → List Char
  | [] => []
  | c :: cs => '/' :: (c ++ stem cs)

/-- The path with the given components. -/
def render (cs : List (List Char)) : List Char := stem cs ++ ['/']

/-- The longest common prefix of two lists of components. -/
def common_components : List (List Char) → List (List Char) → List (List Char)
  | x :: xs, y :: ys => if x = y then x :: common_components xs ys else []
  | _, _ => []

/-- A listing, as `tree_list` returns it, contains a name: the name is one of
the pieces between the commas. -/
def listing_contains (listing name : List Char) : Prop :=
  name ∈ listing.splitOn ','

instance (listing name : List Char) : Decidable (listing_contains listing name) := by
  unfold listing_contains; infer_instance

/-- The lock of a node held once, as `get_directory_tree` acquires it from the
neutral state: by one reader, or by one writer when `as_writer`. -/
def rw_held (as_writer : Bool) : Readwrite :=
  if as_writer then rw_before_write_enter rw_new else rw_before_read_enter rw_new

/-- The path to the parent of a path other than the root, as `make_path_to_parent`
gives it (`parent_of` in the specification). -/
def parent_of (p : List Char) : List Char :=
  match make_path_to_parent p with
  | some (path_to_parent, _) => path_to_parent
  | none => p

/-- The last component of a path other than the root, as `make_path_to_parent` gives
it. -/
def basename (p : List Char) : List Char :=
  match make_path_to_parent p with
  | some (_, component) => component
  | none => []

/-- The directory of a path exists, as `tree_list` tells: it returns a string. -/
def dir_exists (t : Tree) (p : List Char) : Bool :=
  match tree_list t p with
  | some (_, some _) => true
  | _ => false

/-- The tree with the directories `/a/`, `/a/x/` and `/b/`, all locks neutral. -/
def example_tree : Tree :=
  .mk [(['a'], .mk [(['x'], tree_new)] rw_new), (['b'], tree_new)] rw_new

/-- The tree that is one chain of directories with the given names. -/
def deep_chain : List (List Char) → Tree
  | [] => tree_new
  | c :: cs => .mk [(c, deep_chain cs)] rw_new

/-- Sixty-two names of 64 letters and a name of one letter. -/
def long_names : Addr := List.replicate 62 (List.replicate 64 'c') ++ [['x']]

/-- The tree with `/a/` and, below it, the chain of directories named by `long_names`:
the deepest has a path of 4035 characters. -/
def long_tree : Tree := .mk [(['a'], deep_chain long_names)] rw_new

/-- A path of one component of 64 letters. -/
def long_target : List Char := render [List.replicate 64 'b']

/-- The suffix that leads from a directory down the chain named by `long_names`. -/
def long_suffix : List Char := (render long_names).tail

/-! ## Vocabulary of the proofs -/

/-- The node with one more entry: the effect of `hmap_insert` of a new name. -/
def insNode (k : List Char) (x : Tree) (n : Tree) : Tree :=
  .mk (n.directories ++ [(k, x)]) n.readwrite

/-- The node without the entry of a name: the effect of `hmap_remove`. -/
def delNode (k : List Char) (n : Tree) : Tree :=
  .mk (n.directories.filter (key_ne k)) n.readwrite


/-- A node function that does not look at the lock. -/
def LockIndep (g : Tree → Tree) : Prop :=
  ∀ v n, g (setRw v n) = setRw v (g n)

/-- A node function under which a write below the child `c` can be done before or after. -/
def KeepsChild (g : Tree → Tree) (c : List Char) : Prop :=
  ∀ (h : Tree → Tree) (n : Tree),
    g (.mk (hmap_update h n.directories c) n.readwrite) =
      .mk (hmap_update h (g n).directories c) (g n).readwrite

/-- The invariant of one lock and its threads: each counter is the number of
threads in the matching place, at most one writer is inside and then no reader is,
`change` is `-1` only between the departure of the last holder and the entry of a
writer that waits, and positive only while no writer is inside. -/
def lock_inv (s : LockSys) : Prop :=
  s.rw.rcount = (s.pcs.count .reading : Int) ∧
  s.rw.wcount = (s.pcs.count .writing : Int) ∧
  s.rw.rwait = (s.pcs.count .read_waiting : Int) ∧
  s.rw.wwait = (s.pcs.count .write_waiting : Int) ∧
  s.rw.wcount ≤ 1 ∧
  (0 < s.rw.wcount → s.rw.rcount = 0) ∧
  (s.rw.change = -1 → s.rw.rcount = 0 ∧ s.rw.wcount = 0 ∧ 0 < s.rw.wwait) ∧
  (0 < s.rw.change → s.rw.wcount = 0 ∧ s.rw.change ≤ s.rw.rwait) ∧
  -1 ≤ s.rw.change

/-! # Theorems -/

/-! ## Paths -/

theorem lower_ne_slash {ch : Char} (h : 'a' ≤ ch) : ch ≠ '/' := by
  rintro rfl; revert h; decide

theorem lower_ne_comma {ch : Char} (h : 'a' ≤ ch) : ch ≠ ',' := by
  rintro rfl; revert h; decide

theorem valid_name_iff (c : List Char) :
    valid_name c = true ↔ 0 < c.length ∧ c.length ≤ MAX_COMPONENT_LEN ∧
      ∀ ch ∈ c, 'a' ≤ ch ∧ ch ≤ 'z' := by
  simp [valid_name, and_assoc]

theorem valid_name_slash {c : List Char} (h : valid_name c = true) : '/' ∉ c := by
  intro hm
  exact lower_ne_slash (((valid_name_iff c).1 h).2.2 _ hm).1 rfl

theorem valid_name_comma {c : List Char} (h : valid_name c = true) : ',' ∉ c := by
  intro hm
  exact lower_ne_comma (((valid_name_iff c).1 h).2.2 _ hm).1 rfl

theorem valid_name_ne_nil {c : List Char} (h : valid_name c = true) : c ≠ [] := by
  intro e
  have := ((valid_name_iff c).1 h).1
  simp [e] at this

theorem stem_append (a b : List (List Char)) : stem (a ++ b) = stem a ++ stem b := by
  induction a with
  | nil => rfl
  | cons c cs ih => simp [stem, ih]

theorem render_nil : render [] = ['/'] := rfl

theorem render_cons (c : List Char) (cs : List (List Char)) :
    render (c :: cs) = '/' :: (c ++ render cs) := by
  simp [render, stem]

theorem render_append (a b : List (List Char)) : render (a ++ b) = stem a ++ render b := by
  simp [render, stem_append]

theorem render_eq_cons (cs : List (List Char)) : ∃ r, render cs = '/' :: r := by
  cases cs with
  | nil => exact ⟨[], rfl⟩
  | cons c cs => exact ⟨_, render_cons c cs⟩

theorem takeWhile_slash (c r : List Char) (h : '/' ∉ c) :
    (c ++ '/' :: r).takeWhile not_slash = c := by
  induction c with
  | nil => simp [List.takeWhile, not_slash]
  | cons x xs ih =>
    have hx : not_slash x = true := by
      simp only [not_slash, decide_eq_true_eq]; exact fun e => h (by simp [e])
    have hxs : '/' ∉ xs := fun e => h (by simp [e])
    simp [List.takeWhile, hx, ih hxs]

theorem dropWhile_slash (c r : List Char) (h : '/' ∉ c) :
    (c ++ '/' :: r).dropWhile not_slash = '/' :: r := by
  induction c with
  | nil => simp [List.dropWhile, not_slash]
  | cons x xs ih =>
    have hx : not_slash x = true := by
      simp only [not_slash, decide_eq_true_eq]; exact fun e => h (by simp [e])
    have hxs : '/' ∉ xs := fun e => h (by simp [e])
    simp [List.dropWhile, hx, ih hxs]

theorem split_path_render_nil : split_path (render []) = none := by
  simp [render, stem, split_path]

theorem split_path_render_cons (c : List Char) (cs : List (List Char)) (h : '/' ∉ c) :
    split_path (render (c :: cs)) = some (render cs, c) := by
  obtain ⟨r, hr⟩ := render_eq_cons cs
  rw [render_cons, hr]
  simp only [split_path]
  rw [dropWhile_slash c r h, takeWhile_slash c r h]

theorem render_ne_root (c : List Char) (cs : List (List Char)) : render (c :: cs) ≠ ['/'] := by
  obtain ⟨r, hr⟩ := render_eq_cons cs
  rw [render_cons, hr]
  simp

theorem render_snoc_ne_root (cs : List (List Char)) (c : List Char) :
    render (cs ++ [c]) ≠ ['/'] := by
  cases cs with
  | nil => exact render_ne_root c []
  | cons d ds => exact render_ne_root d (ds ++ [c])

theorem make_path_to_parent_render (cs : List (List Char)) (c : List Char) (h : '/' ∉ c) :
    make_path_to_parent (render (cs ++ [c])) = some (render cs, c) := by
  unfold make_path_to_parent
  rw [if_neg (render_snoc_ne_root cs c)]
  have e : render (cs ++ [c]) = (stem cs ++ '/' :: c) ++ ['/'] := by
    simp [render, stem_append, stem]
  have hrev : '/' ∉ c.reverse := by simpa using h
  rw [e, List.dropLast_concat]
  have e2 : (stem cs ++ '/' :: c).reverse = c.reverse ++ '/' :: (stem cs).reverse := by simp
  rw [e2]
  dsimp only
  rw [dropWhile_slash _ _ hrev, takeWhile_slash _ _ hrev]
  simp [render]

theorem make_path_to_parent_root : make_path_to_parent (render []) = none := by
  simp [make_path_to_parent, render, stem]
theorem valid_components_name (c r : List Char) (n : Nat)
    (h : ∀ ch ∈ c, 'a' ≤ ch ∧ ch ≤ 'z') :
    valid_components (c ++ '/' :: r) n =
      (decide (0 < n + c.length) && decide (n + c.length ≤ MAX_COMPONENT_LEN) &&
        valid_components r 0) := by
  induction c generalizing n with
  | nil => simp [valid_components]
  | cons x xs ih =>
    have hx := h x (by simp)
    have hne : x ≠ '/' := lower_ne_slash hx.1
    have hxs : ∀ ch ∈ xs, 'a' ≤ ch ∧ ch ≤ 'z' := fun ch hc => h ch (by simp [hc])
    rw [List.cons_append, valid_components, if_neg hne, ih (n + 1) hxs]
    simp [hx.1, hx.2, Nat.add_assoc, Nat.add_comm 1]

theorem valid_components_split (r : List Char) (n : Nat) (h : valid_components r n = true) :
    (r = [] ∧ n = 0) ∨ ∃ c r1, r = c ++ '/' :: r1 ∧ (∀ ch ∈ c, 'a' ≤ ch ∧ ch ≤ 'z') ∧
      0 < n + c.length ∧ n + c.length ≤ MAX_COMPONENT_LEN ∧ valid_components r1 0 = true := by
  induction r generalizing n with
  | nil => left; simpa [valid_components] using h
  | cons x xs ih =>
    right
    rw [valid_components] at h
    by_cases hx : x = '/'
    · rw [if_pos hx] at h
      simp only [Bool.and_eq_true, decide_eq_true_eq] at h
      exact ⟨[], xs, by simp [hx], by simp, by simpa using h.1.1, by simpa using h.1.2, h.2⟩
    · rw [if_neg hx] at h
      simp only [Bool.and_eq_true, decide_eq_true_eq] at h
      rcases ih (n + 1) h.2 with ⟨_, h0⟩ | ⟨c, r1, e, hc, h1, h2, h3⟩
      · omega
      · refine ⟨x :: c, r1, by simp [e], ?_, ?_, ?_, h3⟩
        · intro ch hm
          rcases List.mem_cons.1 hm with rfl | hm
          · exact h.1
          · exact hc ch hm
        · simp only [List.length_cons]; omega
        · simp only [List.length_cons]; omega

theorem valid_components_render (cs : List (List Char)) (h : ∀ c ∈ cs, valid_name c = true) :
    valid_components (stem cs ++ ['/']).tail 0 = true := by
  induction cs with
  | nil => simp [stem, valid_components]
  | cons c cs ih =>
    have hc := (valid_name_iff c).1 (h c (by simp))
    have hcs : ∀ d ∈ cs, valid_name d = true := fun d hd => h d (by simp [hd])
    obtain ⟨r, hr⟩ := render_eq_cons cs
    have e : (stem (c :: cs) ++ ['/']).tail = c ++ '/' :: r := by
      have := render_cons c cs
      rw [hr] at this
      simp only [render] at this
      rw [this]; rfl
    have ih1 := ih hcs
    have hr1 : (stem cs ++ ['/']).tail = r := by
      simp only [render] at hr
      rw [hr]; rfl
    rw [hr1] at ih1
    rw [e, valid_components_name c r 0 hc.2.2, ih1]
    simp [hc.1, hc.2.1]

theorem valid_components_parse (k : Nat) : ∀ r : List Char, r.length ≤ k →
    valid_components r 0 = true →
    ∃ cs, '/' :: r = render cs ∧ ∀ c ∈ cs, valid_name c = true := by
  induction k with
  | zero =>
    intro r hk _
    have : r = [] := List.length_eq_zero.1 (Nat.le_zero.1 hk)
    exact ⟨[], by simp [this, render, stem], by simp⟩
  | succ k ih =>
    intro r hk h
    rcases valid_components_split r 0 h with ⟨e, _⟩ | ⟨c, r1, e, hc, h1, h2, h3⟩
    · exact ⟨[], by simp [e, render, stem], by simp⟩
    · have hlen : r1.length ≤ k := by
        have := congrArg List.length e
        simp at this
        omega
      obtain ⟨cs, e1, hcs⟩ := ih r1 hlen h3
      refine ⟨c :: cs, ?_, ?_⟩
      · rw [render_cons, ← e1, e]
      · intro d hd
        rcases List.mem_cons.1 hd with rfl | hd
        · exact (valid_name_iff d).2 ⟨by omega, by omega, hc⟩
        · exact hcs d hd

/-- A path is valid exactly when it is short enough and renders a list of
well-formed components. -/
theorem is_path_valid_iff (p : List Char) :
    is_path_valid p = true ↔
      p.length ≤ MAX_PATH_LEN ∧ ∃ cs, p = render cs ∧ ∀ c ∈ cs, valid_name c = true := by
  constructor
  · intro h
    unfold is_path_valid at h
    cases p with
    | nil => simp at h
    | cons ch rest =>
      simp only [Bool.and_eq_true, decide_eq_true_eq] at h
      obtain ⟨hl, rfl, hv⟩ := h
      exact ⟨hl, valid_components_parse rest.length rest (Nat.le_refl _) hv⟩
  · rintro ⟨hl, cs, rfl, hcs⟩
    have hv := valid_components_render cs hcs
    obtain ⟨r, hr⟩ := render_eq_cons cs
    have hv1 : valid_components r 0 = true := by
      simp only [render] at hr
      rw [hr] at hv
      exact hv
    rw [hr] at hl ⊢
    simp only [is_path_valid, Bool.and_eq_true, decide_eq_true_eq]
    exact ⟨hl, trivial, hv1⟩

theorem first_slash (c d x y : List Char) (hc : '/' ∉ c) (hd : '/' ∉ d)
    (h : c ++ '/' :: x <+: d ++ '/' :: y) : c = d ∧ x <+: y := by
  induction c generalizing d with
  | nil =>
    cases d with
    | nil => simpa [List.cons_prefix_cons] using h
    | cons e d1 =>
      simp only [List.nil_append, List.cons_append, List.cons_prefix_cons] at h
      exact absurd (List.mem_cons.2 (Or.inl h.1)) hd
  | cons u c1 ih =>
    cases d with
    | nil =>
      simp only [List.nil_append, List.cons_append, List.cons_prefix_cons] at h
      exact absurd (List.mem_cons.2 (Or.inl h.1.symm)) hc
    | cons e d1 =>
      simp only [List.cons_append, List.cons_prefix_cons] at h
      have := ih d1 (fun m => hc (by simp [m])) (fun m => hd (by simp [m])) h.2
      exact ⟨by rw [h.1, this.1], this.2⟩

theorem render_prefix_iff (a b : List (List Char)) (ha : ∀ c ∈ a, '/' ∉ c)
    (hb : ∀ c ∈ b, '/' ∉ c) : render a <+: render b ↔ a <+: b := by
  constructor
  · intro h
    induction a generalizing b with
    | nil => exact List.nil_prefix
    | cons c a1 ih =>
      cases b with
      | nil =>
        obtain ⟨r, hr⟩ := render_eq_cons a1
        rw [render_cons, hr, render_nil, List.cons_prefix_cons] at h
        have := h.2.length_le
        simp at this
      | cons d b1 =>
        obtain ⟨r, hr⟩ := render_eq_cons a1
        obtain ⟨s, hs⟩ := render_eq_cons b1
        rw [render_cons, render_cons, List.cons_prefix_cons, hr, hs] at h
        have h1 := first_slash c d r s (ha c (by simp)) (hb d (by simp)) h.2
        have h2 : render a1 <+: render b1 := by
          rw [hr, hs, List.cons_prefix_cons]; exact ⟨rfl, h1.2⟩
        have h3 := ih b1 (fun x hx => ha x (by simp [hx])) (fun x hx => hb x (by simp [hx])) h2
        rw [List.cons_prefix_cons]
        exact ⟨h1.1, h3⟩
  · rintro ⟨s, rfl⟩
    obtain ⟨r, hr⟩ := render_eq_cons s
    rw [render_append, hr]
    exact ⟨r, by simp [render]⟩

theorem render_inj (a b : List (List Char)) (ha : ∀ c ∈ a, '/' ∉ c) (hb : ∀ c ∈ b, '/' ∉ c)
    (h : render a = render b) : a = b := by
  have h1 : a <+: b := (render_prefix_iff a b ha hb).1 (h ▸ List.prefix_refl _)
  have h2 : b <+: a := (render_prefix_iff b a hb ha).1 (h ▸ List.prefix_refl _)
  exact List.Sublist.antisymm h1.sublist h2.sublist

theorem is_subdirectory_render (a b : List (List Char)) (ha : ∀ c ∈ a, '/' ∉ c)
    (hb : ∀ c ∈ b, '/' ∉ c) : is_subdirectory (render a) (render b) = true ↔ a <+: b := by
  unfold is_subdirectory
  rw [ List.isPrefixOf_iff_prefix]
  exact render_prefix_iff a b ha hb

theorem remove_prefix_render (l s : List (List Char)) :
    remove_prefix (render l) (render (l ++ s)) = render s := by
  unfold remove_prefix
  rw [render_append]
  have : (render l).length - 1 = (stem l).length := by simp [render]
  rw [this, List.drop_left]

theorem common_chars_append (x r s : List Char) :
    common_chars (x ++ r) (x ++ s) = x ++ common_chars r s := by
  induction x with
  | nil => rfl
  | cons u x1 ih => simp [common_chars, ih]

theorem common_chars_no_slash (c d r s : List Char) (hc : '/' ∉ c) (hd : '/' ∉ d)
    (hne : c ≠ d) : '/' ∉ common_chars (c ++ '/' :: r) (d ++ '/' :: s) := by
  induction c generalizing d with
  | nil =>
    cases d with
    | nil => exact absurd rfl hne
    | cons e d1 =>
      have : '/' ≠ e := fun h => hd (List.mem_cons.2 (Or.inl h))
      simp [common_chars, this]
  | cons u c1 ih =>
    have hu : u ≠ '/' := fun h => hc (List.mem_cons.2 (Or.inl h.symm))
    cases d with
    | nil => simp [common_chars, hu]
    | cons e d1 =>
      simp only [List.cons_append, common_chars]
      by_cases hue : u = e
      · rw [if_pos hue]
        have := ih d1 (fun m => hc (by simp [m])) (fun m => hd (by simp [m]))
          (fun h => hne (by rw [hue, h]))
        intro hm
        rcases List.mem_cons.1 hm with h | h
        · exact hu h.symm
        · exact this h
      · rw [if_neg hue]; simp

theorem common_chars_render (a b : List (List Char)) (ha : ∀ c ∈ a, '/' ∉ c)
    (hb : ∀ c ∈ b, '/' ∉ c) :
    ∃ w, '/' ∉ w ∧
      common_chars (render a) (render b) = stem (common_components a b) ++ '/' :: w := by
  induction a generalizing b with
  | nil =>
    obtain ⟨r, hr⟩ := render_eq_cons b
    refine ⟨[], by simp, ?_⟩
    rw [hr, render_nil]
    cases r <;> simp [common_chars, common_components, stem]
  | cons c a1 ih =>
    cases b with
    | nil =>
      obtain ⟨r, hr⟩ := render_eq_cons (c :: a1)
      refine ⟨[], by simp, ?_⟩
      rw [hr, render_nil]
      cases r <;> simp [common_chars, common_components, stem]
    | cons d b1 =>
      have ha1 : ∀ x ∈ a1, '/' ∉ x := fun x hx => ha x (by simp [hx])
      have hb1 : ∀ x ∈ b1, '/' ∉ x := fun x hx => hb x (by simp [hx])
      rw [render_cons, render_cons]
      by_cases hcd : c = d
      · subst hcd
        obtain ⟨w, hw, e⟩ := ih b1 ha1 hb1
        refine ⟨w, hw, ?_⟩
        simp only [common_chars, if_true, common_chars_append, e, common_components, stem]
        simp
      · obtain ⟨r, hr⟩ := render_eq_cons a1
        obtain ⟨s, hs⟩ := render_eq_cons b1
        refine ⟨common_chars (c ++ '/' :: r) (d ++ '/' :: s), ?_, ?_⟩
        · exact common_chars_no_slash c d r s (ha c (by simp)) (hb d (by simp)) hcd
        · simp [common_chars, common_components, hcd, stem, hr, hs]

theorem longest_common_path_render (a b : List (List Char)) (ha : ∀ c ∈ a, '/' ∉ c)
    (hb : ∀ c ∈ b, '/' ∉ c) :
    longest_common_path (render a) (render b) = render (common_components a b) := by
  obtain ⟨w, hw, e⟩ := common_chars_render a b ha hb
  unfold longest_common_path
  rw [e]
  have e2 : (stem (common_components a b) ++ '/' :: w).reverse
      = w.reverse ++ '/' :: (stem (common_components a b)).reverse := by simp
  rw [e2, dropWhile_slash _ _ (by simpa using hw)]
  simp [render]

theorem common_components_left (a b : List (List Char)) :
    common_components a b <+: a := by
  induction a generalizing b with
  | nil => cases b <;> simp [common_components]
  | cons c a1 ih =>
    cases b with
    | nil => simp [common_components]
    | cons d b1 =>
      simp only [common_components]
      split
      · rw [List.cons_prefix_cons]; exact ⟨rfl, ih b1⟩
      · exact List.nil_prefix

theorem common_components_right (a b : List (List Char)) :
    common_components a b <+: b := by
  induction a generalizing b with
  | nil => cases b <;> simp [common_components]
  | cons c a1 ih =>
    cases b with
    | nil => simp [common_components]
    | cons d b1 =>
      simp only [common_components]
      split
      · rename_i h; rw [h, List.cons_prefix_cons]; exact ⟨rfl, ih b1⟩
      · exact List.nil_prefix

/-- Behind their common prefix two lists of components start differently. -/
theorem common_components_diverge (a b s1 s2 : List (List Char)) (x y : List Char)
    (h1 : a = common_components a b ++ x :: s1) (h2 : b = common_components a b ++ y :: s2) :
    x ≠ y := by
  induction a generalizing b with
  | nil => cases b <;> simp [common_components] at h1
  | cons c a1 ih =>
    cases b with
    | nil => simp [common_components] at h2
    | cons d b1 =>
      simp only [common_components] at h1 h2
      by_cases hcd : c = d
      · simp only [if_pos hcd, List.cons_append, List.cons.injEq, true_and] at h1 h2
        exact ih b1 h1 h2.2
      · simp only [if_neg hcd, List.nil_append, List.cons.injEq] at h1 h2
        intro e
        exact hcd (by rw [h1.1, h2.1, e])

/-! ## Maps -/

theorem hmap_get_cons_same {α : Type} (k : List Char) (v : α) (rest : HashMap α) :
    hmap_get ((k, v) :: rest) k = some v := by
  simp [hmap_get]

theorem hmap_get_cons_ne {α : Type} (k k1 : List Char) (v : α) (rest : HashMap α)
    (h : k ≠ k1) : hmap_get ((k, v) :: rest) k1 = hmap_get rest k1 := by
  simp [hmap_get, h]

theorem hmap_update_cons_same {α : Type} (f : α → α) (k : List Char) (v : α)
    (rest : HashMap α) : hmap_update f ((k, v) :: rest) k = (k, f v) :: rest := by
  simp [hmap_update]

theorem hmap_update_cons_ne {α : Type} (f : α → α) (k k1 : List Char) (v : α)
    (rest : HashMap α) (h : k ≠ k1) :
    hmap_update f ((k, v) :: rest) k1 = (k, v) :: hmap_update f rest k1 := by
  simp [hmap_update, h]

theorem hmap_get_update_same {α : Type} (f : α → α) (m : HashMap α) (k : List Char) :
    hmap_get (hmap_update f m k) k = (hmap_get m k).map f := by
  induction m with
  | nil => rfl
  | cons e rest ih =>
    obtain ⟨k1, v⟩ := e
    by_cases h : k1 = k
    · subst h
      rw [hmap_update_cons_same, hmap_get_cons_same, hmap_get_cons_same]; rfl
    · rw [hmap_update_cons_ne _ _ _ _ _ h, hmap_get_cons_ne _ _ _ _ h,
        hmap_get_cons_ne _ _ _ _ h, ih]

theorem hmap_get_update_ne {α : Type} (f : α → α) (m : HashMap α) (k k1 : List Char)
    (hne : k ≠ k1) : hmap_get (hmap_update f m k) k1 = hmap_get m k1 := by
  induction m with
  | nil => rfl
  | cons e rest ih =>
    obtain ⟨k2, v⟩ := e
    by_cases h : k2 = k
    · subst h
      rw [hmap_update_cons_same, hmap_get_cons_ne _ _ _ _ hne, hmap_get_cons_ne _ _ _ _ hne]
    · rw [hmap_update_cons_ne _ _ _ _ _ h]
      by_cases h1 : k2 = k1
      · subst h1
        rw [hmap_get_cons_same, hmap_get_cons_same]
      · rw [hmap_get_cons_ne _ _ _ _ h1, hmap_get_cons_ne _ _ _ _ h1, ih]

theorem hmap_update_update {α : Type} (f g : α → α) (m : HashMap α) (k : List Char) :
    hmap_update f (hmap_update g m k) k = hmap_update (fun v => f (g v)) m k := by
  induction m with
  | nil => rfl
  | cons e rest ih =>
    obtain ⟨k1, v⟩ := e
    by_cases h : k1 = k
    · subst h
      rw [hmap_update_cons_same, hmap_update_cons_same, hmap_update_cons_same]
    · rw [hmap_update_cons_ne _ _ _ _ _ h, hmap_update_cons_ne _ _ _ _ _ h,
        hmap_update_cons_ne _ _ _ _ _ h, ih]

theorem hmap_update_comm {α : Type} (f g : α → α) (m : HashMap α) (k k1 : List Char)
    (hne : k ≠ k1) :
    hmap_update f (hmap_update g m k) k1 = hmap_update g (hmap_update f m k1) k := by
  induction m with
  | nil => rfl
  | cons e rest ih =>
    obtain ⟨k2, v⟩ := e
    by_cases h : k2 = k
    · subst h
      rw [hmap_update_cons_same, hmap_update_cons_ne _ _ _ _ _ hne,
        hmap_update_cons_ne _ _ _ _ _ hne, hmap_update_cons_same]
    · rw [hmap_update_cons_ne _ _ _ _ _ h]
      by_cases h1 : k2 = k1
      · subst h1
        rw [hmap_update_cons_same, hmap_update_cons_same, hmap_update_cons_ne _ _ _ _ _ h]
      · rw [hmap_update_cons_ne _ _ _ _ _ h1, hmap_update_cons_ne _ _ _ _ _ h1,
          hmap_update_cons_ne _ _ _ _ _ h, ih]

theorem hmap_update_congr {α : Type} (f g : α → α) (m : HashMap α) (k : List Char)
    (h : ∀ v, hmap_get m k = some v → f v = g v) : hmap_update f m k = hmap_update g m k := by
  induction m with
  | nil => rfl
  | cons e rest ih =>
    obtain ⟨k1, v⟩ := e
    by_cases hk : k1 = k
    · subst hk
      rw [hmap_update_cons_same, hmap_update_cons_same, h v (hmap_get_cons_same _ _ _)]
    · rw [hmap_update_cons_ne _ _ _ _ _ hk, hmap_update_cons_ne _ _ _ _ _ hk, ih]
      intro w hw
      exact h w (by rw [hmap_get_cons_ne _ _ _ _ hk]; exact hw)

theorem hmap_update_id {α : Type} (f : α → α) (m : HashMap α) (k : List Char)
    (h : ∀ v, hmap_get m k = some v → f v = v) : hmap_update f m k = m := by
  induction m with
  | nil => rfl
  | cons e rest ih =>
    obtain ⟨k1, v⟩ := e
    by_cases hk : k1 = k
    · subst hk
      rw [hmap_update_cons_same, h v (hmap_get_cons_same _ _ _)]
    · rw [hmap_update_cons_ne _ _ _ _ _ hk, ih]
      intro w hw
      exact h w (by rw [hmap_get_cons_ne _ _ _ _ hk]; exact hw)

theorem hmap_update_keys {α : Type} (f : α → α) (m : HashMap α) (k : List Char) :
    (hmap_update f m k).map Prod.fst = m.map Prod.fst := by
  induction m with
  | nil => rfl
  | cons e rest ih =>
    obtain ⟨k1, v⟩ := e
    by_cases hk : k1 = k
    · subst hk
      rw [hmap_update_cons_same]; rfl
    · rw [hmap_update_cons_ne _ _ _ _ _ hk, List.map_cons, List.map_cons, ih]

theorem hmap_update_append {α : Type} (f : α → α) (m : HashMap α) (k c : List Char) (x : α)
    (hne : c ≠ k) : hmap_update f (m ++ [(k, x)]) c = hmap_update f m c ++ [(k, x)] := by
  induction m with
  | nil =>
    show hmap_update f [(k, x)] c = [(k, x)]
    rw [hmap_update_cons_ne _ _ _ _ _ (fun e => hne e.symm)]; rfl
  | cons e rest ih =>
    obtain ⟨k1, v⟩ := e
    by_cases hk : k1 = c
    · subst hk
      rw [List.cons_append, hmap_update_cons_same, hmap_update_cons_same]; rfl
    · rw [List.cons_append, hmap_update_cons_ne _ _ _ _ _ hk, hmap_update_cons_ne _ _ _ _ _ hk,
        ih]; rfl

theorem filter_key_ne_cons_same {α : Type} (k : List Char) (v : α) (rest : HashMap α) :
    List.filter (key_ne k) ((k, v) :: rest) = List.filter (key_ne k) rest := by
  simp [List.filter_cons, key_ne]

theorem filter_key_ne_cons_ne {α : Type} (k k1 : List Char) (v : α) (rest : HashMap α)
    (h : k1 ≠ k) :
    List.filter (key_ne k) ((k1, v) :: rest) = (k1, v) :: List.filter (key_ne k) rest := by
  simp [List.filter_cons, key_ne, h]

theorem hmap_update_filter {α : Type} (f : α → α) (m : HashMap α) (k c : List Char)
    (hne : c ≠ k) :
    hmap_update f (m.filter (key_ne k)) c = (hmap_update f m c).filter (key_ne k) := by
  induction m with
  | nil => rfl
  | cons e rest ih =>
    obtain ⟨k1, v⟩ := e
    by_cases hk : k1 = k
    · subst hk
      rw [filter_key_ne_cons_same, hmap_update_cons_ne _ _ _ _ _ (fun e => hne e.symm),
        filter_key_ne_cons_same, ih]
    · rw [filter_key_ne_cons_ne _ _ _ _ hk]
      by_cases hc : k1 = c
      · subst hc
        rw [hmap_update_cons_same, hmap_update_cons_same, filter_key_ne_cons_ne _ _ _ _ hk]
      · rw [hmap_update_cons_ne _ _ _ _ _ hc, hmap_update_cons_ne _ _ _ _ _ hc,
          filter_key_ne_cons_ne _ _ _ _ hk, ih]

theorem hmap_get_append {α : Type} (m : HashMap α) (k k1 : List Char) (x : α) :
    hmap_get (m ++ [(k, x)]) k1 =
      match hmap_get m k1 with
      | some v => some v
      | none => if k = k1 then some x else none := by
  induction m with
  | nil => simp [hmap_get]
  | cons e rest ih =>
    obtain ⟨k2, v⟩ := e
    by_cases hk : k2 = k1
    · subst hk
      rw [List.cons_append, hmap_get_cons_same, hmap_get_cons_same]
    · rw [List.cons_append, hmap_get_cons_ne _ _ _ _ hk, hmap_get_cons_ne _ _ _ _ hk, ih]

theorem hmap_get_filter_same {α : Type} (m : HashMap α) (k : List Char) :
    hmap_get (m.filter (key_ne k)) k = none := by
  induction m with
  | nil => rfl
  | cons e rest ih =>
    obtain ⟨k2, v⟩ := e
    by_cases hk : k2 = k
    · subst hk
      rw [filter_key_ne_cons_same, ih]
    · rw [filter_key_ne_cons_ne _ _ _ _ hk, hmap_get_cons_ne _ _ _ _ hk, ih]

theorem hmap_get_filter_ne {α : Type} (m : HashMap α) (k k1 : List Char) (hne : k1 ≠ k) :
    hmap_get (m.filter (key_ne k)) k1 = hmap_get m k1 := by
  induction m with
  | nil => rfl
  | cons e rest ih =>
    obtain ⟨k2, v⟩ := e
    by_cases hk : k2 = k
    · subst hk
      rw [filter_key_ne_cons_same, ih, hmap_get_cons_ne _ _ _ _ (fun e => hne e.symm)]
    · rw [filter_key_ne_cons_ne _ _ _ _ hk]
      by_cases h1 : k2 = k1
      · subst h1
        rw [hmap_get_cons_same, hmap_get_cons_same]
      · rw [hmap_get_cons_ne _ _ _ _ h1, hmap_get_cons_ne _ _ _ _ h1, ih]

theorem hmap_get_mem_keys {α : Type} (m : HashMap α) (k : List Char) :
    (hmap_get m k).isSome = true ↔ k ∈ m.map Prod.fst := by
  induction m with
  | nil => simp [hmap_get]
  | cons e rest ih =>
    obtain ⟨k1, v⟩ := e
    by_cases hk : k1 = k
    · subst hk
      rw [hmap_get_cons_same k1 v rest, List.map_cons, List.mem_cons]
      exact ⟨fun _ => Or.inl rfl, fun _ => rfl⟩
    · rw [hmap_get_cons_ne k1 k v rest hk, ih, List.map_cons, List.mem_cons]
      exact ⟨fun h => Or.inr h, fun h => h.resolve_left (fun e => hk e.symm)⟩

theorem hmap_get_mem {α : Type} (m : HashMap α) (k : List Char) (v : α)
    (h : hmap_get m k = some v) : (k, v) ∈ m := by
  induction m with
  | nil => simp [hmap_get] at h
  | cons e rest ih =>
    obtain ⟨k1, v1⟩ := e
    by_cases hk : k1 = k
    · subst hk
      rw [hmap_get_cons_same] at h
      cases h
      exact List.mem_cons.2 (Or.inl rfl)
    · rw [hmap_get_cons_ne _ _ _ _ hk] at h
      exact List.mem_cons_of_mem _ (ih h)

/-! ## Pointers -/

theorem Tree.eta (t : Tree) : Tree.mk t.directories t.readwrite = t := by
  cases t; rfl

theorem directories_mk (d : List (List Char × Tree)) (rw : Readwrite) :
    (Tree.mk d rw).directories = d := rfl

theorem readwrite_mk (d : List (List Char × Tree)) (rw : Readwrite) :
    (Tree.mk d rw).readwrite = rw := rfl

theorem deref_cons (t : Tree) (c : List Char) (cs : Addr) :
    deref t (c :: cs) = (hmap_get t.directories c).bind (fun n => deref n cs) := by
  rw [deref]
  cases hmap_get t.directories c <;> rfl

theorem modifyAt_cons (f : Tree → Tree) (t : Tree) (c : List Char) (cs : Addr) :
    modifyAt f t (c :: cs) =
      .mk (hmap_update (fun child => modifyAt f child cs) t.directories c) t.readwrite := rfl

theorem deref_append (t : Tree) (a b : Addr) :
    deref t (a ++ b) = (deref t a).bind (fun n => deref n b) := by
  induction a generalizing t with
  | nil => rfl
  | cons c cs ih =>
    rw [List.cons_append, deref_cons, deref_cons]
    cases hmap_get t.directories c with
    | none => rfl
    | some child => exact ih child

theorem deref_snoc (t : Tree) (a : Addr) (c : List Char) :
    deref t (a ++ [c]) = hmap_get (dirsAt t a) c := by
  rw [deref_append, dirsAt]
  cases deref t a with
  | none => rfl
  | some n =>
    show deref n [c] = _
    rw [deref_cons]
    cases hmap_get n.directories c <;> rfl

theorem modifyAt_append (f : Tree → Tree) (t : Tree) (a b : Addr) :
    modifyAt f t (a ++ b) = modifyAt (fun n => modifyAt f n b) t a := by
  induction a generalizing t with
  | nil => rfl
  | cons c cs ih =>
    rw [List.cons_append, modifyAt_cons, modifyAt_cons]
    congr 1
    exact hmap_update_congr _ _ _ _ (fun v _ => ih v)

theorem modifyAt_modifyAt (f g : Tree → Tree) (t : Tree) (a : Addr) :
    modifyAt f (modifyAt g t a) a = modifyAt (fun n => f (g n)) t a := by
  induction a generalizing t with
  | nil => rfl
  | cons c cs ih =>
    rw [modifyAt_cons, modifyAt_cons, modifyAt_cons]
    simp only [directories_mk, readwrite_mk]
    rw [hmap_update_update]
    congr 1
    exact hmap_update_congr _ _ _ _ (fun v _ => ih v)

theorem modifyAt_congr (f g : Tree → Tree) (t : Tree) (a : Addr)
    (h : ∀ n, deref t a = some n → f n = g n) : modifyAt f t a = modifyAt g t a := by
  induction a generalizing t with
  | nil => exact h t rfl
  | cons c cs ih =>
    rw [modifyAt_cons, modifyAt_cons]
    congr 1
    apply hmap_update_congr
    intro v hv
    apply ih
    intro n hn
    apply h
    rw [deref_cons, hv]
    exact hn

theorem modifyAt_id (f : Tree → Tree) (t : Tree) (a : Addr)
    (h : ∀ n, deref t a = some n → f n = n) : modifyAt f t a = t := by
  induction a generalizing t with
  | nil => exact h t rfl
  | cons c cs ih =>
    rw [modifyAt_cons, hmap_update_id]
    · exact Tree.eta t
    · intro v hv
      apply ih
      intro n hn
      apply h
      rw [deref_cons, hv]
      exact hn

theorem modifyAt_none (f : Tree → Tree) (t : Tree) (a : Addr) (h : deref t a = none) :
    modifyAt f t a = t :=
  modifyAt_id f t a (fun n hn => by rw [h] at hn; cases hn)

theorem deref_modifyAt (f : Tree → Tree) (t : Tree) (a : Addr) :
    deref (modifyAt f t a) a = (deref t a).map f := by
  induction a generalizing t with
  | nil => rfl
  | cons c cs ih =>
    rw [modifyAt_cons, deref_cons, deref_cons]
    simp only [directories_mk]
    rw [hmap_get_update_same]
    cases hmap_get t.directories c with
    | none => rfl
    | some child => exact ih child

theorem setRw_comm (v : Readwrite) (g : Tree → Tree) (t : Tree) (a b : Addr)
    (hsame : a = b → LockIndep g)
    (hkeep : ∀ c r, a = b ++ c :: r → KeepsChild g c) :
    modifyAt (setRw v) (modifyAt g t b) a = modifyAt g (modifyAt (setRw v) t a) b := by
  induction a generalizing b t with
  | nil =>
    cases b with
    | nil => exact (hsame rfl v t).symm
    | cons d b1 => rfl
  | cons c a1 ih =>
    cases b with
    | nil =>
      have := hkeep c a1 rfl (fun child => modifyAt (setRw v) child a1) t
      rw [modifyAt_cons, modifyAt_cons]
      exact this.symm
    | cons d b1 =>
      rw [modifyAt_cons, modifyAt_cons, modifyAt_cons, modifyAt_cons]
      simp only [directories_mk, readwrite_mk]
      congr 1
      by_cases hcd : c = d
      · subst hcd
        rw [hmap_update_update, hmap_update_update]
        apply hmap_update_congr
        intro child _
        apply ih
        · intro e; exact hsame (by rw [e])
        · intro c1 r e; exact hkeep c1 r (by rw [e]; rfl)
      · exact hmap_update_comm _ _ _ _ _ (fun e => hcd e.symm)

/-! ## Locks in the tree -/

theorem setRw_directories (v : Readwrite) (n : Tree) : (setRw v n).directories = n.directories :=
  rfl

theorem setRw_readwrite (v : Readwrite) (n : Tree) : (setRw v n).readwrite = v := rfl

theorem setRw_setRw (v w : Readwrite) (n : Tree) : setRw v (setRw w n) = setRw v n := rfl

theorem setRw_self (n : Tree) : setRw n.readwrite n = n := Tree.eta n

theorem keepsChild_setRw (v : Readwrite) (c : List Char) : KeepsChild (setRw v) c :=
  fun _ _ => rfl

theorem deref_inside (f : Tree → Tree) (t : Tree) (b r : Addr) :
    deref (modifyAt f t (b ++ r)) b = (deref t b).map (fun n => modifyAt f n r) := by
  rw [modifyAt_append, deref_modifyAt]

theorem deref_setRw_outside (v : Readwrite) (t : Tree) (a b : Addr) (h : ¬ b <+: a) :
    deref (modifyAt (setRw v) t a) b = deref t b := by
  induction b generalizing a t with
  | nil => exact absurd List.nil_prefix h
  | cons d b1 ih =>
    cases a with
    | nil => rfl
    | cons c a1 =>
      rw [modifyAt_cons, deref_cons, deref_cons, directories_mk]
      by_cases hcd : c = d
      · subst hcd
        rw [hmap_get_update_same]
        cases hmap_get t.directories c with
        | none => rfl
        | some child =>
          have : ¬ b1 <+: a1 := fun hp => h (by rw [List.cons_prefix_cons]; exact ⟨rfl, hp⟩)
          exact ih child a1 this
      · rw [hmap_get_update_ne _ _ _ _ hcd]

theorem prefix_cases (a b : Addr) (h : b <+: a) : a = b ∨ ∃ c r, a = b ++ c :: r := by
  obtain ⟨r, rfl⟩ := h
  cases r with
  | nil => left; simp
  | cons c r => right; exact ⟨c, r, rfl⟩

theorem deref_setRw_isSome (v : Readwrite) (t : Tree) (a b : Addr) :
    (deref (modifyAt (setRw v) t a) b).isSome = (deref t b).isSome := by
  by_cases h : b <+: a
  · obtain ⟨r, rfl⟩ := h
    rw [deref_inside]
    cases deref t b <;> rfl
  · rw [deref_setRw_outside v t a b h]

theorem lockAt_setRw_same (v : Readwrite) (t : Tree) (a : Addr) :
    lockAt (modifyAt (setRw v) t a) a = (lockAt t a).map (fun _ => v) := by
  unfold lockAt
  rw [deref_modifyAt]
  cases deref t a <;> rfl

theorem lockAt_setRw_ne (v : Readwrite) (t : Tree) (a b : Addr) (hne : a ≠ b) :
    lockAt (modifyAt (setRw v) t a) b = lockAt t b := by
  unfold lockAt
  by_cases h : b <+: a
  · rcases prefix_cases a b h with e | ⟨c, r, e⟩
    · exact absurd e hne
    · subst e
      rw [deref_inside]
      cases deref t b <;> rfl
  · rw [deref_setRw_outside v t a b h]

theorem dirsAt_setRw_same (v : Readwrite) (t : Tree) (a : Addr) :
    dirsAt (modifyAt (setRw v) t a) a = dirsAt t a := by
  unfold dirsAt
  rw [deref_modifyAt]
  cases deref t a <;> rfl

theorem dirsAt_setRw_outside (v : Readwrite) (t : Tree) (a b : Addr) (h : ¬ b <+: a) :
    dirsAt (modifyAt (setRw v) t a) b = dirsAt t b := by
  unfold dirsAt
  rw [deref_setRw_outside v t a b h]

theorem hmap_get_setRw_isSome (v : Readwrite) (t : Tree) (a b : Addr) (k : List Char) :
    (hmap_get (dirsAt (modifyAt (setRw v) t a) b) k).isSome = (hmap_get (dirsAt t b) k).isSome := by
  rw [← deref_snoc, ← deref_snoc]
  exact deref_setRw_isSome v t a (b ++ [k])

theorem setRw_overwrite (v w : Readwrite) (t : Tree) (a : Addr) :
    modifyAt (setRw v) (modifyAt (setRw w) t a) a = modifyAt (setRw v) t a := by
  rw [modifyAt_modifyAt]; rfl

theorem setRw_swap (v w : Readwrite) (t : Tree) (a b : Addr) (hne : a ≠ b) :
    modifyAt (setRw v) (modifyAt (setRw w) t b) a =
      modifyAt (setRw w) (modifyAt (setRw v) t a) b :=
  setRw_comm v (setRw w) t a b (fun e => absurd e hne) (fun c _ _ => keepsChild_setRw w c)

theorem setRw_same (v : Readwrite) (t : Tree) (a : Addr) (h : lockAt t a = some v) :
    modifyAt (setRw v) t a = t := by
  apply modifyAt_id
  intro n hn
  unfold lockAt at h
  rw [hn] at h
  simp only [Option.map, Option.some.injEq] at h
  rw [← h]
  exact setRw_self n

/-- Locking and unlocking at one address restores the tree. -/
theorem setRw_restore (v w : Readwrite) (t : Tree) (a : Addr) (h : lockAt t a = some v) :
    modifyAt (setRw v) (modifyAt (setRw w) t a) a = t := by
  rw [setRw_overwrite, setRw_same v t a h]

theorem rw_call_eq (op : Readwrite → Option Readwrite) (st : Tree) (a : Addr)
    (rw rw1 : Readwrite) (h : lockAt st a = some rw) (h1 : op rw = some rw1) :
    rw_call op st a = some (modifyAt (setRw rw1) st a) := by
  unfold rw_call
  rw [h]
  simp only []
  rw [h1]

theorem rw_before_new (w : Bool) : rw_before w rw_new = some (rw_held w) := by
  cases w <;> rfl

theorem rw_after_held (w : Bool) : rw_after w (rw_held w) = some rw_new := by
  cases w <;> rfl

theorem rw_before_write_new : rw_before_write rw_new = some (rw_held true) := rfl

theorem rw_after_write_held : rw_after_write (rw_held true) = rw_new := rfl

theorem rw_after_read_held : rw_after_read (rw_held false) = rw_new := rfl

theorem rw_before_remove_new : rw_before_remove rw_new = some rw_new := rfl

/-! ## Neutral trees -/

theorem all_neutral_mk (d : List (List Char × Tree)) (rw : Readwrite) :
    all_neutral (.mk d rw) = true ↔ rw = rw_new ∧ allLocksList neutral d = true := by
  simp [all_neutral, Tree.allLocks, neutral]

theorem all_neutral_iff (t : Tree) :
    all_neutral t = true ↔ t.readwrite = rw_new ∧ allLocksList neutral t.directories = true := by
  cases t; exact all_neutral_mk _ _

theorem allLocksList_cons (k : List Char) (t : Tree) (rest : List (List Char × Tree)) :
    allLocksList neutral ((k, t) :: rest) = true ↔
      all_neutral t = true ∧ allLocksList neutral rest = true := by
  simp [allLocksList, all_neutral]

theorem allLocksList_iff (d : List (List Char × Tree)) :
    allLocksList neutral d = true ↔ ∀ kv ∈ d, all_neutral kv.2 = true := by
  induction d with
  | nil => simp [allLocksList]
  | cons e rest ih =>
    obtain ⟨k, t⟩ := e
    rw [allLocksList_cons, ih, List.forall_mem_cons]

theorem all_neutral_lock {t : Tree} (h : all_neutral t = true) : t.readwrite = rw_new :=
  ((all_neutral_iff t).1 h).1

theorem all_neutral_child {t : Tree} (h : all_neutral t = true) (c : List Char) (n : Tree)
    (hn : hmap_get t.directories c = some n) : all_neutral n = true :=
  (allLocksList_iff _).1 ((all_neutral_iff t).1 h).2 (c, n) (hmap_get_mem _ _ _ hn)

theorem all_neutral_deref {t : Tree} (h : all_neutral t = true) (a : Addr) (n : Tree)
    (hn : deref t a = some n) : all_neutral n = true := by
  induction a generalizing t with
  | nil =>
    simp only [deref, Option.some.injEq] at hn
    rw [← hn]; exact h
  | cons c cs ih =>
    rw [deref_cons] at hn
    cases hc : hmap_get t.directories c with
    | none => rw [hc] at hn; cases hn
    | some child =>
      rw [hc] at hn
      exact ih (all_neutral_child h c child hc) hn

theorem all_neutral_lockAt {t : Tree} (h : all_neutral t = true) (a : Addr) (rw : Readwrite)
    (hl : lockAt t a = some rw) : rw = rw_new := by
  unfold lockAt at hl
  cases hn : deref t a with
  | none => rw [hn] at hl; cases hl
  | some n =>
    rw [hn] at hl
    simp only [Option.map, Option.some.injEq] at hl
    rw [← hl]
    exact all_neutral_lock (all_neutral_deref h a n hn)

theorem lockAt_of_deref {t : Tree} {a : Addr} {n : Tree} (hn : deref t a = some n) :
    lockAt t a = some n.readwrite := by
  unfold lockAt; rw [hn]; rfl

theorem dirsAt_of_deref {t : Tree} {a : Addr} {n : Tree} (hn : deref t a = some n) :
    dirsAt t a = n.directories := by
  unfold dirsAt; rw [hn]

theorem all_neutral_lockAt_some {t : Tree} (h : all_neutral t = true) (a : Addr) (n : Tree)
    (hn : deref t a = some n) : lockAt t a = some rw_new := by
  rw [lockAt_of_deref hn, all_neutral_lock (all_neutral_deref h a n hn)]

theorem allLocksList_update (f : Tree → Tree) (d : List (List Char × Tree)) (c : List Char)
    (hd : allLocksList neutral d = true)
    (hf : ∀ n, hmap_get d c = some n → all_neutral (f n) = true) :
    allLocksList neutral (hmap_update f d c) = true := by
  induction d with
  | nil => rfl
  | cons e rest ih =>
    obtain ⟨k, t⟩ := e
    rw [allLocksList_cons] at hd
    by_cases hk : k = c
    · subst hk
      rw [hmap_update_cons_same, allLocksList_cons]
      exact ⟨hf t (hmap_get_cons_same _ _ _), hd.2⟩
    · rw [hmap_update_cons_ne _ _ _ _ _ hk, allLocksList_cons]
      refine ⟨hd.1, ih hd.2 ?_⟩
      intro n hn
      exact hf n (by rw [hmap_get_cons_ne _ _ _ _ hk]; exact hn)

theorem all_neutral_modifyAt (f : Tree → Tree) (t : Tree) (a : Addr)
    (h : all_neutral t = true)
    (hf : ∀ n, deref t a = some n → all_neutral (f n) = true) :
    all_neutral (modifyAt f t a) = true := by
  induction a generalizing t with
  | nil => exact hf t rfl
  | cons c cs ih =>
    rw [modifyAt_cons, all_neutral_mk]
    refine ⟨all_neutral_lock h, allLocksList_update _ _ _ ((all_neutral_iff t).1 h).2 ?_⟩
    intro n hn
    apply ih n (all_neutral_child h c n hn)
    intro m hm
    apply hf
    rw [deref_cons, hn]
    exact hm

theorem allLocksList_append (d e : List (List Char × Tree)) :
    allLocksList neutral (d ++ e) = true ↔
      allLocksList neutral d = true ∧ allLocksList neutral e = true := by
  rw [allLocksList_iff, allLocksList_iff, allLocksList_iff]
  constructor
  · intro h
    exact ⟨fun kv hk => h kv (List.mem_append.2 (Or.inl hk)),
      fun kv hk => h kv (List.mem_append.2 (Or.inr hk))⟩
  · rintro ⟨h1, h2⟩ kv hk
    rcases List.mem_append.1 hk with hk | hk
    · exact h1 kv hk
    · exact h2 kv hk

theorem allLocksList_filter (p : List Char × Tree → Bool) (d : List (List Char × Tree))
    (h : allLocksList neutral d = true) : allLocksList neutral (d.filter p) = true := by
  rw [allLocksList_iff] at h ⊢
  intro kv hk
  exact h kv (List.mem_filter.1 hk).1

mutual
theorem lock_subtree_neutral : ∀ t : Tree, all_neutral t = true → lock_subtree t = some t
  | .mk d rw => by
    intro h
    rw [all_neutral_mk] at h
    rw [lock_subtree, h.1, rw_before_remove_new]
    simp only []
    rw [lock_subtree_children_neutral d h.2]
theorem lock_subtree_children_neutral : ∀ d : List (List Char × Tree),
    allLocksList neutral d = true → lock_subtree_children d = some d
  | [] => fun _ => rfl
  | (k, t) :: rest => by
    intro h
    rw [allLocksList_cons] at h
    rw [lock_subtree_children, lock_subtree_neutral t h.1]
    simp only []
    rw [lock_subtree_children_neutral rest h.2]
end

/-! ## `get_directory_tree` -/

theorem length_lt_render (cs : Addr) : cs.length < (render cs).length := by
  have h : ∀ cs : Addr, cs.length ≤ (stem cs).length := by
    intro cs
    induction cs with
    | nil => simp [stem]
    | cons c cs ih => simp only [stem, List.length_cons, List.length_append]; omega
  have := h cs
  simp only [render, List.length_append, List.length_singleton]
  omega

theorem snoc_ne_self (a : Addr) (c : List Char) : a ≠ a ++ [c] := by
  intro h
  have := congrArg List.length h
  simp at this

theorem snoc_not_above (a : Addr) (c : List Char) : ¬ (a ++ [c]) <+: a := by
  intro h
  have := h.length_le
  simp at this

theorem get_directory_tree_loop_spec (w : Bool) (cs : Addr) :
    ∀ (fuel : Nat) (t : Tree) (curr : Addr),
      (∀ c ∈ cs, '/' ∉ c) → cs.length < fuel → lockAt t curr = some rw_new →
      (∀ q, q <+: cs → ∀ rw, lockAt t (curr ++ q) = some rw → rw = rw_new) →
      get_directory_tree_loop w fuel (modifyAt (setRw (rw_held w)) t curr) curr (render cs) =
        some (if (deref t (curr ++ cs)).isSome
          then (modifyAt (setRw (rw_held w)) t (curr ++ cs), some (curr ++ cs))
          else (t, none)) := by
  induction cs with
  | nil =>
    intro fuel t curr _ hf hl _
    cases fuel with
    | zero => omega
    | succ f =>
      rw [get_directory_tree_loop, split_path_render_nil]
      have : (deref t (curr ++ [])).isSome = true := by
        rw [List.append_nil]
        unfold lockAt at hl
        cases h : deref t curr with
        | none => rw [h] at hl; cases hl
        | some n => rfl
      rw [List.append_nil] at this ⊢
      rw [if_pos this]
  | cons c cs ih =>
    intro fuel t curr hs hf hl hq
    cases fuel with
    | zero => omega
    | succ f =>
      have hc : '/' ∉ c := hs c (List.mem_cons.2 (Or.inl rfl))
      have hcs : ∀ x ∈ cs, '/' ∉ x := fun x hx => hs x (List.mem_cons.2 (Or.inr hx))
      have hheld : lockAt (modifyAt (setRw (rw_held w)) t curr) curr = some (rw_held w) := by
        rw [lockAt_setRw_same, hl]; rfl
      have haddr : curr ++ c :: cs = (curr ++ [c]) ++ cs := by simp
      rw [get_directory_tree_loop, split_path_render_cons c cs hc]
      simp only []
      have hsome := hmap_get_setRw_isSome (rw_held w) t curr curr c
      cases hg : hmap_get (dirsAt (modifyAt (setRw (rw_held w)) t curr) curr) c with
      | none =>
        rw [hg] at hsome
        have hnone : deref t (curr ++ [c]) = none := by
          rw [deref_snoc]
          cases h : hmap_get (dirsAt t curr) c with
          | none => rfl
          | some _ => rw [h] at hsome; cases hsome
        have hnone2 : deref t (curr ++ c :: cs) = none := by
          rw [haddr, deref_append, hnone]; rfl
        simp only []
        rw [rw_call_eq _ _ _ _ _ hheld (rw_after_held w), setRw_restore _ _ _ _ hl, hnone2]
        rfl
      | some x =>
        rw [hg] at hsome
        obtain ⟨n, hn⟩ : ∃ n, deref t (curr ++ [c]) = some n := by
          rw [deref_snoc]
          cases h : hmap_get (dirsAt t curr) c with
          | none => rw [h] at hsome; cases hsome
          | some n => exact ⟨n, rfl⟩
        have hlnext : lockAt t (curr ++ [c]) = some rw_new := by
          have h1 := lockAt_of_deref hn
          have := hq [c] (by rw [List.cons_prefix_cons]; exact ⟨rfl, List.nil_prefix⟩) _ h1
          rw [h1, this]
        have hl1 : lockAt (modifyAt (setRw (rw_held w)) t curr) (curr ++ [c]) = some rw_new := by
          rw [lockAt_setRw_ne _ _ _ _ (snoc_ne_self curr c), hlnext]
        simp only []
        rw [rw_call_eq _ _ _ _ _ hl1 (rw_before_new w)]
        simp only []
        have hl2 : lockAt (modifyAt (setRw (rw_held w)) (modifyAt (setRw (rw_held w)) t curr)
            (curr ++ [c])) curr = some (rw_held w) := by
          rw [lockAt_setRw_ne _ _ _ _ (snoc_ne_self curr c).symm, hheld]
        rw [rw_call_eq _ _ _ _ _ hl2 (rw_after_held w)]
        simp only []
        rw [setRw_swap _ _ _ _ _ (snoc_ne_self curr c), setRw_restore _ _ _ _ hl]
        rw [ih f t (curr ++ [c]) hcs (by simp only [List.length_cons] at hf; omega) hlnext]
        · rw [haddr]
        · intro q hqp rw hrw
          apply hq (c :: q) (by rw [List.cons_prefix_cons]; exact ⟨rfl, hqp⟩) rw
          rw [← hrw]; simp

theorem get_directory_tree_spec (w : Bool) (cs : Addr) (t : Tree) (root : Addr)
    (hs : ∀ c ∈ cs, '/' ∉ c) (hl : lockAt t root = some rw_new)
    (hq : ∀ q, q <+: cs → ∀ rw, lockAt t (root ++ q) = some rw → rw = rw_new) :
    get_directory_tree t root (render cs) w =
      some (if (deref t (root ++ cs)).isSome
        then (modifyAt (setRw (rw_held w)) t (root ++ cs), some (root ++ cs))
        else (t, none)) := by
  unfold get_directory_tree
  rw [rw_call_eq _ _ _ _ _ hl (rw_before_new w)]
  simp only []
  exact get_directory_tree_loop_spec w cs _ t root hs (length_lt_render cs) hl hq

/-- In a tree whose locks are neutral `get_directory_tree` from the handle
returns: it reaches the node of the path and holds its lock, or reports that
there is none and leaves the tree as it was. -/
theorem get_directory_tree_neutral (w : Bool) (cs : Addr) (t : Tree)
    (hs : ∀ c ∈ cs, '/' ∉ c) (hn : all_neutral t = true) :
    get_directory_tree t [] (render cs) w =
      some (if (deref t cs).isSome
        then (modifyAt (setRw (rw_held w)) t cs, some cs)
        else (t, none)) := by
  have := get_directory_tree_spec w cs t [] hs
    (all_neutral_lockAt_some hn [] t rfl)
    (fun q _ rw h => all_neutral_lockAt hn _ rw h)
  simpa using this

/-! ## `tree_list` -/

theorem rw_call_after_read (st : Tree) (a : Addr)
    (h : lockAt st a = some (rw_held false)) :
    rw_call (fun rw => some (rw_after_read rw)) st a = some (modifyAt (setRw rw_new) st a) :=
  rw_call_eq (fun rw => some (rw_after_read rw)) st a _ _ h rfl

theorem rw_call_after_write (st : Tree) (a : Addr)
    (h : lockAt st a = some (rw_held true)) :
    rw_call (fun rw => some (rw_after_write rw)) st a = some (modifyAt (setRw rw_new) st a) :=
  rw_call_eq (fun rw => some (rw_after_write rw)) st a _ _ h rfl

theorem rw_call_before_write (st : Tree) (a : Addr) (h : lockAt st a = some rw_new) :
    rw_call rw_before_write st a = some (modifyAt (setRw (rw_held true)) st a) :=
  rw_call_eq rw_before_write st a _ _ h rfl

theorem rw_call_before_remove (st : Tree) (a : Addr) (h : lockAt st a = some rw_new) :
    rw_call rw_before_remove st a = some st := by
  rw [rw_call_eq rw_before_remove st a _ _ h rfl, setRw_same _ _ _ h]

theorem addr_nil_or_snoc (ps : Addr) : ps = [] ∨ ∃ gs p, ps = gs ++ [p] := by
  rcases List.eq_nil_or_concat ps with h | ⟨gs, p, h⟩
  · exact Or.inl h
  · exact Or.inr ⟨gs, p, by rw [h, List.concat_eq_append]⟩

theorem valid_slash_free {cs : Addr} (h : ∀ c ∈ cs, valid_name c = true) :
    ∀ c ∈ cs, '/' ∉ c :=
  fun c hc => valid_name_slash (h c hc)

theorem is_path_valid_render {cs : Addr} (hv : ∀ c ∈ cs, valid_name c = true)
    (hlen : (render cs).length ≤ MAX_PATH_LEN) : is_path_valid (render cs) = true :=
  (is_path_valid_iff _).2 ⟨hlen, cs, rfl, hv⟩

theorem tree_list_invalid (t : Tree) (p : List Char) (h : is_path_valid p = false) :
    tree_list t p = some (t, none) := by
  unfold tree_list
  rw [h]; rfl

/-- On a tree whose locks are neutral `tree_list` of a valid path returns, leaves the tree
as it was, and yields the names of the directory, or `NULL` when there is none. -/
theorem tree_list_spec (t : Tree) (cs : Addr) (hn : all_neutral t = true)
    (hv : ∀ c ∈ cs, valid_name c = true) (hlen : (render cs).length ≤ MAX_PATH_LEN) :
    tree_list t (render cs) =
      some (t, (deref t cs).map (fun n => make_map_contents_string n.directories)) := by
  unfold tree_list
  rw [is_path_valid_render hv hlen, get_directory_tree_neutral false cs t (valid_slash_free hv) hn]
  cases h : deref t cs with
  | none => rfl
  | some n =>
    have hl : lockAt t cs = some rw_new := all_neutral_lockAt_some hn cs n h
    have hheld : lockAt (modifyAt (setRw (rw_held false)) t cs) cs = some (rw_held false) := by
      rw [lockAt_setRw_same, hl]; rfl
    simp only [Option.isSome_some, if_true, Bool.not_true, Bool.false_eq_true, if_false]
    rw [rw_call_after_read _ _ hheld, setRw_restore _ _ _ _ hl,
      dirsAt_setRw_same, dirsAt_of_deref h]
    rfl

/-! ## `tree_create` and `tree_remove` -/

theorem lock_parent_directory_spec (t : Tree) (ps : Addr) (c : List Char)
    (hn : all_neutral t = true) (hs : ∀ x ∈ ps, '/' ∉ x) (hc : '/' ∉ c) :
    lock_parent_directory t (render (ps ++ [c])) =
      some (if (deref t ps).isSome
        then (modifyAt (setRw (rw_held true)) t ps, some (ps, c))
        else (t, none)) := by
  unfold lock_parent_directory
  rw [make_path_to_parent_render ps c hc]
  simp only []
  rcases addr_nil_or_snoc ps with rfl | ⟨gs, p, rfl⟩
  · rw [if_pos render_nil, rw_call_before_write _ _ (all_neutral_lockAt_some hn [] t rfl)]
    rfl
  · have hp : '/' ∉ p := hs p (by simp)
    have hgs : ∀ x ∈ gs, '/' ∉ x := fun x hx => hs x (by simp [hx])
    rw [if_neg (render_snoc_ne_root gs p), make_path_to_parent_render gs p hp]
    simp only []
    rw [get_directory_tree_neutral false gs t hgs hn]
    cases hg : deref t gs with
    | none =>
      have : deref t (gs ++ [p]) = none := by rw [deref_append, hg]; rfl
      rw [this]; rfl
    | some g =>
      have hl : lockAt t gs = some rw_new := all_neutral_lockAt_some hn gs g hg
      have hheld : lockAt (modifyAt (setRw (rw_held false)) t gs) gs = some (rw_held false) := by
        rw [lockAt_setRw_same, hl]; rfl
      simp only [Option.isSome_some, if_true]
      have hsome := hmap_get_setRw_isSome (rw_held false) t gs gs p
      cases hx : hmap_get (dirsAt (modifyAt (setRw (rw_held false)) t gs) gs) p with
      | none =>
        rw [hx] at hsome
        have : deref t (gs ++ [p]) = none := by
          rw [deref_snoc]
          cases h : hmap_get (dirsAt t gs) p with
          | none => rfl
          | some _ => rw [h] at hsome; cases hsome
        simp only []
        rw [rw_call_after_read _ _ hheld, setRw_restore _ _ _ _ hl, this]
        rfl
      | some x =>
        rw [hx] at hsome
        obtain ⟨n, hnn⟩ : ∃ n, deref t (gs ++ [p]) = some n := by
          rw [deref_snoc]
          cases h : hmap_get (dirsAt t gs) p with
          | none => rw [h] at hsome; cases hsome
          | some n => exact ⟨n, rfl⟩
        have hl1 : lockAt (modifyAt (setRw (rw_held false)) t gs) (gs ++ [p]) = some rw_new := by
          rw [lockAt_setRw_ne _ _ _ _ (snoc_ne_self gs p), all_neutral_lockAt_some hn _ n hnn]
        have hl2 : lockAt (modifyAt (setRw (rw_held true))
            (modifyAt (setRw (rw_held false)) t gs) (gs ++ [p])) gs = some (rw_held false) := by
          rw [lockAt_setRw_ne _ _ _ _ (snoc_ne_self gs p).symm, hheld]
        simp only []
        rw [rw_call_before_write _ _ hl1]
        simp only []
        rw [rw_call_after_read _ _ hl2,
          setRw_swap _ _ _ _ _ (snoc_ne_self gs p), setRw_restore _ _ _ _ hl, hnn]
        rfl

theorem lockAt_modifyAt_same (f : Tree → Tree) (t : Tree) (a : Addr)
    (hf : ∀ n, (f n).readwrite = n.readwrite) :
    lockAt (modifyAt f t a) a = lockAt t a := by
  unfold lockAt
  rw [deref_modifyAt]
  cases deref t a with
  | none => rfl
  | some n => simp only [Option.map]; rw [hf n]

/-- A write of the map of a node between the acquisition and the release of its lock. -/
theorem locked_edit (f : Tree → Tree) (t : Tree) (a : Addr) (n : Tree) (v : Readwrite)
    (hnode : deref t a = some n) (hrw : n.readwrite = rw_new) (hf : LockIndep f)
    (hf2 : ∀ m, (f m).readwrite = m.readwrite) :
    modifyAt (setRw rw_new) (modifyAt f (modifyAt (setRw v) t a) a) a = modifyAt f t a := by
  rw [modifyAt_modifyAt, modifyAt_modifyAt]
  apply modifyAt_congr
  intro m hm
  rw [hnode] at hm
  cases hm
  rw [hf v n]
  show setRw rw_new (setRw v (f n)) = f n
  rw [setRw_setRw, ← hrw, ← hf2 n]
  exact setRw_self (f n)

theorem lockIndep_insNode (k : List Char) (x : Tree) : LockIndep (insNode k x) :=
  fun _ _ => rfl

theorem lockIndep_delNode (k : List Char) : LockIndep (delNode k) :=
  fun _ _ => rfl

/-- On a tree whose locks are neutral `tree_create` of a valid path other than the root
returns, with the result and the tree given here. -/
theorem tree_create_spec (t : Tree) (ps : Addr) (c : List Char) (hn : all_neutral t = true)
    (hv : ∀ x ∈ ps ++ [c], valid_name x = true)
    (hlen : (render (ps ++ [c])).length ≤ MAX_PATH_LEN) :
    tree_create t (render (ps ++ [c])) =
      some (if (deref t ps).isSome = false then (t, ENOENT)
        else if (hmap_get (dirsAt t ps) c).isSome then (t, EEXIST)
        else (modifyAt (insNode c tree_new) t ps, 0)) := by
  have hs : ∀ x ∈ ps, '/' ∉ x := fun x hx => valid_name_slash (hv x (by simp [hx]))
  have hc : '/' ∉ c := valid_name_slash (hv c (by simp))
  unfold tree_create
  rw [is_path_valid_render hv hlen]
  simp only [Bool.not_true, Bool.false_eq_true, if_false]
  rw [if_neg (render_snoc_ne_root ps c), lock_parent_directory_spec t ps c hn hs hc]
  cases hp : deref t ps with
  | none => rfl
  | some n =>
    have hl : lockAt t ps = some rw_new := all_neutral_lockAt_some hn ps n hp
    have hheld : lockAt (modifyAt (setRw (rw_held true)) t ps) ps = some (rw_held true) := by
      rw [lockAt_setRw_same, hl]; rfl
    simp only [Option.isSome_some, if_true, Bool.true_eq_false, if_false]
    rw [dirsAt_setRw_same]
    cases hg : hmap_get (dirsAt t ps) c with
    | some x =>
      simp only [hmap_insert, hg, Bool.not_false, if_true, Option.isSome_some]
      rw [rw_call_after_write _ _ hheld, setRw_restore _ _ _ _ hl]
    | none =>
      simp only [hmap_insert, hg, Bool.not_true, Bool.false_eq_true, if_false,
        Option.isSome_none]
      have hdirs : dirsAt t ps = n.directories := dirsAt_of_deref hp
      have e1 : modifyAt (setDirs (dirsAt t ps ++ [(c, tree_new)]))
          (modifyAt (setRw (rw_held true)) t ps) ps =
          modifyAt (insNode c tree_new) (modifyAt (setRw (rw_held true)) t ps) ps := by
        apply modifyAt_congr
        intro m hm
        rw [deref_modifyAt, hp] at hm
        cases hm
        rw [hdirs]; rfl
      rw [e1]
      have hl2 : lockAt (modifyAt (insNode c tree_new) (modifyAt (setRw (rw_held true)) t ps) ps)
          ps = some (rw_held true) := by
        rw [lockAt_modifyAt_same (insNode c tree_new) _ _ (fun _ => rfl), hheld]
      rw [rw_call_after_write _ _ hl2,
        locked_edit _ t ps n _ hp (all_neutral_lock (all_neutral_deref hn ps n hp))
          (lockIndep_insNode c tree_new) (fun _ => rfl)]

/-- On a tree whose locks are neutral `tree_remove` of a valid path other than the root
returns, with the result and the tree given here. -/
theorem tree_remove_spec (t : Tree) (ps : Addr) (c : List Char) (hn : all_neutral t = true)
    (hv : ∀ x ∈ ps ++ [c], valid_name x = true)
    (hlen : (render (ps ++ [c])).length ≤ MAX_PATH_LEN) :
    tree_remove t (render (ps ++ [c])) =
      some (match deref t (ps ++ [c]) with
        | none => (t, ENOENT)
        | some child =>
          if hmap_size child.directories ≠ 0 then (t, ENOTEMPTY)
          else (modifyAt (delNode c) t ps, 0)) := by
  have hs : ∀ x ∈ ps, '/' ∉ x := fun x hx => valid_name_slash (hv x (by simp [hx]))
  have hc : '/' ∉ c := valid_name_slash (hv c (by simp))
  unfold tree_remove
  rw [is_path_valid_render hv hlen]
  simp only [Bool.not_true, Bool.false_eq_true, if_false]
  rw [if_neg (render_snoc_ne_root ps c), lock_parent_directory_spec t ps c hn hs hc]
  cases hp : deref t ps with
  | none =>
    have : deref t (ps ++ [c]) = none := by rw [deref_append, hp]; rfl
    rw [this]; rfl
  | some n =>
    have hl : lockAt t ps = some rw_new := all_neutral_lockAt_some hn ps n hp
    have hheld : lockAt (modifyAt (setRw (rw_held true)) t ps) ps = some (rw_held true) := by
      rw [lockAt_setRw_same, hl]; rfl
    simp only [Option.isSome_some, if_true]
    rw [dirsAt_setRw_same, deref_snoc]
    cases hg : hmap_get (dirsAt t ps) c with
    | none =>
      simp only []
      rw [rw_call_after_write _ _ hheld, setRw_restore _ _ _ _ hl]
    | some child =>
      have hchild : deref t (ps ++ [c]) = some child := by rw [deref_snoc]; exact hg
      have hl1 : lockAt (modifyAt (setRw (rw_held true)) t ps) (ps ++ [c]) = some rw_new := by
        rw [lockAt_setRw_ne _ _ _ _ (snoc_ne_self ps c), all_neutral_lockAt_some hn _ child hchild]
      simp only []
      rw [rw_call_before_remove _ _ hl1]
      simp only []
      rw [dirsAt_setRw_outside _ _ _ _ (snoc_not_above ps c), dirsAt_of_deref hchild,
        dirsAt_setRw_same]
      by_cases hsz : hmap_size child.directories ≠ 0
      · rw [if_pos hsz, if_pos hsz, rw_call_after_write _ _ hheld,
          setRw_restore _ _ _ _ hl]
      · rw [if_neg hsz, if_neg hsz]
        have hdirs : dirsAt t ps = n.directories := dirsAt_of_deref hp
        have e1 : modifyAt (setDirs (hmap_remove (dirsAt t ps) c).2)
            (modifyAt (setRw (rw_held true)) t ps) ps =
            modifyAt (delNode c) (modifyAt (setRw (rw_held true)) t ps) ps := by
          apply modifyAt_congr
          intro m hm
          rw [deref_modifyAt, hp] at hm
          cases hm
          rw [hdirs]; rfl
        rw [e1]
        have hl2 : lockAt (modifyAt (delNode c) (modifyAt (setRw (rw_held true)) t ps) ps)
            ps = some (rw_held true) := by
          rw [lockAt_modifyAt_same (delNode c) _ _ (fun _ => rfl), hheld]
        rw [rw_call_after_write _ _ hl2,
          locked_edit _ t ps n _ hp (all_neutral_lock (all_neutral_deref hn ps n hp))
            (lockIndep_delNode c) (fun _ => rfl)]

/-! ## `tree_move` -/

theorem tree_move_lock_lca_spec (t : Tree) (l : Addr) (hn : all_neutral t = true)
    (hs : ∀ x ∈ l, '/' ∉ x) :
    tree_move_lock_lca t (render l) =
      some (if (deref t l).isSome
        then (modifyAt (setRw (rw_held true)) t l, some l)
        else (t, none)) := by
  unfold tree_move_lock_lca
  rcases addr_nil_or_snoc l with rfl | ⟨gs, p, rfl⟩
  · rw [make_path_to_parent_root]
    simp only []
    rw [rw_call_before_write _ _ (all_neutral_lockAt_some hn [] t rfl)]
    rfl
  · have hp : '/' ∉ p := hs p (by simp)
    have hgs : ∀ x ∈ gs, '/' ∉ x := fun x hx => hs x (by simp [hx])
    rw [make_path_to_parent_render gs p hp]
    simp only []
    rw [get_directory_tree_neutral false gs t hgs hn]
    cases hg : deref t gs with
    | none =>
      have : deref t (gs ++ [p]) = none := by rw [deref_append, hg]; rfl
      rw [this]; rfl
    | some g =>
      have hl : lockAt t gs = some rw_new := all_neutral_lockAt_some hn gs g hg
      have hheld : lockAt (modifyAt (setRw (rw_held false)) t gs) gs = some (rw_held false) := by
        rw [lockAt_setRw_same, hl]; rfl
      simp only [Option.isSome_some, if_true]
      have hsome := hmap_get_setRw_isSome (rw_held false) t gs gs p
      cases hx : hmap_get (dirsAt (modifyAt (setRw (rw_held false)) t gs) gs) p with
      | none =>
        rw [hx] at hsome
        have : deref t (gs ++ [p]) = none := by
          rw [deref_snoc]
          cases h : hmap_get (dirsAt t gs) p with
          | none => rfl
          | some _ => rw [h] at hsome; cases hsome
        simp only []
        rw [rw_call_after_read _ _ hheld, setRw_restore _ _ _ _ hl, this]
        rfl
      | some x =>
        rw [hx] at hsome
        obtain ⟨n, hnn⟩ : ∃ n, deref t (gs ++ [p]) = some n := by
          rw [deref_snoc]
          cases h : hmap_get (dirsAt t gs) p with
          | none => rw [h] at hsome; cases hsome
          | some n => exact ⟨n, rfl⟩
        have hl1 : lockAt (modifyAt (setRw (rw_held false)) t gs) (gs ++ [p]) = some rw_new := by
          rw [lockAt_setRw_ne _ _ _ _ (snoc_ne_self gs p), all_neutral_lockAt_some hn _ n hnn]
        have hl2 : lockAt (modifyAt (setRw (rw_held true))
            (modifyAt (setRw (rw_held false)) t gs) (gs ++ [p])) gs = some (rw_held false) := by
          rw [lockAt_setRw_ne _ _ _ _ (snoc_ne_self gs p).symm, hheld]
        simp only []
        rw [rw_call_before_write _ _ hl1]
        simp only []
        rw [rw_call_after_read _ _ hl2,
          setRw_swap _ _ _ _ _ (snoc_ne_self gs p), setRw_restore _ _ _ _ hl, hnn]
        rfl

theorem tree_move_lock_from_lca_nil (st : Tree) (l : Addr) :
    tree_move_lock_from_lca st l (render l) (render l) = some (st, some (l, true)) := by
  unfold tree_move_lock_from_lca
  have := remove_prefix_render l []
  rw [List.append_nil] at this
  simp only [this, split_path_render_nil]

theorem tree_move_lock_from_lca_cons (st : Tree) (l : Addr) (c : List Char) (r : Addr)
    (hs : ∀ x ∈ c :: r, '/' ∉ x)
    (hq : ∀ q, q <+: r → ∀ rw, lockAt st (l ++ c :: q) = some rw → rw = rw_new) :
    tree_move_lock_from_lca st l (render l) (render (l ++ c :: r)) =
      some (if (deref st (l ++ c :: r)).isSome
        then (modifyAt (setRw (rw_held true)) st (l ++ c :: r), some (l ++ c :: r, false))
        else (st, none)) := by
  unfold tree_move_lock_from_lca
  have hc : '/' ∉ c := hs c (by simp)
  have hr : ∀ x ∈ r, '/' ∉ x := fun x hx => hs x (by simp [hx])
  have haddr : l ++ c :: r = (l ++ [c]) ++ r := by simp
  simp only [remove_prefix_render, split_path_render_cons c r hc]
  cases hg : hmap_get (dirsAt st l) c with
  | none =>
    have : deref st (l ++ c :: r) = none := by
      rw [haddr, deref_append, deref_snoc, hg]; rfl
    rw [this]; rfl
  | some x =>
    have hx : deref st (l ++ [c]) = some x := by rw [deref_snoc, hg]
    have hl : lockAt st (l ++ [c]) = some rw_new := by
      have h1 := lockAt_of_deref hx
      have := hq [] List.nil_prefix _ (by simpa using h1)
      rw [h1, this]
    simp only []
    rw [get_directory_tree_spec true r st (l ++ [c]) hr hl
      (fun q hqp rw h => hq q hqp rw (by simpa using h))]
    rw [← haddr]
    cases (deref st (l ++ c :: r)) <;> rfl

theorem setDirs_congr (g : HashMap Tree → HashMap Tree) (s : Tree) (a : Addr) :
    modifyAt (setDirs (g (dirsAt s a))) s a =
      modifyAt (fun n => .mk (g n.directories) n.readwrite) s a := by
  apply modifyAt_congr
  intro n hn
  rw [dirsAt_of_deref hn]; rfl

theorem tree_move_relocate_spec (st : Tree) (tp sp : Addr) (tn sn : List Char) (src : Tree)
    (hsrc : deref st (sp ++ [sn]) = some src) (hnsrc : all_neutral src = true)
    (htn : hmap_get (dirsAt st tp) tn = none) :
    tree_move_relocate st tp tn sp sn =
      some (modifyAt (delNode sn)
        (modifyAt (insNode tn (.mk src.directories rw_new)) st tp) sp) := by
  unfold tree_move_relocate
  simp only [hsrc, lock_subtree_neutral src hnsrc]
  have e1 : modifyAt (fun _ => src) st (sp ++ [sn]) = st :=
    modifyAt_id _ _ _ (fun n hn => by rw [hsrc] at hn; cases hn; rfl)
  rw [e1, dirsAt_of_deref hsrc]
  have e2 : (hmap_insert (dirsAt st tp) tn (Tree.mk src.directories rw_new)).2 =
      dirsAt st tp ++ [(tn, Tree.mk src.directories rw_new)] := by
    simp only [hmap_insert, htn]
  rw [e2]
  have e3 := setDirs_congr (fun m => m ++ [(tn, Tree.mk src.directories rw_new)]) st tp
  simp only [] at e3
  rw [e3]
  have e4 := setDirs_congr (fun m => m.filter (key_ne sn))
    (modifyAt (fun n => Tree.mk (n.directories ++ [(tn, Tree.mk src.directories rw_new)])
      n.readwrite) st tp) sp
  simp only [hmap_remove]
  simp only [] at e4
  rw [e4]
  rfl

theorem keepsChild_insNode (k c : List Char) (x : Tree) (h : c ≠ k) :
    KeepsChild (insNode k x) c := by
  intro f n
  simp only [insNode, directories_mk, readwrite_mk]
  rw [hmap_update_append _ _ _ _ _ h]

theorem keepsChild_delNode (k c : List Char) (h : c ≠ k) : KeepsChild (delNode k) c := by
  intro f n
  simp only [delNode, directories_mk, readwrite_mk]
  rw [hmap_update_filter _ _ _ _ h]

theorem setRw_comm_insNode (v : Readwrite) (k : List Char) (x : Tree) (s : Tree) (a b : Addr)
    (h : ¬ (b ++ [k]) <+: a) :
    modifyAt (setRw v) (modifyAt (insNode k x) s b) a =
      modifyAt (insNode k x) (modifyAt (setRw v) s a) b := by
  apply setRw_comm
  · intro _; exact lockIndep_insNode k x
  · intro c r e
    apply keepsChild_insNode
    intro hck
    apply h
    rw [e, hck]
    exact ⟨r, by simp⟩

theorem setRw_comm_delNode (v : Readwrite) (k : List Char) (s : Tree) (a b : Addr)
    (h : ¬ (b ++ [k]) <+: a) :
    modifyAt (setRw v) (modifyAt (delNode k) s b) a =
      modifyAt (delNode k) (modifyAt (setRw v) s a) b := by
  apply setRw_comm
  · intro _; exact lockIndep_delNode k
  · intro c r e
    apply keepsChild_delNode
    intro hck
    apply h
    rw [e, hck]
    exact ⟨r, by simp⟩

theorem lockAt_held (v : Readwrite) (t : Tree) (a : Addr) (h : lockAt t a = some rw_new) :
    lockAt (modifyAt (setRw v) t a) a = some v := by
  rw [lockAt_setRw_same, h]; rfl

theorem neutral_of_isSome {t : Tree} (hn : all_neutral t = true) (a : Addr)
    (h : (deref t a).isSome = true) : lockAt t a = some rw_new := by
  cases hd : deref t a with
  | none => rw [hd] at h; cases h
  | some n => exact all_neutral_lockAt_some hn a n hd

theorem deref_none_below (t : Tree) (a b : Addr) (h : deref t b = none) (hp : b <+: a) :
    deref t a = none := by
  obtain ⟨r, rfl⟩ := hp
  rw [deref_append, h]; rfl

theorem tree_move_lock_from_lca_spec (st : Tree) (l r : Addr) (hs : ∀ x ∈ r, '/' ∉ x)
    (hheld : lockAt st l = some (rw_held true))
    (hq : ∀ q, q ≠ [] → q <+: r → ∀ rw, lockAt st (l ++ q) = some rw → rw = rw_new) :
    tree_move_lock_from_lca st l (render l) (render (l ++ r)) =
      some (if (deref st (l ++ r)).isSome
        then (modifyAt (setRw (rw_held true)) st (l ++ r), some (l ++ r, decide (l ++ r = l)))
        else (st, none)) := by
  cases r with
  | nil =>
    rw [List.append_nil, tree_move_lock_from_lca_nil, setRw_same _ _ _ hheld]
    have : (deref st l).isSome = true := by
      unfold lockAt at hheld
      cases h : deref st l with
      | none => rw [h] at hheld; cases hheld
      | some _ => rfl
    rw [if_pos this]
    simp
  | cons c r =>
    rw [tree_move_lock_from_lca_cons st l c r hs
      (fun q hqp rw h => hq (c :: q) (by simp)
        (by rw [List.cons_prefix_cons]; exact ⟨rfl, hqp⟩) rw h)]
    have : decide (l ++ c :: r = l) = false := by
      rw [decide_eq_false_iff_not]
      intro e
      have := congrArg List.length e
      simp at this
    rw [this]

/-- The releases on an exit of `tree_move` behind the acquisition of the target's parent. -/
theorem tree_move_release2 (t : Tree) (l tp : Addr) (tpl : Bool) (r : Int)
    (hl : lockAt t l = some rw_new) (htp : lockAt t tp = some rw_new)
    (htpl : tpl = true ↔ tp = l) :
    (match rw_call (fun rw => some (rw_after_write rw))
        (modifyAt (setRw (rw_held true)) (modifyAt (setRw (rw_held true)) t l) tp) l with
      | none => none
      | some st2 =>
        match rw_after_write_unless tpl st2 tp with
        | none => none
        | some st3 => some (st3, r)) = some (t, r) := by
  cases tpl with
  | true =>
    have e := htpl.1 rfl
    subst e
    rw [setRw_overwrite, rw_call_after_write _ _ (lockAt_held _ _ _ hl),
      setRw_restore _ _ _ _ hl]
    rfl
  | false =>
    have hne : tp ≠ l := fun e => by simpa using htpl.2 e
    have h1 : lockAt (modifyAt (setRw (rw_held true)) (modifyAt (setRw (rw_held true)) t l) tp) l
        = some (rw_held true) := by
      rw [lockAt_setRw_ne _ _ _ _ hne, lockAt_held _ _ _ hl]
    rw [rw_call_after_write _ _ h1, setRw_swap _ _ _ _ _ (Ne.symm hne),
      setRw_restore _ _ _ _ hl]
    simp only [rw_after_write_unless, Bool.not_false, if_true]
    rw [rw_call_after_write _ _ (lockAt_held _ _ _ htp), setRw_restore _ _ _ _ htp]

/-- The state in which `tree_move` holds the LCA node and both parents, told by cases. -/
theorem tree_move_held3 (t : Tree) (l tp sp : Addr) (tpl spl : Bool)
    (htpl : tpl = true ↔ tp = l) (hspl : spl = true ↔ sp = l) :
    modifyAt (setRw (rw_held true)) (modifyAt (setRw (rw_held true))
        (modifyAt (setRw (rw_held true)) t l) tp) sp =
      if tpl || spl then
        modifyAt (setRw (rw_held true)) (modifyAt (setRw (rw_held true)) t tp) sp
      else
        modifyAt (setRw (rw_held true)) (modifyAt (setRw (rw_held true))
          (modifyAt (setRw (rw_held true)) t tp) sp) l := by
  cases tpl with
  | true =>
    have e := htpl.1 rfl
    subst e
    rw [setRw_overwrite]; rfl
  | false =>
    have hne : tp ≠ l := fun e => by simpa using htpl.2 e
    cases spl with
    | true =>
      have e := hspl.1 rfl
      subst e
      simp only [Bool.or_true, if_true]
      rw [setRw_swap _ _ t tp sp hne, setRw_overwrite, setRw_swap _ _ t sp tp (Ne.symm hne)]
    | false =>
      have hne2 : sp ≠ l := fun e => by simpa using hspl.2 e
      simp only [Bool.or_false, Bool.false_eq_true, if_false]
      rw [setRw_swap _ _ t tp l hne, setRw_swap _ _ _ sp l hne2]

theorem lockAt_held2 (t : Tree) (a b : Addr) (ha : lockAt t a = some rw_new)
    (hb : lockAt t b = some rw_new) :
    lockAt (modifyAt (setRw (rw_held true)) (modifyAt (setRw (rw_held true)) t a) b) a
      = some (rw_held true) ∧
    lockAt (modifyAt (setRw (rw_held true)) (modifyAt (setRw (rw_held true)) t a) b) b
      = some (rw_held true) := by
  by_cases hab : a = b
  · subst hab
    rw [setRw_overwrite]
    exact ⟨lockAt_held _ _ _ ha, lockAt_held _ _ _ ha⟩
  · refine ⟨?_, ?_⟩
    · rw [lockAt_setRw_ne _ _ _ _ (Ne.symm hab), lockAt_held _ _ _ ha]
    · apply lockAt_held
      rw [lockAt_setRw_ne _ _ _ _ hab, hb]

/-- The releases of both parents restore the tree. -/
theorem tree_move_release_parents (t : Tree) (tp sp : Addr) (hne : tp ≠ sp)
    (htp : lockAt t tp = some rw_new) (hsp : lockAt t sp = some rw_new) :
    modifyAt (setRw rw_new) (modifyAt (setRw rw_new)
      (modifyAt (setRw (rw_held true)) (modifyAt (setRw (rw_held true)) t tp) sp) tp) sp = t := by
  rw [setRw_swap _ _ _ tp sp hne, setRw_restore _ _ _ _ htp, setRw_restore _ _ _ _ hsp]
theorem lockAt_edit (f : Tree → Tree) (k : List Char)
    (hrw : ∀ n, (f n).readwrite = n.readwrite)
    (hget : ∀ n c, c ≠ k → hmap_get (f n).directories c = hmap_get n.directories c) :
    ∀ (b a : Addr) (s : Tree), ¬ (b ++ [k]) <+: a →
      lockAt (modifyAt f s b) a = lockAt s a := by
  intro b
  induction b with
  | nil =>
    intro a s h
    cases a with
    | nil => unfold lockAt; simp only [modifyAt, deref, Option.map]; rw [hrw]
    | cons c r =>
      have hck : c ≠ k := by
        intro e
        apply h
        rw [e]
        exact ⟨r, rfl⟩
      unfold lockAt
      simp only [modifyAt]
      rw [deref_cons, deref_cons, hget s c hck]
  | cons d b1 ih =>
    intro a s h
    cases a with
    | nil => rfl
    | cons c r =>
      unfold lockAt
      rw [modifyAt_cons, deref_cons, deref_cons, directories_mk]
      by_cases hcd : d = c
      · subst hcd
        rw [hmap_get_update_same]
        cases hmap_get s.directories d with
        | none => rfl
        | some child =>
          have : ¬ (b1 ++ [k]) <+: r := by
            intro hp
            apply h
            rw [List.cons_append, List.cons_prefix_cons]
            exact ⟨rfl, hp⟩
          exact ih r child this
      · rw [hmap_get_update_ne _ _ _ _ hcd]

theorem lockAt_insNode (k : List Char) (x : Tree) (b a : Addr) (s : Tree)
    (h : ¬ (b ++ [k]) <+: a) : lockAt (modifyAt (insNode k x) s b) a = lockAt s a := by
  apply lockAt_edit (insNode k x) k (fun _ => rfl) _ b a s h
  intro n c hck
  simp only [insNode, directories_mk]
  rw [hmap_get_append]
  cases hmap_get n.directories c with
  | some v => rfl
  | none => simp only []; rw [if_neg (fun e => hck e.symm)]

theorem lockAt_delNode (k : List Char) (b a : Addr) (s : Tree)
    (h : ¬ (b ++ [k]) <+: a) : lockAt (modifyAt (delNode k) s b) a = lockAt s a := by
  apply lockAt_edit (delNode k) k (fun _ => rfl) _ b a s h
  intro n c hck
  simp only [delNode, directories_mk]
  rw [hmap_get_filter_ne _ _ _ hck]

/-- The releases on the exit of `tree_move` taken when the source is absent. -/
theorem tree_move_release3 (t : Tree) (l tp sp : Addr) (tpl spl : Bool) (r : Int)
    (hl : lockAt t l = some rw_new) (htp : lockAt t tp = some rw_new)
    (hsp : lockAt t sp = some rw_new)
    (htpl : tpl = true ↔ tp = l) (hspl : spl = true ↔ sp = l) (hdiff : tp = sp → tp = l) :
    (match rw_call (fun rw => some (rw_after_write rw))
        (modifyAt (setRw (rw_held true)) (modifyAt (setRw (rw_held true))
          (modifyAt (setRw (rw_held true)) t l) tp) sp) l with
      | none => none
      | some st3 =>
        match rw_after_write_unless tpl st3 tp with
        | none => none
        | some st4 =>
          match rw_after_write_unless spl st4 sp with
          | none => none
          | some st5 => some (st5, r)) = some (t, r) := by
  cases tpl with
  | true =>
    have e := htpl.1 rfl
    subst e
    rw [setRw_overwrite]
    cases spl with
    | true =>
      have e := hspl.1 rfl
      subst e
      rw [setRw_overwrite, rw_call_after_write _ _ (lockAt_held _ _ _ hl),
        setRw_restore _ _ _ _ hl]
      rfl
    | false =>
      have hne : sp ≠ tp := fun e => by simpa using hspl.2 e
      have h2 := lockAt_held2 t tp sp htp hsp
      rw [rw_call_after_write _ _ h2.1, setRw_swap _ _ _ tp sp (Ne.symm hne),
        setRw_restore _ _ _ _ htp]
      simp only [rw_after_write_unless, Bool.not_true, Bool.false_eq_true, if_false,
        Bool.not_false, if_true]
      rw [rw_call_after_write _ _ (lockAt_held _ _ _ hsp), setRw_restore _ _ _ _ hsp]
  | false =>
    have hne : tp ≠ l := fun e => by simpa using htpl.2 e
    cases spl with
    | true =>
      have e := hspl.1 rfl
      subst e
      have h2 := lockAt_held2 t tp sp htp hsp
      have h3 : lockAt (modifyAt (setRw (rw_held true)) t tp) sp = some rw_new := by
        rw [lockAt_setRw_ne _ _ _ _ hne, hsp]
      rw [setRw_swap _ _ t tp sp hne, setRw_overwrite,
          rw_call_after_write _ _ h2.2, setRw_restore _ _ _ _ h3]
      simp only [rw_after_write_unless, Bool.not_true, Bool.false_eq_true, if_false,
        Bool.not_false, if_true]
      rw [rw_call_after_write _ _ (lockAt_held _ _ _ htp), setRw_restore _ _ _ _ htp]
    | false =>
      have hne2 : sp ≠ l := fun e => by simpa using hspl.2 e
      have hne3 : tp ≠ sp := fun e => hne (hdiff e)
      have h1 : lockAt (modifyAt (setRw (rw_held true)) (modifyAt (setRw (rw_held true))
          (modifyAt (setRw (rw_held true)) t l) tp) sp) l = some (rw_held true) := by
        rw [lockAt_setRw_ne _ _ _ _ hne2, lockAt_setRw_ne _ _ _ _ hne, lockAt_held _ _ _ hl]
      rw [rw_call_after_write _ _ h1, setRw_swap _ _ _ l sp (Ne.symm hne2),
        setRw_swap _ _ _ l tp (Ne.symm hne), setRw_restore _ _ _ _ hl]
      have h2 := lockAt_held2 t tp sp htp hsp
      simp only [rw_after_write_unless, Bool.not_false, if_true]
      rw [rw_call_after_write _ _ h2.1, setRw_swap _ _ _ tp sp hne3,
        setRw_restore _ _ _ _ htp]
      simp only []
      rw [rw_call_after_write _ _ (lockAt_held _ _ _ hsp), setRw_restore _ _ _ _ hsp]

/-- The release of the LCA node ahead of the move leaves both parents held. -/
theorem tree_move_unlock_lca (t : Tree) (l tp sp : Addr) (tpl spl : Bool)
    (hl : lockAt t l = some rw_new)
    (htpl : tpl = true ↔ tp = l) (hspl : spl = true ↔ sp = l) :
    rw_after_write_unless (tpl || spl)
        (modifyAt (setRw (rw_held true)) (modifyAt (setRw (rw_held true))
          (modifyAt (setRw (rw_held true)) t l) tp) sp) l =
      some (modifyAt (setRw (rw_held true)) (modifyAt (setRw (rw_held true)) t tp) sp) := by
  rw [tree_move_held3 t l tp sp tpl spl htpl hspl]
  cases h : (tpl || spl) with
  | true => rfl
  | false =>
    have h1 : tpl = false := by cases tpl <;> simp_all
    have h2 : spl = false := by cases spl <;> simp_all
    have hne : tp ≠ l := fun e => by rw [h1] at htpl; simpa using htpl.2 e
    have hne2 : sp ≠ l := fun e => by rw [h2] at hspl; simpa using hspl.2 e
    have hl2 : lockAt (modifyAt (setRw (rw_held true))
        (modifyAt (setRw (rw_held true)) t tp) sp) l = some rw_new := by
      rw [lockAt_setRw_ne _ _ _ _ hne2, lockAt_setRw_ne _ _ _ _ hne, hl]
    simp only [rw_after_write_unless, Bool.not_false, if_true, Bool.false_eq_true, if_false]
    rw [rw_call_after_write _ _ (lockAt_held _ _ _ hl2), setRw_restore _ _ _ _ hl2]

theorem setRw_comm_edit (v : Readwrite) (tn sn : List Char) (x : Tree) (s : Tree)
    (a tp sp : Addr) (h1 : ¬ (sp ++ [sn]) <+: a) (h2 : ¬ (tp ++ [tn]) <+: a) :
    modifyAt (setRw v) (modifyAt (delNode sn) (modifyAt (insNode tn x) s tp) sp) a =
      modifyAt (delNode sn) (modifyAt (insNode tn x) (modifyAt (setRw v) s a) tp) sp := by
  rw [setRw_comm_delNode v sn _ a sp h1, setRw_comm_insNode v tn x _ a tp h2]

theorem lockAt_moved (tn sn : List Char) (x : Tree) (s : Tree)
    (a tp sp : Addr) (h1 : ¬ (sp ++ [sn]) <+: a) (h2 : ¬ (tp ++ [tn]) <+: a) :
    lockAt (modifyAt (delNode sn) (modifyAt (insNode tn x) s tp) sp) a = lockAt s a := by
  rw [lockAt_delNode sn sp a _ h1, lockAt_insNode tn x tp a _ h2]

theorem hmap_get_none_of_isSome {α β : Type} {m1 : HashMap α} {m2 : HashMap β}
    {k1 k2 : List Char} (h : (hmap_get m1 k1).isSome = (hmap_get m2 k2).isSome)
    (h1 : hmap_get m1 k1 = none) : hmap_get m2 k2 = none := by
  rw [h1] at h
  cases h2 : hmap_get m2 k2 with
  | none => rfl
  | some _ => rw [h2] at h; cases h

theorem tree_move_finish_spec (t : Tree) (l tp sp : Addr) (tn sn : List Char)
    (tpl spl : Bool) (hn : all_neutral t = true)
    (hl : (deref t l).isSome = true) (htp : (deref t tp).isSome = true)
    (hsp : (deref t sp).isSome = true)
    (htpl : tpl = true ↔ tp = l) (hspl : spl = true ↔ sp = l) (hdiff : tp = sp → tp = l)
    (htn : hmap_get (dirsAt t tp) tn = none) (hsub : ¬ (sp ++ [sn]) <+: tp) :
    tree_move_finish
        (modifyAt (setRw (rw_held true)) (modifyAt (setRw (rw_held true))
          (modifyAt (setRw (rw_held true)) t l) tp) sp) l tp tpl tn sp spl sn =
      some (match deref t (sp ++ [sn]) with
        | none => (t, ENOENT)
        | some src =>
          (modifyAt (delNode sn)
            (modifyAt (insNode tn (.mk src.directories rw_new)) t tp) sp, 0)) := by
  have hLl := neutral_of_isSome hn l hl
  have hLtp := neutral_of_isSome hn tp htp
  have hLsp := neutral_of_isSome hn sp hsp
  have hsome : (hmap_get (dirsAt (modifyAt (setRw (rw_held true))
      (modifyAt (setRw (rw_held true)) (modifyAt (setRw (rw_held true)) t l) tp) sp) sp)
      sn).isSome = (hmap_get (dirsAt t sp) sn).isSome := by
    rw [hmap_get_setRw_isSome, hmap_get_setRw_isSome, hmap_get_setRw_isSome]
  unfold tree_move_finish
  rw [deref_snoc]
  cases hx : hmap_get (dirsAt (modifyAt (setRw (rw_held true))
      (modifyAt (setRw (rw_held true)) (modifyAt (setRw (rw_held true)) t l) tp) sp) sp) sn with
  | none =>
    rw [hmap_get_none_of_isSome hsome hx]
    simp only []
    exact tree_move_release3 t l tp sp tpl spl ENOENT hLl hLtp hLsp htpl hspl hdiff
  | some x =>
    rw [hx] at hsome
    obtain ⟨src, hsrc⟩ : ∃ src, hmap_get (dirsAt t sp) sn = some src := by
      cases h : hmap_get (dirsAt t sp) sn with
      | none => rw [h] at hsome; cases hsome
      | some src => exact ⟨src, rfl⟩
    have hsrc2 : deref t (sp ++ [sn]) = some src := by rw [deref_snoc, hsrc]
    rw [hsrc]
    simp only []
    rw [tree_move_unlock_lca t l tp sp tpl spl hLl htpl hspl]
    simp only []
    have hsrcP : deref (modifyAt (setRw (rw_held true))
        (modifyAt (setRw (rw_held true)) t tp) sp) (sp ++ [sn]) = some src := by
      rw [deref_setRw_outside _ _ sp _ (snoc_not_above sp sn),
        deref_setRw_outside _ _ tp _ hsub, hsrc2]
    have htnP : hmap_get (dirsAt (modifyAt (setRw (rw_held true))
        (modifyAt (setRw (rw_held true)) t tp) sp) tp) tn = none := by
      apply hmap_get_none_of_isSome _ htn
      rw [hmap_get_setRw_isSome, hmap_get_setRw_isSome]
    rw [tree_move_relocate_spec _ tp sp tn sn src hsrcP (all_neutral_deref hn _ src hsrc2) htnP]
    simp only []
    have c2sp : ¬ (tp ++ [tn]) <+: sp := by
      intro hp
      have h1 : deref t (tp ++ [tn]) = none := by rw [deref_snoc, htn]
      rw [deref_none_below t sp _ h1 hp] at hsp
      cases hsp
    have h2 := lockAt_held2 t tp sp hLtp hLsp
    by_cases hts : tp = sp
    · have e1 : tp = l := hdiff hts
      have e2 : sp = l := by rw [← hts, e1]
      have f1 : tpl = true := htpl.2 e1
      have f2 : spl = true := hspl.2 e2
      subst e1
      subst e2
      rw [f1, f2]
      simp only [Bool.and_self, if_true]
      have h3 : lockAt (modifyAt (delNode sn) (modifyAt (insNode tn
          (Tree.mk src.directories rw_new)) (modifyAt (setRw (rw_held true))
            (modifyAt (setRw (rw_held true)) t sp) sp) sp) sp) sp = some (rw_held true) := by
        rw [lockAt_moved tn sn _ _ sp sp sp (snoc_not_above sp sn) (snoc_not_above sp tn)]
        exact h2.1
      rw [rw_call_after_write _ _ h3,
        setRw_comm_edit _ tn sn _ _ sp sp sp (snoc_not_above sp sn) (snoc_not_above sp tn),
        setRw_overwrite, setRw_restore _ _ _ _ hLsp]
    · have f : (tpl && spl) = false := by
        cases tpl with
        | false => rfl
        | true =>
          cases spl with
          | false => rfl
          | true => exact absurd ((htpl.1 rfl).trans (hspl.1 rfl).symm) hts
      rw [f]
      simp only [Bool.false_eq_true, if_false]
      have h3 : lockAt (modifyAt (delNode sn) (modifyAt (insNode tn
          (Tree.mk src.directories rw_new)) (modifyAt (setRw (rw_held true))
            (modifyAt (setRw (rw_held true)) t tp) sp) tp) sp) tp = some (rw_held true) := by
        rw [lockAt_moved tn sn _ _ tp tp sp hsub (snoc_not_above tp tn)]
        exact h2.1
      rw [rw_call_after_write _ _ h3,
        setRw_comm_edit _ tn sn _ _ tp tp sp hsub (snoc_not_above tp tn)]
      simp only []
      have h4 : lockAt (modifyAt (delNode sn) (modifyAt (insNode tn
          (Tree.mk src.directories rw_new)) (modifyAt (setRw rw_new)
            (modifyAt (setRw (rw_held true))
              (modifyAt (setRw (rw_held true)) t tp) sp) tp) tp) sp) sp
          = some (rw_held true) := by
        rw [lockAt_moved tn sn _ _ sp tp sp (snoc_not_above sp sn) c2sp,
          lockAt_setRw_ne _ _ _ _ hts]
        exact h2.2
      rw [rw_call_after_write _ _ h4,
        setRw_comm_edit _ tn sn _ _ sp tp sp (snoc_not_above sp sn) c2sp,
        tree_move_release_parents t tp sp hts hLtp hLsp]

theorem append_ne_self_of_ne_nil (l q : Addr) (h : q ≠ []) : l ≠ l ++ q := by
  intro e
  have := congrArg List.length e
  simp only [List.length_append] at this
  have : q.length = 0 := by omega
  exact h (List.length_eq_zero.1 this)

/-- On a tree whose locks are neutral `tree_move` between two valid paths other than the
root, the target different from the source and not inside it, returns, with the result
and the tree given here. -/
theorem tree_move_spec (t : Tree) (sp tp : Addr) (sn tn : List Char)
    (hn : all_neutral t = true)
    (hvs : ∀ x ∈ sp ++ [sn], valid_name x = true)
    (hvt : ∀ x ∈ tp ++ [tn], valid_name x = true)
    (hls : (render (sp ++ [sn])).length ≤ MAX_PATH_LEN)
    (hlt : (render (tp ++ [tn])).length ≤ MAX_PATH_LEN)
    (hne : sp ++ [sn] ≠ tp ++ [tn]) (hsub : ¬ (sp ++ [sn]) <+: (tp ++ [tn])) :
    tree_move t (render (sp ++ [sn])) (render (tp ++ [tn])) =
      some (if (deref t tp).isSome = false then (t, ENOENT)
        else if (hmap_get (dirsAt t tp) tn).isSome then (t, EEXIST)
        else
          match deref t (sp ++ [sn]) with
          | none => (t, ENOENT)
          | some src =>
            (modifyAt (delNode sn)
              (modifyAt (insNode tn (.mk src.directories rw_new)) t tp) sp, 0)) := by
  have hfs := valid_slash_free hvs
  have hft := valid_slash_free hvt
  have hfsp : ∀ x ∈ sp, '/' ∉ x := fun x hx => hfs x (by simp [hx])
  have hftp : ∀ x ∈ tp, '/' ∉ x := fun x hx => hft x (by simp [hx])
  have hsn : '/' ∉ sn := hfs sn (by simp)
  have htn : '/' ∉ tn := hft tn (by simp)
  have hsubd : is_subdirectory (render (sp ++ [sn])) (render (tp ++ [tn])) = false := by
    rw [Bool.eq_false_iff]
    intro h
    exact hsub ((is_subdirectory_render _ _ hfs hft).1 h)
  unfold tree_move
  rw [is_path_valid_render hvs hls, is_path_valid_render hvt hlt]
  simp only [Bool.not_true, Bool.or_self, Bool.false_eq_true, if_false]
  rw [if_neg (render_snoc_ne_root sp sn), if_neg (render_snoc_ne_root tp tn),
    if_neg (fun e => hne (render_inj _ _ hfs hft e)), hsubd]
  simp only [Bool.false_eq_true, if_false]
  rw [make_path_to_parent_render tp tn htn, make_path_to_parent_render sp sn hsn]
  simp only []
  rw [longest_common_path_render sp tp hfsp hftp]
  obtain ⟨s1, hs1⟩ := common_components_left sp tp
  obtain ⟨t1, ht1⟩ := common_components_right sp tp
  have hdiv : ∀ x xs y ys, s1 = x :: xs → t1 = y :: ys → x ≠ y := by
    intro x xs y ys e1 e2
    apply common_components_diverge sp tp xs ys x y
    · rw [← e1, hs1]
    · rw [← e2, ht1]
  generalize common_components sp tp = l at hs1 ht1
  subst hs1
  subst ht1
  have hfl : ∀ x ∈ l, '/' ∉ x := fun x hx => hfsp x (by simp [hx])
  have hfs1 : ∀ x ∈ s1, '/' ∉ x := fun x hx => hfsp x (by simp [hx])
  have hft1 : ∀ x ∈ t1, '/' ∉ x := fun x hx => hftp x (by simp [hx])
  rw [tree_move_lock_lca_spec t l hn hfl]
  cases hdl : deref t l with
  | none =>
    rw [deref_none_below t (l ++ t1) l hdl (List.prefix_append l t1)]
    rfl
  | some nl =>
    have hLl : lockAt t l = some rw_new := all_neutral_lockAt_some hn l nl hdl
    simp only [Option.isSome_some, if_true]
    have hq1 : ∀ q, q ≠ [] → q <+: t1 → ∀ rw,
        lockAt (modifyAt (setRw (rw_held true)) t l) (l ++ q) = some rw → rw = rw_new := by
      intro q hq _ rw h
      rw [lockAt_setRw_ne _ _ _ _ (append_ne_self_of_ne_nil l q hq)] at h
      exact all_neutral_lockAt hn _ rw h
    rw [tree_move_lock_from_lca_spec _ l t1 hft1 (lockAt_held _ _ _ hLl) hq1,
      deref_setRw_isSome]
    cases hdt : deref t (l ++ t1) with
    | none =>
      simp only [Option.isSome_none, Bool.false_eq_true, if_false, if_true]
      rw [rw_call_after_write _ _ (lockAt_held _ _ _ hLl), setRw_restore _ _ _ _ hLl]
    | some ntp =>
      have hLtp : lockAt t (l ++ t1) = some rw_new := all_neutral_lockAt_some hn _ ntp hdt
      simp only [Option.isSome_some, if_true, Bool.true_eq_false, if_false]
      rw [hmap_get_setRw_isSome, hmap_get_setRw_isSome]
      have htpl : decide (l ++ t1 = l) = true ↔ l ++ t1 = l := decide_eq_true_iff
      by_cases hx : (hmap_get (dirsAt t (l ++ t1)) tn).isSome = true
      · rw [if_pos hx, if_pos hx]
        exact tree_move_release2 t l (l ++ t1) _ EEXIST hLl hLtp htpl
      · rw [if_neg hx, if_neg hx]
        have hxn : hmap_get (dirsAt t (l ++ t1)) tn = none := by
          cases h : hmap_get (dirsAt t (l ++ t1)) tn with
          | none => rfl
          | some _ => rw [h] at hx; exact absurd rfl hx
        have hq2 : ∀ q, q ≠ [] → q <+: s1 → ∀ rw,
            lockAt (modifyAt (setRw (rw_held true)) (modifyAt (setRw (rw_held true)) t l)
              (l ++ t1)) (l ++ q) = some rw → rw = rw_new := by
          intro q hq hqp rw h
          have hne1 : l ++ t1 ≠ l ++ q := by
            intro e
            have e1 : t1 = q := List.append_cancel_left e
            cases q with
            | nil => exact hq rfl
            | cons x q1 =>
              obtain ⟨r, hr⟩ := hqp
              exact hdiv x (q1 ++ r) x q1 (by rw [← hr]; rfl) e1 rfl
          rw [lockAt_setRw_ne _ _ _ _ hne1,
            lockAt_setRw_ne _ _ _ _ (append_ne_self_of_ne_nil l q hq)] at h
          exact all_neutral_lockAt hn _ rw h
        rw [tree_move_lock_from_lca_spec _ l s1 hfs1 (lockAt_held2 t l (l ++ t1) hLl hLtp).1 hq2,
          deref_setRw_isSome, deref_setRw_isSome]
        cases hds : deref t (l ++ s1) with
        | none =>
          have : deref t (l ++ s1 ++ [sn]) = none :=
            deref_none_below t _ _ hds (List.prefix_append _ _)
          rw [this]
          simp only [Option.isSome_none, Bool.false_eq_true, if_false]
          exact tree_move_release2 t l (l ++ t1) _ ENOENT hLl hLtp htpl
        | some nsp =>
          simp only [Option.isSome_some, if_true]
          apply tree_move_finish_spec t l (l ++ t1) (l ++ s1) tn sn _ _ hn
          · rw [hdl]; rfl
          · rw [hdt]; rfl
          · rw [hds]; rfl
          · exact htpl
          · exact decide_eq_true_iff
          · intro e
            have e1 : t1 = s1 := List.append_cancel_left e
            cases t1 with
            | nil => simp
            | cons x xs => exact absurd rfl (hdiv x xs x xs e1.symm rfl)
          · exact hxn
          · intro hp
            exact hsub (hp.trans (List.prefix_append _ _))

/-! ## Names and listings -/

theorem names_valid_mk (d : List (List Char × Tree)) (rw : Readwrite) :
    names_valid (.mk d rw) = names_valid_list d := by
  rw [names_valid]

theorem names_valid_list_cons (k : List Char) (t : Tree) (rest : List (List Char × Tree)) :
    names_valid_list ((k, t) :: rest) = true ↔
      valid_name k = true ∧ names_valid t = true ∧ names_valid_list rest = true := by
  rw [names_valid_list]
  simp only [Bool.and_eq_true, and_assoc]

theorem names_valid_list_iff (d : List (List Char × Tree)) :
    names_valid_list d = true ↔
      ∀ kv ∈ d, valid_name kv.1 = true ∧ names_valid kv.2 = true := by
  induction d with
  | nil => simp [names_valid_list]
  | cons e rest ih =>
    obtain ⟨k, t⟩ := e
    rw [names_valid_list_cons, ih, List.forall_mem_cons]
    tauto

theorem names_valid_iff (t : Tree) :
    names_valid t = true ↔
      ∀ kv ∈ t.directories, valid_name kv.1 = true ∧ names_valid kv.2 = true := by
  cases t with
  | mk d rw => rw [names_valid_mk, names_valid_list_iff]; rfl

theorem names_valid_deref {t : Tree} (h : names_valid t = true) (a : Addr) (n : Tree)
    (hn : deref t a = some n) : names_valid n = true := by
  induction a generalizing t with
  | nil =>
    simp only [deref, Option.some.injEq] at hn
    rw [← hn]; exact h
  | cons c cs ih =>
    rw [deref_cons] at hn
    cases hc : hmap_get t.directories c with
    | none => rw [hc] at hn; cases hn
    | some child =>
      rw [hc] at hn
      exact ih (((names_valid_iff t).1 h) (c, child) (hmap_get_mem _ _ _ hc)).2 hn

theorem names_valid_keys {n : Tree} (h : names_valid n = true) :
    ∀ k ∈ n.directories.map Prod.fst, valid_name k = true := by
  intro k hk
  obtain ⟨kv, hkv, rfl⟩ := List.mem_map.1 hk
  exact (((names_valid_iff n).1 h) kv hkv).1

theorem listing_nil : make_map_contents_string ([] : HashMap Tree) = [] := rfl

theorem listing_contains_iff (m : HashMap Tree) (name : List Char)
    (hm : ∀ k ∈ m.map Prod.fst, valid_name k = true) (hname : name ≠ []) :
    listing_contains (make_map_contents_string m) name ↔ name ∈ m.map Prod.fst := by
  unfold listing_contains make_map_contents_string
  by_cases he : m.map Prod.fst = []
  · rw [he]
    have : List.intercalate [','] ([] : List (List Char)) = [] := rfl
    rw [this, List.splitOn_nil]
    simp [hname]
  · rw [List.splitOn_intercalate _ ',' (fun l hl => valid_name_comma (hm l hl)) he]

theorem listing_eq_nil_iff (m : HashMap Tree)
    (hm : ∀ k ∈ m.map Prod.fst, valid_name k = true) :
    make_map_contents_string m = [] ↔ m = [] := by
  constructor
  · intro h
    cases m with
    | nil => rfl
    | cons e rest =>
      exfalso
      obtain ⟨k, v⟩ := e
      have hk : valid_name k = true := hm k (List.mem_cons.2 (Or.inl rfl))
      have hne := valid_name_ne_nil hk
      unfold make_map_contents_string at h
      cases k with
      | nil => exact hne rfl
      | cons ch k1 =>
        cases rest with
        | nil => simp [List.intercalate, List.intersperse] at h
        | cons e2 rest2 => simp [List.intercalate, List.intersperse] at h
  · rintro rfl; rfl

/-! ## Valid paths and their components -/

theorem length_render_le (ps : Addr) (c : List Char) :
    (render ps).length ≤ (render (ps ++ [c])).length := by
  simp only [render, stem_append, List.length_append]
  omega

theorem length_render_prefix (a b : Addr) :
    (render a).length ≤ (render (a ++ b)).length := by
  simp only [render, stem_append, List.length_append]
  omega

/-- A valid path other than the root is the rendering of a parent and a last component. -/
theorem valid_path_parse (p : List Char) (hv : is_path_valid p = true) (hr : p ≠ ['/']) :
    ∃ ps c, p = render (ps ++ [c]) ∧ (∀ x ∈ ps ++ [c], valid_name x = true) ∧
      (render (ps ++ [c])).length ≤ MAX_PATH_LEN := by
  obtain ⟨hl, cs, rfl, hcs⟩ := (is_path_valid_iff p).1 hv
  rcases addr_nil_or_snoc cs with rfl | ⟨ps, c, rfl⟩
  · exact absurd rfl hr
  · exact ⟨ps, c, rfl, hcs, hl⟩

theorem parent_of_render (ps : Addr) (c : List Char) (hc : '/' ∉ c) :
    parent_of (render (ps ++ [c])) = render ps := by
  unfold parent_of
  rw [make_path_to_parent_render ps c hc]

theorem basename_render (ps : Addr) (c : List Char) (hc : '/' ∉ c) :
    basename (render (ps ++ [c])) = c := by
  unfold basename
  rw [make_path_to_parent_render ps c hc]

theorem dir_exists_render (t : Tree) (cs : Addr) (hn : all_neutral t = true)
    (hv : ∀ c ∈ cs, valid_name c = true) (hlen : (render cs).length ≤ MAX_PATH_LEN) :
    dir_exists t (render cs) = (deref t cs).isSome := by
  unfold dir_exists
  rw [tree_list_spec t cs hn hv hlen]
  cases deref t cs <;> rfl

theorem dir_exists_invalid (t : Tree) (p : List Char) (h : is_path_valid p = false) :
    dir_exists t p = false := by
  unfold dir_exists
  rw [tree_list_invalid t p h]

/-! ## Outcomes of the operations -/

theorem tree_create_invalid (t : Tree) (p : List Char) (h : is_path_valid p = false) :
    tree_create t p = some (t, EINVAL) := by
  unfold tree_create
  rw [h]; rfl

theorem tree_create_root (t : Tree) : tree_create t ['/'] = some (t, EEXIST) := rfl

theorem tree_remove_invalid (t : Tree) (p : List Char) (h : is_path_valid p = false) :
    tree_remove t p = some (t, EINVAL) := by
  unfold tree_remove
  rw [h]; rfl

theorem tree_remove_root (t : Tree) : tree_remove t ['/'] = some (t, EBUSY) := rfl

theorem all_neutral_tree_new : all_neutral tree_new = true := rfl

theorem all_neutral_insNode (k : List Char) (x n : Tree) (hx : all_neutral x = true)
    (hn : all_neutral n = true) : all_neutral (insNode k x n) = true := by
  rw [insNode, all_neutral_mk, allLocksList_append]
  refine ⟨all_neutral_lock hn, ((all_neutral_iff n).1 hn).2, ?_⟩
  rw [allLocksList_cons]
  exact ⟨hx, rfl⟩

theorem all_neutral_delNode (k : List Char) (n : Tree) (hn : all_neutral n = true) :
    all_neutral (delNode k n) = true := by
  rw [delNode, all_neutral_mk]
  exact ⟨all_neutral_lock hn, allLocksList_filter _ _ ((all_neutral_iff n).1 hn).2⟩

theorem all_neutral_created (t : Tree) (ps : Addr) (c : List Char)
    (hn : all_neutral t = true) :
    all_neutral (modifyAt (insNode c tree_new) t ps) = true :=
  all_neutral_modifyAt _ t ps hn
    (fun n h => all_neutral_insNode c tree_new n rfl (all_neutral_deref hn ps n h))

theorem all_neutral_removed (t : Tree) (ps : Addr) (c : List Char)
    (hn : all_neutral t = true) :
    all_neutral (modifyAt (delNode c) t ps) = true :=
  all_neutral_modifyAt _ t ps hn
    (fun n h => all_neutral_delNode c n (all_neutral_deref hn ps n h))

theorem all_neutral_moved (t : Tree) (tp sp : Addr) (tn sn : List Char) (src : Tree)
    (hn : all_neutral t = true) (hsrc : all_neutral src = true) :
    all_neutral (modifyAt (delNode sn)
      (modifyAt (insNode tn (.mk src.directories rw_new)) t tp) sp) = true := by
  have hx : all_neutral (Tree.mk src.directories rw_new) = true := by
    rw [all_neutral_mk]
    exact ⟨rfl, ((all_neutral_iff src).1 hsrc).2⟩
  have h1 : all_neutral (modifyAt (insNode tn (.mk src.directories rw_new)) t tp) = true :=
    all_neutral_modifyAt _ t tp hn
      (fun n h => all_neutral_insNode tn _ n hx (all_neutral_deref hn tp n h))
  exact all_neutral_modifyAt _ _ sp h1
    (fun n h => all_neutral_delNode sn n (all_neutral_deref h1 sp n h))

/-- What a successful `tree_create` has done. -/
theorem tree_create_zero (t t1 : Tree) (p : List Char) (hn : all_neutral t = true)
    (h : tree_create t p = some (t1, 0)) :
    ∃ ps c n, p = render (ps ++ [c]) ∧ (∀ x ∈ ps ++ [c], valid_name x = true) ∧
      (render (ps ++ [c])).length ≤ MAX_PATH_LEN ∧ deref t ps = some n ∧
      hmap_get n.directories c = none ∧ t1 = modifyAt (insNode c tree_new) t ps := by
  cases hv : is_path_valid p with
  | false =>
    rw [tree_create_invalid t p hv] at h
    simp only [Option.some.injEq, Prod.mk.injEq] at h
    exact absurd h.2 (by decide)
  | true =>
    by_cases hr : p = ['/']
    · rw [hr, tree_create_root] at h
      simp only [Option.some.injEq, Prod.mk.injEq] at h
      exact absurd h.2 (by decide)
    · obtain ⟨ps, c, rfl, hvn, hlen⟩ := valid_path_parse p hv hr
      rw [tree_create_spec t ps c hn hvn hlen] at h
      cases hp : deref t ps with
      | none =>
        rw [hp] at h
        simp only [Option.isSome_none, if_true, Option.some.injEq, Prod.mk.injEq] at h
        exact absurd h.2 (by decide)
      | some n =>
        rw [hp, dirsAt_of_deref hp] at h
        simp only [Option.isSome_some, Bool.true_eq_false, if_false] at h
        cases hg : hmap_get n.directories c with
        | some x =>
          rw [hg] at h
          simp only [Option.isSome_some, if_true, Option.some.injEq, Prod.mk.injEq] at h
          exact absurd h.2 (by decide)
        | none =>
          rw [hg] at h
          simp only [Option.isSome_none, Bool.false_eq_true, if_false, Option.some.injEq,
            Prod.mk.injEq, and_true] at h
          exact ⟨ps, c, n, rfl, hvn, hlen, hp, hg, h.symm⟩

/-- C1: on a well-formed tree with neutral locks, when `tree_create(p)` returns 0, then
afterwards `tree_list` of the parent of `p` contains the last component of `p` and
`tree_list(p)` is the empty string, and before the call `tree_list` of the parent
succeeded and did not contain that component. -/
theorem tree_create_adds_directory (t t1 : Tree) (p : List Char)
    (hn : all_neutral t = true) (hw : names_valid t = true)
    (h : tree_create t p = some (t1, 0)) :
    (∃ s, tree_list t1 (parent_of p) = some (t1, some s) ∧ listing_contains s (basename p)) ∧
    tree_list t1 p = some (t1, some []) ∧
    (∃ s, tree_list t (parent_of p) = some (t, some s) ∧
      ¬ listing_contains s (basename p)) := by
  obtain ⟨ps, c, n, rfl, hvn, hlen, hp, hg, rfl⟩ := tree_create_zero t t1 p hn h
  have hvc : valid_name c = true := hvn c (by simp)
  have hvps : ∀ x ∈ ps, valid_name x = true := fun x hx => hvn x (by simp [hx])
  have hlps : (render ps).length ≤ MAX_PATH_LEN := le_trans (length_render_le ps c) hlen
  have hn1 := all_neutral_created t ps c hn
  have hkeys := names_valid_keys (names_valid_deref hw ps n hp)
  have hd1 : deref (modifyAt (insNode c tree_new) t ps) ps = some (insNode c tree_new n) := by
    rw [deref_modifyAt, hp]; rfl
  rw [parent_of_render ps c (valid_name_slash hvc), basename_render ps c (valid_name_slash hvc)]
  refine ⟨⟨make_map_contents_string (insNode c tree_new n).directories, ?_, ?_⟩, ?_,
    ⟨make_map_contents_string n.directories, ?_, ?_⟩⟩
  · rw [tree_list_spec _ ps hn1 hvps hlps, hd1]; rfl
  · rw [listing_contains_iff _ c _ (valid_name_ne_nil hvc)]
    · show c ∈ List.map Prod.fst (n.directories ++ [(c, tree_new)])
      rw [List.map_append]
      exact List.mem_append.2 (Or.inr (List.mem_cons.2 (Or.inl rfl)))
    · intro k hk
      simp only [insNode, directories_mk, List.map_append, List.mem_append, List.map_cons,
        List.map_nil, List.mem_singleton] at hk
      rcases hk with hk | hk
      · exact hkeys k hk
      · rw [hk]; exact hvc
  · rw [tree_list_spec _ (ps ++ [c]) hn1 hvn hlen, deref_append, hd1]
    have : deref (insNode c tree_new n) [c] = some tree_new := by
      rw [deref_cons]
      simp only [insNode, directories_mk]
      rw [hmap_get_append, hg]
      simp only [if_true]
      rfl
    simp only [Option.bind, this]
    rfl
  · rw [tree_list_spec t ps hn hvps hlps, hp]; rfl
  · rw [listing_contains_iff _ c hkeys (valid_name_ne_nil hvc), ← hmap_get_mem_keys, hg]
    simp

theorem tree_create_adds_directory_witness :
    all_neutral example_tree = true ∧ names_valid example_tree = true ∧
    tree_create example_tree ['/', 'a', '/', 'y', '/'] =
      some (.mk [(['a'], .mk [(['x'], tree_new), (['y'], tree_new)] rw_new),
        (['b'], tree_new)] rw_new, 0) ∧
    ((∃ s, tree_list (.mk [(['a'], .mk [(['x'], tree_new), (['y'], tree_new)] rw_new),
        (['b'], tree_new)] rw_new) (parent_of ['/', 'a', '/', 'y', '/']) =
        some (.mk [(['a'], .mk [(['x'], tree_new), (['y'], tree_new)] rw_new),
          (['b'], tree_new)] rw_new, some s) ∧
        listing_contains s (basename ['/', 'a', '/', 'y', '/'])) ∧
      tree_list (.mk [(['a'], .mk [(['x'], tree_new), (['y'], tree_new)] rw_new),
        (['b'], tree_new)] rw_new) ['/', 'a', '/', 'y', '/'] =
        some (.mk [(['a'], .mk [(['x'], tree_new), (['y'], tree_new)] rw_new),
          (['b'], tree_new)] rw_new, some []) ∧
      (∃ s, tree_list example_tree (parent_of ['/', 'a', '/', 'y', '/']) =
          some (example_tree, some s) ∧
        ¬ listing_contains s (basename ['/', 'a', '/', 'y', '/']))) :=
  ⟨by decide, by decide, by decide,
    tree_create_adds_directory example_tree _ _ (by decide) (by decide) (by decide)⟩

theorem prefix_of_snoc (qs ps : Addr) (c : List Char) (h : qs <+: ps ++ [c])
    (hne : qs ≠ ps ++ [c]) : qs <+: ps := by
  obtain ⟨r, hr⟩ := h
  rcases addr_nil_or_snoc r with rfl | ⟨r1, x, rfl⟩
  · rw [List.append_nil] at hr
    exact absurd hr hne
  · rw [← List.append_assoc] at hr
    have := List.append_inj' hr rfl
    exact ⟨r1, this.1⟩

/-- An ancestor, named by a valid path, of a path given by components: its components
are a prefix. -/
theorem ancestor_components (q : List Char) (cs : Addr)
    (hcs : ∀ x ∈ cs, valid_name x = true)
    (hq : is_path_valid q = true) (hsub : is_subdirectory q (render cs) = true) :
    ∃ qs, q = render qs ∧ qs <+: cs ∧ (∀ x ∈ qs, valid_name x = true) ∧
      (render qs).length ≤ MAX_PATH_LEN := by
  obtain ⟨hl, qs, rfl, hqs⟩ := (is_path_valid_iff q).1 hq
  exact ⟨qs, rfl,
    (is_subdirectory_render qs cs (valid_slash_free hqs) (valid_slash_free hcs)).1 hsub, hqs, hl⟩

theorem is_subdirectory_parent (ps : Addr) (c : List Char)
    (hv : ∀ x ∈ ps ++ [c], valid_name x = true) :
    is_subdirectory (render ps) (render (ps ++ [c])) = true :=
  (is_subdirectory_render ps (ps ++ [c])
    (fun x hx => valid_name_slash (hv x (by simp [hx]))) (valid_slash_free hv)).2
    (List.prefix_append ps [c])

theorem render_ne_snoc (ps : Addr) (c : List Char)
    (hv : ∀ x ∈ ps ++ [c], valid_name x = true) : render ps ≠ render (ps ++ [c]) := by
  intro e
  have := render_inj ps (ps ++ [c])
    (fun x hx => valid_name_slash (hv x (by simp [hx]))) (valid_slash_free hv) e
  exact snoc_ne_self ps c this

theorem tree_create_enoent (t : Tree) (ps : Addr) (c : List Char) (hn : all_neutral t = true)
    (hv : ∀ x ∈ ps ++ [c], valid_name x = true)
    (hlen : (render (ps ++ [c])).length ≤ MAX_PATH_LEN) (hp : deref t ps = none) :
    tree_create t (render (ps ++ [c])) = some (t, ENOENT) := by
  rw [tree_create_spec t ps c hn hv hlen, hp]; rfl

theorem tree_create_eexist (t : Tree) (ps : Addr) (c : List Char) (n x : Tree)
    (hn : all_neutral t = true) (hv : ∀ x ∈ ps ++ [c], valid_name x = true)
    (hlen : (render (ps ++ [c])).length ≤ MAX_PATH_LEN) (hp : deref t ps = some n)
    (hg : hmap_get n.directories c = some x) :
    tree_create t (render (ps ++ [c])) = some (t, EEXIST) := by
  rw [tree_create_spec t ps c hn hv hlen, hp, dirsAt_of_deref hp, hg]; rfl

theorem tree_create_ok (t : Tree) (ps : Addr) (c : List Char) (n : Tree)
    (hn : all_neutral t = true) (hv : ∀ x ∈ ps ++ [c], valid_name x = true)
    (hlen : (render (ps ++ [c])).length ≤ MAX_PATH_LEN) (hp : deref t ps = some n)
    (hg : hmap_get n.directories c = none) :
    tree_create t (render (ps ++ [c])) = some (modifyAt (insNode c tree_new) t ps, 0) := by
  rw [tree_create_spec t ps c hn hv hlen, hp, dirsAt_of_deref hp, hg]; rfl

theorem deref_eq_none_of_dir_exists {t : Tree} {cs : Addr} (hn : all_neutral t = true)
    (hv : ∀ c ∈ cs, valid_name c = true) (hlen : (render cs).length ≤ MAX_PATH_LEN)
    (h : dir_exists t (render cs) = false) : deref t cs = none := by
  rw [dir_exists_render t cs hn hv hlen] at h
  cases hd : deref t cs with
  | none => rfl
  | some _ => rw [hd] at h; cases h

theorem deref_isSome_of_dir_exists {t : Tree} {cs : Addr} (hn : all_neutral t = true)
    (hv : ∀ c ∈ cs, valid_name c = true) (hlen : (render cs).length ≤ MAX_PATH_LEN)
    (h : dir_exists t (render cs) = true) : ∃ n, deref t cs = some n := by
  rw [dir_exists_render t cs hn hv hlen] at h
  cases hd : deref t cs with
  | none => rw [hd] at h; cases h
  | some n => exact ⟨n, rfl⟩

/-- A missing ancestor: the directory below it is missing too. -/
theorem deref_none_of_missing_ancestor {t : Tree} {cs : Addr} (hn : all_neutral t = true)
    (hcs : ∀ x ∈ cs, valid_name x = true) (q : List Char)
    (hq : is_path_valid q = true) (hsub : is_subdirectory q (render cs) = true)
    (hex : dir_exists t q = false) : deref t cs = none := by
  obtain ⟨qs, rfl, hpre, hqs, hlq⟩ := ancestor_components q cs hcs hq hsub
  exact deref_none_below t cs qs (deref_eq_none_of_dir_exists hn hqs hlq hex) hpre

theorem deref_none_of_missing_proper_ancestor {t : Tree} {ps : Addr} {c : List Char}
    (hn : all_neutral t = true) (hv : ∀ x ∈ ps ++ [c], valid_name x = true) (q : List Char)
    (hq : is_path_valid q = true) (hsub : is_subdirectory q (render (ps ++ [c])) = true)
    (hne : q ≠ render (ps ++ [c])) (hex : dir_exists t q = false) : deref t ps = none := by
  obtain ⟨qs, rfl, hpre, hqs, hlq⟩ := ancestor_components q _ hv hq hsub
  have hpre2 : qs <+: ps := prefix_of_snoc qs ps c hpre (fun e => hne (by rw [e]))
  exact deref_none_below t ps qs (deref_eq_none_of_dir_exists hn hqs hlq hex) hpre2

/-- C2: on a tree with neutral locks `tree_create` returns, and its result is decided
in this order: `EINVAL` for an invalid path; else `EEXIST` for the root; else `ENOENT`
when a proper ancestor directory does not exist; else `EEXIST` when the directory
exists already; else 0. -/
theorem tree_create_result (t : Tree) (p : List Char) (hn : all_neutral t = true) :
    ∃ t1 r, tree_create t p = some (t1, r) ∧
      (is_path_valid p = false → r = EINVAL) ∧
      (is_path_valid p = true → p = ['/'] → r = EEXIST) ∧
      (is_path_valid p = true → p ≠ ['/'] →
        ((∃ q, is_path_valid q = true ∧ is_subdirectory q p = true ∧ q ≠ p ∧
            dir_exists t q = false) → r = ENOENT) ∧
        ((∀ q, is_path_valid q = true → is_subdirectory q p = true → q ≠ p →
            dir_exists t q = true) →
          (dir_exists t p = true → r = EEXIST) ∧ (dir_exists t p = false → r = 0))) := by
  cases hv : is_path_valid p with
  | false =>
    exact ⟨t, EINVAL, tree_create_invalid t p hv, fun _ => rfl, fun h => (by cases h),
      fun h => (by cases h)⟩
  | true =>
    by_cases hr : p = ['/']
    · subst hr
      exact ⟨t, EEXIST, tree_create_root t, fun h => (by cases h), fun _ _ => rfl,
        fun _ h => absurd rfl h⟩
    · obtain ⟨ps, c, rfl, hvn, hlen⟩ := valid_path_parse p hv hr
      have hvps : ∀ x ∈ ps, valid_name x = true := fun x hx => hvn x (by simp [hx])
      have hlps : (render ps).length ≤ MAX_PATH_LEN := le_trans (length_render_le ps c) hlen
      have hparent : (∀ q, is_path_valid q = true →
          is_subdirectory q (render (ps ++ [c])) = true → q ≠ render (ps ++ [c]) →
          dir_exists t q = true) → ∃ n, deref t ps = some n := fun hall =>
        deref_isSome_of_dir_exists hn hvps hlps
          (hall (render ps) (is_path_valid_render hvps hlps)
            (is_subdirectory_parent ps c hvn) (render_ne_snoc ps c hvn))
      cases hp : deref t ps with
      | none =>
        refine ⟨t, ENOENT, tree_create_enoent t ps c hn hvn hlen hp, fun h => (by cases h),
          fun _ h => absurd h hr, fun _ _ => ⟨fun _ => rfl, fun hall => ?_⟩⟩
        obtain ⟨n, hn1⟩ := hparent hall
        rw [hp] at hn1
        cases hn1
      | some n =>
        have hmiss : ¬ ∃ q, is_path_valid q = true ∧
            is_subdirectory q (render (ps ++ [c])) = true ∧ q ≠ render (ps ++ [c]) ∧
            dir_exists t q = false := by
          rintro ⟨q, hq, hsub, hne, hex⟩
          rw [deref_none_of_missing_proper_ancestor hn hvn q hq hsub hne hex] at hp
          cases hp
        have hself : dir_exists t (render (ps ++ [c])) = (hmap_get n.directories c).isSome := by
          rw [dir_exists_render t _ hn hvn hlen, deref_snoc, dirsAt_of_deref hp]
        cases hg : hmap_get n.directories c with
        | some x =>
          rw [hg] at hself
          refine ⟨t, EEXIST, tree_create_eexist t ps c n x hn hvn hlen hp hg,
            fun h => (by cases h), fun _ h => absurd h hr,
            fun _ _ => ⟨fun h => absurd h hmiss, fun _ => ⟨fun _ => rfl, fun h => ?_⟩⟩⟩
          rw [hself] at h
          cases h
        | none =>
          rw [hg] at hself
          refine ⟨_, 0, tree_create_ok t ps c n hn hvn hlen hp hg,
            fun h => (by cases h), fun _ h => absurd h hr,
            fun _ _ => ⟨fun h => absurd h hmiss, fun _ => ⟨fun h => ?_, fun _ => rfl⟩⟩⟩
          rw [hself] at h
          cases h

theorem tree_create_result_witness :
    all_neutral example_tree = true ∧
    ∃ t1 r, tree_create example_tree ['/', 'c', '/', 'd', '/'] = some (t1, r) ∧
      (is_path_valid ['/', 'c', '/', 'd', '/'] = false → r = EINVAL) ∧
      (is_path_valid ['/', 'c', '/', 'd', '/'] = true → ['/', 'c', '/', 'd', '/'] = ['/'] →
        r = EEXIST) ∧
      (is_path_valid ['/', 'c', '/', 'd', '/'] = true → ['/', 'c', '/', 'd', '/'] ≠ ['/'] →
        ((∃ q, is_path_valid q = true ∧ is_subdirectory q ['/', 'c', '/', 'd', '/'] = true ∧
            q ≠ ['/', 'c', '/', 'd', '/'] ∧ dir_exists example_tree q = false) →
          r = ENOENT) ∧
        ((∀ q, is_path_valid q = true → is_subdirectory q ['/', 'c', '/', 'd', '/'] = true →
            q ≠ ['/', 'c', '/', 'd', '/'] → dir_exists example_tree q = true) →
          (dir_exists example_tree ['/', 'c', '/', 'd', '/'] = true → r = EEXIST) ∧
          (dir_exists example_tree ['/', 'c', '/', 'd', '/'] = false → r = 0))) :=
  ⟨by decide, tree_create_result example_tree ['/', 'c', '/', 'd', '/'] (by decide)⟩

theorem tree_remove_enoent (t : Tree) (ps : Addr) (c : List Char) (hn : all_neutral t = true)
    (hv : ∀ x ∈ ps ++ [c], valid_name x = true)
    (hlen : (render (ps ++ [c])).length ≤ MAX_PATH_LEN) (hp : deref t (ps ++ [c]) = none) :
    tree_remove t (render (ps ++ [c])) = some (t, ENOENT) := by
  rw [tree_remove_spec t ps c hn hv hlen, hp]

theorem tree_remove_notempty (t : Tree) (ps : Addr) (c : List Char) (child : Tree)
    (hn : all_neutral t = true) (hv : ∀ x ∈ ps ++ [c], valid_name x = true)
    (hlen : (render (ps ++ [c])).length ≤ MAX_PATH_LEN)
    (hp : deref t (ps ++ [c]) = some child) (hne : child.directories ≠ []) :
    tree_remove t (render (ps ++ [c])) = some (t, ENOTEMPTY) := by
  rw [tree_remove_spec t ps c hn hv hlen, hp]
  have : hmap_size child.directories ≠ 0 := fun e => hne (List.length_eq_zero.1 e)
  simp only []
  rw [if_pos this]

theorem tree_remove_ok (t : Tree) (ps : Addr) (c : List Char) (child : Tree)
    (hn : all_neutral t = true) (hv : ∀ x ∈ ps ++ [c], valid_name x = true)
    (hlen : (render (ps ++ [c])).length ≤ MAX_PATH_LEN)
    (hp : deref t (ps ++ [c]) = some child) (he : child.directories = []) :
    tree_remove t (render (ps ++ [c])) = some (modifyAt (delNode c) t ps, 0) := by
  rw [tree_remove_spec t ps c hn hv hlen, hp]
  have : ¬ hmap_size child.directories ≠ 0 := by rw [he]; exact fun h => h rfl
  simp only []
  rw [if_neg this]

/-- What a successful `tree_remove` has done. -/
theorem tree_remove_zero (t t1 : Tree) (p : List Char) (hn : all_neutral t = true)
    (h : tree_remove t p = some (t1, 0)) :
    ∃ ps c child, p = render (ps ++ [c]) ∧ (∀ x ∈ ps ++ [c], valid_name x = true) ∧
      (render (ps ++ [c])).length ≤ MAX_PATH_LEN ∧ deref t (ps ++ [c]) = some child ∧
      child.directories = [] ∧ t1 = modifyAt (delNode c) t ps := by
  cases hv : is_path_valid p with
  | false =>
    rw [tree_remove_invalid t p hv] at h
    simp only [Option.some.injEq, Prod.mk.injEq] at h
    exact absurd h.2 (by decide)
  | true =>
    by_cases hr : p = ['/']
    · rw [hr, tree_remove_root] at h
      simp only [Option.some.injEq, Prod.mk.injEq] at h
      exact absurd h.2 (by decide)
    · obtain ⟨ps, c, rfl, hvn, hlen⟩ := valid_path_parse p hv hr
      cases hp : deref t (ps ++ [c]) with
      | none =>
        rw [tree_remove_enoent t ps c hn hvn hlen hp] at h
        simp only [Option.some.injEq, Prod.mk.injEq] at h
        exact absurd h.2 (by decide)
      | some child =>
        by_cases he : child.directories = []
        · rw [tree_remove_ok t ps c child hn hvn hlen hp he] at h
          simp only [Option.some.injEq, Prod.mk.injEq, and_true] at h
          exact ⟨ps, c, child, rfl, hvn, hlen, hp, he, h.symm⟩
        · rw [tree_remove_notempty t ps c child hn hvn hlen hp he] at h
          simp only [Option.some.injEq, Prod.mk.injEq] at h
          exact absurd h.2 (by decide)

theorem deref_parent_of_child {t : Tree} {ps : Addr} {c : List Char} {child : Tree}
    (h : deref t (ps ++ [c]) = some child) :
    ∃ n, deref t ps = some n ∧ hmap_get n.directories c = some child := by
  rw [deref_snoc] at h
  cases hp : deref t ps with
  | none => rw [dirsAt, hp] at h; cases h
  | some n => rw [dirsAt_of_deref hp] at h; exact ⟨n, rfl, h⟩

/-- C3, as the claim states it, fails: after `tree_remove` of `/b/` has returned 0,
`tree_list` of `/b/` returns `NULL`, which is what it returns for the invalid path `x`
too; no `ENOENT` is reported, and nothing tells the two failures apart. -/
theorem tree_list_after_remove_is_null :
    all_neutral example_tree = true ∧ is_path_valid ['/', 'b', '/'] = true ∧
    tree_remove example_tree ['/', 'b', '/'] =
      some (.mk [(['a'], .mk [(['x'], tree_new)] rw_new)] rw_new, 0) ∧
    tree_list (.mk [(['a'], .mk [(['x'], tree_new)] rw_new)] rw_new) ['/', 'b', '/'] =
      some (.mk [(['a'], .mk [(['x'], tree_new)] rw_new)] rw_new, none) ∧
    is_path_valid ['x'] = false ∧
    tree_list (.mk [(['a'], .mk [(['x'], tree_new)] rw_new)] rw_new) ['x'] =
      tree_list (.mk [(['a'], .mk [(['x'], tree_new)] rw_new)] rw_new) ['/', 'b', '/'] := by
  decide

/-- C3, amended: on a well-formed tree with neutral locks, when `tree_remove(p)` returns
0, then afterwards `tree_list` of the parent of `p` succeeds and does not contain the
last component of `p`, and `tree_list(p)` fails by returning `NULL`, the valid path
naming no directory (`get_directory_tree` finds none); `NULL` is also what `tree_list`
returns for every invalid path, so no error code such as `ENOENT` is reported. -/
theorem tree_remove_removes_directory (t t1 : Tree) (p : List Char)
    (hn : all_neutral t = true) (hw : names_valid t = true)
    (h : tree_remove t p = some (t1, 0)) :
    (∃ s, tree_list t1 (parent_of p) = some (t1, some s) ∧
      ¬ listing_contains s (basename p)) ∧
    tree_list t1 p = some (t1, none) ∧ is_path_valid p = true ∧
    get_directory_tree t1 [] p false = some (t1, none) ∧
    (∀ q, is_path_valid q = false → tree_list t1 q = tree_list t1 p) := by
  have hinv : ∀ (u : Tree) (q : List Char), is_path_valid q = false →
      tree_list u q = some (u, none) := fun u q hq => tree_list_invalid u q hq
  obtain ⟨ps, c, child, rfl, hvn, hlen, hp, _, rfl⟩ := tree_remove_zero t t1 p hn h
  obtain ⟨n, hpn, hg⟩ := deref_parent_of_child hp
  have hvc : valid_name c = true := hvn c (by simp)
  have hvps : ∀ x ∈ ps, valid_name x = true := fun x hx => hvn x (by simp [hx])
  have hlps : (render ps).length ≤ MAX_PATH_LEN := le_trans (length_render_le ps c) hlen
  have hn1 := all_neutral_removed t ps c hn
  have hkeys := names_valid_keys (names_valid_deref hw ps n hpn)
  have hd1 : deref (modifyAt (delNode c) t ps) ps = some (delNode c n) := by
    rw [deref_modifyAt, hpn]; rfl
  have hd2 : deref (modifyAt (delNode c) t ps) (ps ++ [c]) = none := by
    rw [deref_append, hd1]
    show deref (delNode c n) [c] = none
    rw [deref_cons]
    simp only [delNode, directories_mk]
    rw [hmap_get_filter_same]; rfl
  rw [parent_of_render ps c (valid_name_slash hvc), basename_render ps c (valid_name_slash hvc)]
  have hnull : tree_list (modifyAt (delNode c) t ps) (render (ps ++ [c])) =
      some (modifyAt (delNode c) t ps, none) := by
    rw [tree_list_spec _ (ps ++ [c]) hn1 hvn hlen, hd2]; rfl
  refine ⟨⟨make_map_contents_string (delNode c n).directories, ?_, ?_⟩, hnull,
    is_path_valid_render hvn hlen, ?_, fun q hq => ?_⟩
  · rw [tree_list_spec _ ps hn1 hvps hlps, hd1]; rfl
  · rw [listing_contains_iff _ c _ (valid_name_ne_nil hvc), ← hmap_get_mem_keys]
    · simp only [delNode, directories_mk]
      rw [hmap_get_filter_same]
      simp
    · intro k hk
      apply hkeys k
      obtain ⟨kv, hkv, rfl⟩ := List.mem_map.1 hk
      exact List.mem_map.2 ⟨kv, (List.mem_filter.1 hkv).1, rfl⟩
  · rw [get_directory_tree_neutral false _ _ (valid_slash_free hvn) hn1, hd2]; rfl
  · rw [hnull]
    exact hinv _ q hq

theorem tree_remove_removes_directory_witness :
    all_neutral example_tree = true ∧ names_valid example_tree = true ∧
    tree_remove example_tree ['/', 'a', '/', 'x', '/'] =
      some (.mk [(['a'], tree_new), (['b'], tree_new)] rw_new, 0) ∧
    ((∃ s, tree_list (.mk [(['a'], tree_new), (['b'], tree_new)] rw_new)
        (parent_of ['/', 'a', '/', 'x', '/']) =
          some (.mk [(['a'], tree_new), (['b'], tree_new)] rw_new, some s) ∧
        ¬ listing_contains s (basename ['/', 'a', '/', 'x', '/'])) ∧
      tree_list (.mk [(['a'], tree_new), (['b'], tree_new)] rw_new) ['/', 'a', '/', 'x', '/'] =
        some (.mk [(['a'], tree_new), (['b'], tree_new)] rw_new, none) ∧
      is_path_valid ['/', 'a', '/', 'x', '/'] = true ∧
      get_directory_tree (.mk [(['a'], tree_new), (['b'], tree_new)] rw_new) []
        ['/', 'a', '/', 'x', '/'] false =
        some (.mk [(['a'], tree_new), (['b'], tree_new)] rw_new, none) ∧
      (∀ q, is_path_valid q = false →
        tree_list (.mk [(['a'], tree_new), (['b'], tree_new)] rw_new) q =
          tree_list (.mk [(['a'], tree_new), (['b'], tree_new)] rw_new)
            ['/', 'a', '/', 'x', '/'])) :=
  ⟨by decide, by decide, by decide,
    tree_remove_removes_directory example_tree _ _ (by decide) (by decide) (by decide)⟩

/-- C4: on a well-formed tree with neutral locks `tree_remove` returns, and its result is
decided in this order: `EINVAL` for an invalid path; else `EBUSY` for the root; else
`ENOENT` when the directory or an ancestor of it does not exist; else `ENOTEMPTY` when
the listing of the directory is not empty; else 0.  After `ENOTEMPTY`, `tree_list` of the
path returns what it returned before the call, and it succeeds. -/
theorem tree_remove_result (t : Tree) (p : List Char) (hn : all_neutral t = true)
    (hw : names_valid t = true) :
    ∃ t1 r, tree_remove t p = some (t1, r) ∧
      (is_path_valid p = false → r = EINVAL) ∧
      (is_path_valid p = true → p = ['/'] → r = EBUSY) ∧
      (is_path_valid p = true → p ≠ ['/'] →
        ((∃ q, is_path_valid q = true ∧ is_subdirectory q p = true ∧
            dir_exists t q = false) → r = ENOENT) ∧
        ((∀ q, is_path_valid q = true → is_subdirectory q p = true →
            dir_exists t q = true) →
          ∃ s, tree_list t p = some (t, some s) ∧
            (s ≠ [] → r = ENOTEMPTY) ∧ (s = [] → r = 0))) ∧
      (r = ENOTEMPTY →
        tree_list t1 p = tree_list t p ∧ ∃ s, tree_list t1 p = some (t1, some s)) := by
  cases hv : is_path_valid p with
  | false =>
    exact ⟨t, EINVAL, tree_remove_invalid t p hv, fun _ => rfl, fun h => (by cases h),
      fun h => (by cases h), fun h => absurd h (by decide)⟩
  | true =>
    by_cases hr : p = ['/']
    · subst hr
      exact ⟨t, EBUSY, tree_remove_root t, fun h => (by cases h), fun _ _ => rfl,
        fun _ h => absurd rfl h, fun h => absurd h (by decide)⟩
    · obtain ⟨ps, c, rfl, hvn, hlen⟩ := valid_path_parse p hv hr
      have hself : (∀ q, is_path_valid q = true →
          is_subdirectory q (render (ps ++ [c])) = true → dir_exists t q = true) →
          ∃ n, deref t (ps ++ [c]) = some n := fun hall =>
        deref_isSome_of_dir_exists hn hvn hlen
          (hall _ (is_path_valid_render hvn hlen)
            ((is_subdirectory_render _ _ (valid_slash_free hvn) (valid_slash_free hvn)).2
              (List.prefix_refl _)))
      cases hp : deref t (ps ++ [c]) with
      | none =>
        refine ⟨t, ENOENT, tree_remove_enoent t ps c hn hvn hlen hp, fun h => (by cases h),
          fun _ h => absurd h hr, fun _ _ => ⟨fun _ => rfl, fun hall => ?_⟩,
          fun h => absurd h (by decide)⟩
        obtain ⟨n, hn1⟩ := hself hall
        rw [hp] at hn1
        cases hn1
      | some child =>
        have hmiss : ¬ ∃ q, is_path_valid q = true ∧
            is_subdirectory q (render (ps ++ [c])) = true ∧ dir_exists t q = false := by
          rintro ⟨q, hq, hsub, hex⟩
          rw [deref_none_of_missing_ancestor hn hvn q hq hsub hex] at hp
          cases hp
        have hlist : tree_list t (render (ps ++ [c])) =
            some (t, some (make_map_contents_string child.directories)) := by
          rw [tree_list_spec t _ hn hvn hlen, hp]; rfl
        have hnil := listing_eq_nil_iff child.directories
          (names_valid_keys (names_valid_deref hw _ child hp))
        by_cases he : child.directories = []
        · refine ⟨_, 0, tree_remove_ok t ps c child hn hvn hlen hp he,
            fun h => (by cases h), fun _ h => absurd h hr,
            fun _ _ => ⟨fun h => absurd h hmiss, fun _ => ⟨_, hlist, fun h => ?_, fun _ => rfl⟩⟩,
            fun h => absurd h (by decide)⟩
          exact absurd (hnil.2 he) h
        · refine ⟨t, ENOTEMPTY, tree_remove_notempty t ps c child hn hvn hlen hp he,
            fun h => (by cases h), fun _ h => absurd h hr,
            fun _ _ => ⟨fun h => absurd h hmiss, fun _ => ⟨_, hlist, fun _ => rfl, fun h => ?_⟩⟩,
            fun _ => ⟨rfl, _, hlist⟩⟩
          exact absurd (hnil.1 h) he

theorem tree_remove_result_witness :
    all_neutral example_tree = true ∧ names_valid example_tree = true ∧
    ∃ t1 r, tree_remove example_tree ['/', 'a', '/'] = some (t1, r) ∧
      (is_path_valid ['/', 'a', '/'] = false → r = EINVAL) ∧
      (is_path_valid ['/', 'a', '/'] = true → ['/', 'a', '/'] = ['/'] → r = EBUSY) ∧
      (is_path_valid ['/', 'a', '/'] = true → ['/', 'a', '/'] ≠ ['/'] →
        ((∃ q, is_path_valid q = true ∧ is_subdirectory q ['/', 'a', '/'] = true ∧
            dir_exists example_tree q = false) → r = ENOENT) ∧
        ((∀ q, is_path_valid q = true → is_subdirectory q ['/', 'a', '/'] = true →
            dir_exists example_tree q = true) →
          ∃ s, tree_list example_tree ['/', 'a', '/'] = some (example_tree, some s) ∧
            (s ≠ [] → r = ENOTEMPTY) ∧ (s = [] → r = 0))) ∧
      (r = ENOTEMPTY →
        tree_list t1 ['/', 'a', '/'] = tree_list example_tree ['/', 'a', '/'] ∧
        ∃ s, tree_list t1 ['/', 'a', '/'] = some (t1, some s)) :=
  ⟨by decide, by decide,
    tree_remove_result example_tree ['/', 'a', '/'] (by decide) (by decide)⟩

/-! ## Results of `tree_move` -/

theorem tree_move_invalid (t : Tree) (source target : List Char)
    (h : is_path_valid source = false ∨ is_path_valid target = false) :
    tree_move t source target = some (t, EINVAL) := by
  unfold tree_move
  rcases h with h | h
  · rw [h]; rfl
  · rw [h, Bool.not_false, Bool.or_true, if_pos rfl]

theorem tree_move_source_root (t : Tree) (source target : List Char)
    (hs : is_path_valid source = true) (ht : is_path_valid target = true)
    (h : source = ['/']) : tree_move t source target = some (t, EBUSY) := by
  unfold tree_move
  rw [hs, ht, h]; rfl

theorem tree_move_target_root (t : Tree) (source target : List Char)
    (hs : is_path_valid source = true) (ht : is_path_valid target = true)
    (hrs : source ≠ ['/']) (h : target = ['/']) :
    tree_move t source target = some (t, EEXIST) := by
  unfold tree_move
  rw [hs, ht, h]
  simp only [Bool.not_true, Bool.or_self, Bool.false_eq_true, if_false]
  rw [if_neg hrs]
  rfl

theorem tree_move_same (t : Tree) (source target : List Char)
    (hs : is_path_valid source = true) (ht : is_path_valid target = true)
    (hrs : source ≠ ['/']) (hrt : target ≠ ['/']) (h : source = target) :
    tree_move t source target = some (t, 0) := by
  unfold tree_move
  rw [hs, ht]
  simp only [Bool.not_true, Bool.or_self, Bool.false_eq_true, if_false]
  rw [if_neg hrs, if_neg hrt, if_pos h]

theorem tree_move_inside (t : Tree) (source target : List Char)
    (hs : is_path_valid source = true) (ht : is_path_valid target = true)
    (hrs : source ≠ ['/']) (hrt : target ≠ ['/']) (hne : source ≠ target)
    (h : is_subdirectory source target = true) :
    tree_move t source target = some (t, -1) := by
  unfold tree_move
  rw [hs, ht]
  simp only [Bool.not_true, Bool.or_self, Bool.false_eq_true, if_false]
  rw [if_neg hrs, if_neg hrt, if_neg hne, if_pos h]

/-- C5: for every tree and every two paths `tree_move` decides these results first, in
this order, whatever the tree holds, and leaves the tree as it was: `EINVAL` when a path
is invalid; else `EBUSY` when the source is the root; else `EEXIST` when the target is
the root; else 0 when source and target are equal; else -1 when the target lies inside
the source (`is_subdirectory`; for paths given by components, when the components of the
source are a prefix of those of the target). -/
theorem tree_move_early_results (t : Tree) (source target : List Char) :
    ((is_path_valid source = false ∨ is_path_valid target = false) →
      tree_move t source target = some (t, EINVAL)) ∧
    (is_path_valid source = true → is_path_valid target = true →
      (source = ['/'] → tree_move t source target = some (t, EBUSY)) ∧
      (source ≠ ['/'] →
        (target = ['/'] → tree_move t source target = some (t, EEXIST)) ∧
        (target ≠ ['/'] →
          (source = target → tree_move t source target = some (t, 0)) ∧
          (source ≠ target →
            (is_subdirectory source target = true →
              tree_move t source target = some (t, -1)) ∧
            (∀ a b : Addr, source = render a → target = render (a ++ b) →
              tree_move t source target = some (t, -1)))))) := by
  refine ⟨tree_move_invalid t source target, fun hs ht =>
    ⟨tree_move_source_root t source target hs ht, fun hrs =>
      ⟨tree_move_target_root t source target hs ht hrs, fun hrt =>
        ⟨tree_move_same t source target hs ht hrs hrt, fun hne =>
          ⟨tree_move_inside t source target hs ht hrs hrt hne, fun a b ha hb => ?_⟩⟩⟩⟩⟩
  apply tree_move_inside t source target hs ht hrs hrt hne
  obtain ⟨r, hr⟩ := render_eq_cons b
  rw [ha, hb, render_append, hr]
  unfold is_subdirectory
  rw [ List.isPrefixOf_iff_prefix]
  exact ⟨r, by simp [render]⟩

theorem tree_move_early_results_witness :
    ((is_path_valid ['/', 'a', '/'] = false ∨ is_path_valid ['/', 'a', '/', 'x', '/'] = false) →
      tree_move example_tree ['/', 'a', '/'] ['/', 'a', '/', 'x', '/'] =
        some (example_tree, EINVAL)) ∧
    is_path_valid ['/', 'a', '/'] = true ∧ is_path_valid ['/', 'a', '/', 'x', '/'] = true ∧
    ['/', 'a', '/'] ≠ ['/'] ∧ ['/', 'a', '/', 'x', '/'] ≠ ['/'] ∧
    ['/', 'a', '/'] ≠ ['/', 'a', '/', 'x', '/'] ∧
    is_subdirectory ['/', 'a', '/'] ['/', 'a', '/', 'x', '/'] = true ∧
    tree_move example_tree ['/', 'a', '/'] ['/', 'a', '/', 'x', '/'] =
      some (example_tree, -1) :=
  ⟨(tree_move_early_results example_tree ['/', 'a', '/'] ['/', 'a', '/', 'x', '/']).1,
    by decide, by decide, by decide, by decide, by decide, by decide,
    (((((tree_move_early_results example_tree ['/', 'a', '/'] ['/', 'a', '/', 'x', '/']).2
      (by decide) (by decide)).2 (by decide)).2 (by decide)).2 (by decide)).1 (by decide)⟩

theorem tree_move_enoent_target (t : Tree) (sp tp : Addr) (sn tn : List Char)
    (hn : all_neutral t = true)
    (hvs : ∀ x ∈ sp ++ [sn], valid_name x = true)
    (hvt : ∀ x ∈ tp ++ [tn], valid_name x = true)
    (hls : (render (sp ++ [sn])).length ≤ MAX_PATH_LEN)
    (hlt : (render (tp ++ [tn])).length ≤ MAX_PATH_LEN)
    (hne : sp ++ [sn] ≠ tp ++ [tn]) (hsub : ¬ (sp ++ [sn]) <+: (tp ++ [tn]))
    (hp : deref t tp = none) :
    tree_move t (render (sp ++ [sn])) (render (tp ++ [tn])) = some (t, ENOENT) := by
  rw [tree_move_spec t sp tp sn tn hn hvs hvt hls hlt hne hsub, hp]; rfl

theorem tree_move_eexist (t : Tree) (sp tp : Addr) (sn tn : List Char) (n x : Tree)
    (hn : all_neutral t = true)
    (hvs : ∀ x ∈ sp ++ [sn], valid_name x = true)
    (hvt : ∀ x ∈ tp ++ [tn], valid_name x = true)
    (hls : (render (sp ++ [sn])).length ≤ MAX_PATH_LEN)
    (hlt : (render (tp ++ [tn])).length ≤ MAX_PATH_LEN)
    (hne : sp ++ [sn] ≠ tp ++ [tn]) (hsub : ¬ (sp ++ [sn]) <+: (tp ++ [tn]))
    (hp : deref t tp = some n) (hg : hmap_get n.directories tn = some x) :
    tree_move t (render (sp ++ [sn])) (render (tp ++ [tn])) = some (t, EEXIST) := by
  rw [tree_move_spec t sp tp sn tn hn hvs hvt hls hlt hne hsub, hp, dirsAt_of_deref hp, hg]; rfl

theorem tree_move_enoent_source (t : Tree) (sp tp : Addr) (sn tn : List Char) (n : Tree)
    (hn : all_neutral t = true)
    (hvs : ∀ x ∈ sp ++ [sn], valid_name x = true)
    (hvt : ∀ x ∈ tp ++ [tn], valid_name x = true)
    (hls : (render (sp ++ [sn])).length ≤ MAX_PATH_LEN)
    (hlt : (render (tp ++ [tn])).length ≤ MAX_PATH_LEN)
    (hne : sp ++ [sn] ≠ tp ++ [tn]) (hsub : ¬ (sp ++ [sn]) <+: (tp ++ [tn]))
    (hp : deref t tp = some n) (hg : hmap_get n.directories tn = none)
    (hsrc : deref t (sp ++ [sn]) = none) :
    tree_move t (render (sp ++ [sn])) (render (tp ++ [tn])) = some (t, ENOENT) := by
  rw [tree_move_spec t sp tp sn tn hn hvs hvt hls hlt hne hsub, hp, dirsAt_of_deref hp, hg,
    hsrc]; rfl

theorem tree_move_ok (t : Tree) (sp tp : Addr) (sn tn : List Char) (n src : Tree)
    (hn : all_neutral t = true)
    (hvs : ∀ x ∈ sp ++ [sn], valid_name x = true)
    (hvt : ∀ x ∈ tp ++ [tn], valid_name x = true)
    (hls : (render (sp ++ [sn])).length ≤ MAX_PATH_LEN)
    (hlt : (render (tp ++ [tn])).length ≤ MAX_PATH_LEN)
    (hne : sp ++ [sn] ≠ tp ++ [tn]) (hsub : ¬ (sp ++ [sn]) <+: (tp ++ [tn]))
    (hp : deref t tp = some n) (hg : hmap_get n.directories tn = none)
    (hsrc : deref t (sp ++ [sn]) = some src) :
    tree_move t (render (sp ++ [sn])) (render (tp ++ [tn])) =
      some (modifyAt (delNode sn)
        (modifyAt (insNode tn (.mk src.directories rw_new)) t tp) sp, 0) := by
  rw [tree_move_spec t sp tp sn tn hn hvs hvt hls hlt hne hsub, hp, dirsAt_of_deref hp, hg,
    hsrc]; rfl

/-- Two valid paths other than the root, the second different from the first and not
inside it, by their components. -/
theorem move_paths_parse (source target : List Char)
    (hvs : is_path_valid source = true) (hvt : is_path_valid target = true)
    (hne : source ≠ target) (hrs : source ≠ ['/']) (hrt : target ≠ ['/'])
    (hsub : is_subdirectory source target = false) :
    ∃ sp sn tp tn, source = render (sp ++ [sn]) ∧ target = render (tp ++ [tn]) ∧
      (∀ x ∈ sp ++ [sn], valid_name x = true) ∧ (∀ x ∈ tp ++ [tn], valid_name x = true) ∧
      (render (sp ++ [sn])).length ≤ MAX_PATH_LEN ∧
      (render (tp ++ [tn])).length ≤ MAX_PATH_LEN ∧
      sp ++ [sn] ≠ tp ++ [tn] ∧ ¬ (sp ++ [sn]) <+: (tp ++ [tn]) := by
  obtain ⟨sp, sn, rfl, hvs1, hls⟩ := valid_path_parse source hvs hrs
  obtain ⟨tp, tn, rfl, hvt1, hlt⟩ := valid_path_parse target hvt hrt
  refine ⟨sp, sn, tp, tn, rfl, rfl, hvs1, hvt1, hls, hlt, fun e => hne (by rw [e]), ?_⟩
  intro hp
  rw [(is_subdirectory_render _ _ (valid_slash_free hvs1) (valid_slash_free hvt1)).2 hp] at hsub
  cases hsub

/-- C7: on a tree with neutral locks, for valid, distinct paths other than the root, the
target not inside the source, `tree_move` returns, and its result is `ENOENT` when the
parent of the target does not exist; else `EEXIST` when the target exists, whether or
not the source does; else `ENOENT` when the parent of the source or the source does not
exist; else 0. -/
theorem tree_move_result (t : Tree) (source target : List Char) (hn : all_neutral t = true)
    (hvs : is_path_valid source = true) (hvt : is_path_valid target = true)
    (hne : source ≠ target) (hrs : source ≠ ['/']) (hrt : target ≠ ['/'])
    (hsub : is_subdirectory source target = false) :
    ∃ t1 r, tree_move t source target = some (t1, r) ∧
      (dir_exists t (parent_of target) = false → r = ENOENT) ∧
      (dir_exists t (parent_of target) = true →
        (dir_exists t target = true → r = EEXIST) ∧
        (dir_exists t target = false →
          ((dir_exists t (parent_of source) = false ∨ dir_exists t source = false) →
            r = ENOENT) ∧
          (dir_exists t (parent_of source) = true → dir_exists t source = true → r = 0))) := by
  obtain ⟨sp, sn, tp, tn, rfl, rfl, hvs1, hvt1, hls, hlt, hne1, hsub1⟩ :=
    move_paths_parse source target hvs hvt hne hrs hrt hsub
  have hvsp : ∀ x ∈ sp, valid_name x = true := fun x hx => hvs1 x (by simp [hx])
  have hvtp : ∀ x ∈ tp, valid_name x = true := fun x hx => hvt1 x (by simp [hx])
  have hlsp : (render sp).length ≤ MAX_PATH_LEN := le_trans (length_render_le sp sn) hls
  have hltp : (render tp).length ≤ MAX_PATH_LEN := le_trans (length_render_le tp tn) hlt
  rw [parent_of_render tp tn (valid_name_slash (hvt1 tn (by simp))),
    parent_of_render sp sn (valid_name_slash (hvs1 sn (by simp))),
    dir_exists_render t tp hn hvtp hltp, dir_exists_render t sp hn hvsp hlsp,
    dir_exists_render t _ hn hvt1 hlt, dir_exists_render t _ hn hvs1 hls]
  cases hp : deref t tp with
  | none =>
    exact ⟨t, ENOENT, tree_move_enoent_target t sp tp sn tn hn hvs1 hvt1 hls hlt hne1 hsub1 hp,
      fun _ => rfl, fun h => (by cases h)⟩
  | some n =>
    have htgt : deref t (tp ++ [tn]) = hmap_get n.directories tn := by
      rw [deref_snoc, dirsAt_of_deref hp]
    rw [htgt]
    cases hg : hmap_get n.directories tn with
    | some x =>
      exact ⟨t, EEXIST, tree_move_eexist t sp tp sn tn n x hn hvs1 hvt1 hls hlt hne1 hsub1 hp hg,
        fun h => (by cases h), fun _ => ⟨fun _ => rfl, fun h => (by cases h)⟩⟩
    | none =>
      cases hsrc : deref t (sp ++ [sn]) with
      | none =>
        exact ⟨t, ENOENT,
          tree_move_enoent_source t sp tp sn tn n hn hvs1 hvt1 hls hlt hne1 hsub1 hp hg hsrc,
          fun h => (by cases h), fun _ => ⟨fun h => (by cases h),
            fun _ => ⟨fun _ => rfl, fun _ h => (by cases h)⟩⟩⟩
      | some src =>
        obtain ⟨m, hm, _⟩ := deref_parent_of_child hsrc
        refine ⟨_, 0,
          tree_move_ok t sp tp sn tn n src hn hvs1 hvt1 hls hlt hne1 hsub1 hp hg hsrc,
          fun h => (by cases h), fun _ => ⟨fun h => (by cases h),
            fun _ => ⟨fun h => ?_, fun _ _ => rfl⟩⟩⟩
        rw [hm] at h
        rcases h with h | h <;> cases h

theorem tree_move_result_witness :
    all_neutral example_tree = true ∧
    is_path_valid ['/', 'c', '/'] = true ∧ is_path_valid ['/', 'a', '/', 'x', '/'] = true ∧
    ['/', 'c', '/'] ≠ ['/', 'a', '/', 'x', '/'] ∧ ['/', 'c', '/'] ≠ ['/'] ∧
    ['/', 'a', '/', 'x', '/'] ≠ ['/'] ∧
    is_subdirectory ['/', 'c', '/'] ['/', 'a', '/', 'x', '/'] = false ∧
    ∃ t1 r, tree_move example_tree ['/', 'c', '/'] ['/', 'a', '/', 'x', '/'] = some (t1, r) ∧
      (dir_exists example_tree (parent_of ['/', 'a', '/', 'x', '/']) = false → r = ENOENT) ∧
      (dir_exists example_tree (parent_of ['/', 'a', '/', 'x', '/']) = true →
        (dir_exists example_tree ['/', 'a', '/', 'x', '/'] = true → r = EEXIST) ∧
        (dir_exists example_tree ['/', 'a', '/', 'x', '/'] = false →
          ((dir_exists example_tree (parent_of ['/', 'c', '/']) = false ∨
              dir_exists example_tree ['/', 'c', '/'] = false) → r = ENOENT) ∧
          (dir_exists example_tree (parent_of ['/', 'c', '/']) = true →
            dir_exists example_tree ['/', 'c', '/'] = true → r = 0))) :=
  ⟨by decide, by decide, by decide, by decide, by decide, by decide, by decide,
    tree_move_result example_tree ['/', 'c', '/'] ['/', 'a', '/', 'x', '/']
      (by decide) (by decide) (by decide) (by decide) (by decide) (by decide) (by decide)⟩

/-! ## Every call returns, releases its locks, and changes the tree only on success -/

theorem tree_list_outcome (t : Tree) (p : List Char) (hn : all_neutral t = true) :
    ∃ r, tree_list t p = some (t, r) := by
  cases hv : is_path_valid p with
  | false => exact ⟨none, tree_list_invalid t p hv⟩
  | true =>
    obtain ⟨hl, cs, rfl, hcs⟩ := (is_path_valid_iff p).1 hv
    exact ⟨_, tree_list_spec t cs hn hcs hl⟩

theorem tree_create_outcome (t : Tree) (p : List Char) (hn : all_neutral t = true) :
    ∃ t1 r, tree_create t p = some (t1, r) ∧ all_neutral t1 = true ∧ (r ≠ 0 → t1 = t) := by
  cases hv : is_path_valid p with
  | false => exact ⟨t, EINVAL, tree_create_invalid t p hv, hn, fun _ => rfl⟩
  | true =>
    by_cases hr : p = ['/']
    · subst hr
      exact ⟨t, EEXIST, tree_create_root t, hn, fun _ => rfl⟩
    · obtain ⟨ps, c, rfl, hvn, hlen⟩ := valid_path_parse p hv hr
      cases hp : deref t ps with
      | none => exact ⟨t, ENOENT, tree_create_enoent t ps c hn hvn hlen hp, hn, fun _ => rfl⟩
      | some n =>
        cases hg : hmap_get n.directories c with
        | some x =>
          exact ⟨t, EEXIST, tree_create_eexist t ps c n x hn hvn hlen hp hg, hn, fun _ => rfl⟩
        | none =>
          exact ⟨_, 0, tree_create_ok t ps c n hn hvn hlen hp hg, all_neutral_created t ps c hn,
            fun h => absurd rfl h⟩

theorem tree_remove_outcome (t : Tree) (p : List Char) (hn : all_neutral t = true) :
    ∃ t1 r, tree_remove t p = some (t1, r) ∧ all_neutral t1 = true ∧ (r ≠ 0 → t1 = t) := by
  cases hv : is_path_valid p with
  | false => exact ⟨t, EINVAL, tree_remove_invalid t p hv, hn, fun _ => rfl⟩
  | true =>
    by_cases hr : p = ['/']
    · subst hr
      exact ⟨t, EBUSY, tree_remove_root t, hn, fun _ => rfl⟩
    · obtain ⟨ps, c, rfl, hvn, hlen⟩ := valid_path_parse p hv hr
      cases hp : deref t (ps ++ [c]) with
      | none => exact ⟨t, ENOENT, tree_remove_enoent t ps c hn hvn hlen hp, hn, fun _ => rfl⟩
      | some child =>
        by_cases he : child.directories = []
        · exact ⟨_, 0, tree_remove_ok t ps c child hn hvn hlen hp he,
            all_neutral_removed t ps c hn, fun h => absurd rfl h⟩
        · exact ⟨t, ENOTEMPTY, tree_remove_notempty t ps c child hn hvn hlen hp he, hn,
            fun _ => rfl⟩

theorem tree_move_outcome (t : Tree) (source target : List Char) (hn : all_neutral t = true) :
    ∃ t1 r, tree_move t source target = some (t1, r) ∧ all_neutral t1 = true ∧
      (r ≠ 0 → t1 = t) := by
  cases hvs : is_path_valid source with
  | false => exact ⟨t, EINVAL, tree_move_invalid t _ _ (Or.inl hvs), hn, fun _ => rfl⟩
  | true =>
    cases hvt : is_path_valid target with
    | false => exact ⟨t, EINVAL, tree_move_invalid t _ _ (Or.inr hvt), hn, fun _ => rfl⟩
    | true =>
      by_cases hrs : source = ['/']
      · exact ⟨t, EBUSY, tree_move_source_root t _ _ hvs hvt hrs, hn, fun _ => rfl⟩
      · by_cases hrt : target = ['/']
        · exact ⟨t, EEXIST, tree_move_target_root t _ _ hvs hvt hrs hrt, hn, fun _ => rfl⟩
        · by_cases hne : source = target
          · exact ⟨t, 0, tree_move_same t _ _ hvs hvt hrs hrt hne, hn, fun _ => rfl⟩
          · cases hsub : is_subdirectory source target with
            | true =>
              exact ⟨t, -1, tree_move_inside t _ _ hvs hvt hrs hrt hne hsub, hn,
                fun _ => rfl⟩
            | false =>
              obtain ⟨sp, sn, tp, tn, rfl, rfl, hvs1, hvt1, hls, hlt, hne1, hsub1⟩ :=
                move_paths_parse source target hvs hvt hne hrs hrt hsub
              cases hp : deref t tp with
              | none =>
                exact ⟨t, ENOENT,
                  tree_move_enoent_target t sp tp sn tn hn hvs1 hvt1 hls hlt hne1 hsub1 hp,
                  hn, fun _ => rfl⟩
              | some n =>
                cases hg : hmap_get n.directories tn with
                | some x =>
                  exact ⟨t, EEXIST,
                    tree_move_eexist t sp tp sn tn n x hn hvs1 hvt1 hls hlt hne1 hsub1 hp hg,
                    hn, fun _ => rfl⟩
                | none =>
                  cases hsrc : deref t (sp ++ [sn]) with
                  | none =>
                    exact ⟨t, ENOENT,
                      tree_move_enoent_source t sp tp sn tn n hn hvs1 hvt1 hls hlt hne1 hsub1
                        hp hg hsrc, hn, fun _ => rfl⟩
                  | some src =>
                    exact ⟨_, 0,
                      tree_move_ok t sp tp sn tn n src hn hvs1 hvt1 hls hlt hne1 hsub1
                        hp hg hsrc,
                      all_neutral_moved t tp sp tn sn src hn (all_neutral_deref hn _ src hsrc),
                      fun h => absurd rfl h⟩

/-- C8: on a tree with neutral locks, when `tree_create`, `tree_remove` or `tree_move`
returns a result other than 0, or `tree_list` returns `NULL`, the tree afterwards is the
tree before the call. -/
theorem error_leaves_tree_unchanged (t : Tree) (hn : all_neutral t = true) :
    (∀ p t1 r, tree_create t p = some (t1, r) → r ≠ 0 → t1 = t) ∧
    (∀ p t1 r, tree_remove t p = some (t1, r) → r ≠ 0 → t1 = t) ∧
    (∀ source target t1 r, tree_move t source target = some (t1, r) → r ≠ 0 → t1 = t) ∧
    (∀ p t1, tree_list t p = some (t1, none) → t1 = t) := by
  refine ⟨fun p t1 r h hr => ?_, fun p t1 r h hr => ?_, fun s g t1 r h hr => ?_,
    fun p t1 h => ?_⟩
  · obtain ⟨t2, r2, h2, _, hx⟩ := tree_create_outcome t p hn
    rw [h2] at h
    simp only [Option.some.injEq, Prod.mk.injEq] at h
    rw [← h.1]
    exact hx (by rw [h.2]; exact hr)
  · obtain ⟨t2, r2, h2, _, hx⟩ := tree_remove_outcome t p hn
    rw [h2] at h
    simp only [Option.some.injEq, Prod.mk.injEq] at h
    rw [← h.1]
    exact hx (by rw [h.2]; exact hr)
  · obtain ⟨t2, r2, h2, _, hx⟩ := tree_move_outcome t s g hn
    rw [h2] at h
    simp only [Option.some.injEq, Prod.mk.injEq] at h
    rw [← h.1]
    exact hx (by rw [h.2]; exact hr)
  · obtain ⟨r2, h2⟩ := tree_list_outcome t p hn
    rw [h2] at h
    simp only [Option.some.injEq, Prod.mk.injEq] at h
    exact h.1.symm

theorem error_leaves_tree_unchanged_witness :
    all_neutral example_tree = true ∧
    tree_create example_tree ['/', 'a', '/'] = some (example_tree, EEXIST) ∧
    tree_remove example_tree ['/', 'a', '/'] = some (example_tree, ENOTEMPTY) ∧
    tree_move example_tree ['/', 'a', '/'] ['/', 'a', '/', 'y', '/'] =
      some (example_tree, -1) ∧
    tree_list example_tree ['/', 'c', '/'] = some (example_tree, none) ∧
    ((∀ p t1 r, tree_create example_tree p = some (t1, r) → r ≠ 0 → t1 = example_tree) ∧
    (∀ p t1 r, tree_remove example_tree p = some (t1, r) → r ≠ 0 → t1 = example_tree) ∧
    (∀ source target t1 r, tree_move example_tree source target = some (t1, r) → r ≠ 0 →
      t1 = example_tree) ∧
    (∀ p t1, tree_list example_tree p = some (t1, none) → t1 = example_tree)) :=
  ⟨by decide, by decide, by decide, by decide, by decide,
    error_leaves_tree_unchanged example_tree (by decide)⟩

/-- C9: on a tree in which every lock is neutral, a call of `tree_list`, `tree_create`,
`tree_remove` or `tree_move` by the only thread returns, whatever its arguments, and
every lock of the tree it leaves is neutral again. -/
theorem locks_neutral_after_call (t : Tree) (hn : all_neutral t = true) :
    (∀ p, ∃ t1 r, tree_list t p = some (t1, r) ∧ all_neutral t1 = true) ∧
    (∀ p, ∃ t1 r, tree_create t p = some (t1, r) ∧ all_neutral t1 = true) ∧
    (∀ p, ∃ t1 r, tree_remove t p = some (t1, r) ∧ all_neutral t1 = true) ∧
    (∀ source target, ∃ t1 r, tree_move t source target = some (t1, r) ∧
      all_neutral t1 = true) := by
  refine ⟨fun p => ?_, fun p => ?_, fun p => ?_, fun s g => ?_⟩
  · obtain ⟨r, h⟩ := tree_list_outcome t p hn
    exact ⟨t, r, h, hn⟩
  · obtain ⟨t1, r, h, h1, _⟩ := tree_create_outcome t p hn
    exact ⟨t1, r, h, h1⟩
  · obtain ⟨t1, r, h, h1, _⟩ := tree_remove_outcome t p hn
    exact ⟨t1, r, h, h1⟩
  · obtain ⟨t1, r, h, h1, _⟩ := tree_move_outcome t s g hn
    exact ⟨t1, r, h, h1⟩

theorem locks_neutral_after_call_witness :
    all_neutral example_tree = true ∧
    tree_move example_tree ['/', 'a', '/', 'x', '/'] ['/', 'b', '/', 'y', '/'] =
      some (.mk [(['a'], tree_new), (['b'], .mk [(['y'], tree_new)] rw_new)] rw_new, 0) ∧
    all_neutral (.mk [(['a'], tree_new), (['b'], .mk [(['y'], tree_new)] rw_new)] rw_new)
      = true ∧
    ((∀ p, ∃ t1 r, tree_list example_tree p = some (t1, r) ∧ all_neutral t1 = true) ∧
    (∀ p, ∃ t1 r, tree_create example_tree p = some (t1, r) ∧ all_neutral t1 = true) ∧
    (∀ p, ∃ t1 r, tree_remove example_tree p = some (t1, r) ∧ all_neutral t1 = true) ∧
    (∀ source target, ∃ t1 r, tree_move example_tree source target = some (t1, r) ∧
      all_neutral t1 = true)) :=
  ⟨by decide, by decide, by decide, locks_neutral_after_call example_tree (by decide)⟩

/-! ## Results of `tree_list` -/

/-- C10, as the claim states it, fails: an invalid path and a valid path that names no
directory both make `tree_list` return `NULL`; no `EINVAL` or `ENOENT` tells them apart. -/
theorem tree_list_failures_alike :
    is_path_valid ['x'] = false ∧ is_path_valid ['/', 'a', '/'] = true ∧
    tree_list tree_new ['x'] = some (tree_new, none) ∧
    tree_list tree_new ['/', 'a', '/'] = some (tree_new, none) ∧
    tree_list tree_new ['x'] = tree_list tree_new ['/', 'a', '/'] := by
  decide

/-- C10, amended: on a tree with neutral locks `tree_list` returns `NULL` for an invalid
path and for a valid path that names no directory alike; for a valid path that names a
directory, the root included, it returns the names of exactly the children of that
directory joined by commas, the empty string when it has none.  The tree is left as it
was. -/
theorem tree_list_result (t : Tree) (hn : all_neutral t = true) :
    (∀ p, is_path_valid p = false → tree_list t p = some (t, none)) ∧
    (∀ cs : Addr, is_path_valid (render cs) = true → (∀ c ∈ cs, valid_name c = true) →
      (deref t cs = none → tree_list t (render cs) = some (t, none)) ∧
      (∀ n, deref t cs = some n →
        tree_list t (render cs) =
          some (t, some (List.intercalate [','] (n.directories.map Prod.fst))) ∧
        (n.directories = [] → tree_list t (render cs) = some (t, some [])))) ∧
    tree_list t ['/'] =
      some (t, some (List.intercalate [','] (t.directories.map Prod.fst))) := by
  refine ⟨fun p h => tree_list_invalid t p h, fun cs hv hcs => ?_, ?_⟩
  · have hl := ((is_path_valid_iff _).1 hv).1
    refine ⟨fun h => ?_, fun n h => ⟨?_, fun he => ?_⟩⟩
    · rw [tree_list_spec t cs hn hcs hl, h]; rfl
    · rw [tree_list_spec t cs hn hcs hl, h]; rfl
    · rw [tree_list_spec t cs hn hcs hl, h]
      simp only [Option.map, he]
      rfl
  · have := tree_list_spec t [] hn (by simp) (by decide)
    exact this

theorem tree_list_result_witness :
    all_neutral example_tree = true ∧
    tree_list example_tree ['/'] = some (example_tree, some ['a', ',', 'b']) ∧
    ((∀ p, is_path_valid p = false → tree_list example_tree p = some (example_tree, none)) ∧
    (∀ cs : Addr, is_path_valid (render cs) = true → (∀ c ∈ cs, valid_name c = true) →
      (deref example_tree cs = none → tree_list example_tree (render cs) =
        some (example_tree, none)) ∧
      (∀ n, deref example_tree cs = some n →
        tree_list example_tree (render cs) =
          some (example_tree, some (List.intercalate [','] (n.directories.map Prod.fst))) ∧
        (n.directories = [] →
          tree_list example_tree (render cs) = some (example_tree, some [])))) ∧
    tree_list example_tree ['/'] =
      some (example_tree,
        some (List.intercalate [','] (example_tree.directories.map Prod.fst)))) :=
  ⟨by decide, by decide, tree_list_result example_tree (by decide)⟩

/-! ## The moved subtree -/

theorem deref_edit (f : Tree → Tree) (k : List Char)
    (hget : ∀ n c, c ≠ k → hmap_get (f n).directories c = hmap_get n.directories c) :
    ∀ (b a : Addr) (s : Tree), ¬ a <+: b → ¬ (b ++ [k]) <+: a →
      deref (modifyAt f s b) a = deref s a := by
  intro b
  induction b with
  | nil =>
    intro a s h1 h2
    cases a with
    | nil => exact absurd List.nil_prefix h1
    | cons c r =>
      have hck : c ≠ k := by
        intro e
        apply h2
        rw [e]
        exact ⟨r, rfl⟩
      show deref (f s) (c :: r) = deref s (c :: r)
      rw [deref_cons, deref_cons, hget s c hck]
  | cons d b1 ih =>
    intro a s h1 h2
    cases a with
    | nil => exact absurd List.nil_prefix h1
    | cons c r =>
      rw [modifyAt_cons, deref_cons, deref_cons, directories_mk]
      by_cases hcd : d = c
      · subst hcd
        rw [hmap_get_update_same]
        cases hmap_get s.directories d with
        | none => rfl
        | some child =>
          have h3 : ¬ r <+: b1 := fun hp => h1 (by rw [List.cons_prefix_cons]; exact ⟨rfl, hp⟩)
          have h4 : ¬ (b1 ++ [k]) <+: r := by
            intro hp
            apply h2
            rw [List.cons_append, List.cons_prefix_cons]
            exact ⟨rfl, hp⟩
          exact ih r child h3 h4
      · rw [hmap_get_update_ne _ _ _ _ hcd]

theorem hget_insNode (k : List Char) (x : Tree) (n : Tree) (c : List Char) (hck : c ≠ k) :
    hmap_get (insNode k x n).directories c = hmap_get n.directories c := by
  simp only [insNode, directories_mk]
  rw [hmap_get_append]
  cases hmap_get n.directories c with
  | some v => rfl
  | none => simp only []; rw [if_neg (fun e => hck e.symm)]

theorem hget_delNode (k : List Char) (n : Tree) (c : List Char) (hck : c ≠ k) :
    hmap_get (delNode k n).directories c = hmap_get n.directories c := by
  simp only [delNode, directories_mk]
  rw [hmap_get_filter_ne _ _ _ hck]

theorem names_valid_list_update (f : Tree → Tree) (d : List (List Char × Tree)) (c : List Char)
    (hd : names_valid_list d = true)
    (hf : ∀ n, hmap_get d c = some n → names_valid (f n) = true) :
    names_valid_list (hmap_update f d c) = true := by
  induction d with
  | nil => rfl
  | cons e rest ih =>
    obtain ⟨k, t⟩ := e
    rw [names_valid_list_cons] at hd
    by_cases hk : k = c
    · subst hk
      rw [hmap_update_cons_same, names_valid_list_cons]
      exact ⟨hd.1, hf t (hmap_get_cons_same _ _ _), hd.2.2⟩
    · rw [hmap_update_cons_ne _ _ _ _ _ hk, names_valid_list_cons]
      refine ⟨hd.1, hd.2.1, ih hd.2.2 ?_⟩
      intro n hn
      exact hf n (by rw [hmap_get_cons_ne _ _ _ _ hk]; exact hn)

theorem names_valid_child {t : Tree} (h : names_valid t = true) (c : List Char) (n : Tree)
    (hn : hmap_get t.directories c = some n) : names_valid n = true :=
  (((names_valid_iff t).1 h) (c, n) (hmap_get_mem _ _ _ hn)).2

theorem names_valid_modifyAt (f : Tree → Tree) (t : Tree) (a : Addr)
    (h : names_valid t = true)
    (hf : ∀ n, deref t a = some n → names_valid (f n) = true) :
    names_valid (modifyAt f t a) = true := by
  induction a generalizing t with
  | nil => exact hf t rfl
  | cons c cs ih =>
    rw [modifyAt_cons, names_valid_mk]
    have hd : names_valid_list t.directories = true := by
      cases t with
      | mk d rw => rw [names_valid_mk] at h; exact h
    apply names_valid_list_update _ _ _ hd
    intro n hn
    apply ih n (names_valid_child h c n hn)
    intro m hm
    apply hf
    rw [deref_cons, hn]
    exact hm

theorem names_valid_insNode (k : List Char) (x n : Tree) (hk : valid_name k = true)
    (hx : names_valid x = true) (hn : names_valid n = true) :
    names_valid (insNode k x n) = true := by
  rw [names_valid_iff] at hn ⊢
  intro kv hkv
  simp only [insNode, directories_mk, List.mem_append, List.mem_singleton] at hkv
  rcases hkv with hkv | hkv
  · exact hn kv hkv
  · rw [hkv]; exact ⟨hk, hx⟩

theorem names_valid_delNode (k : List Char) (n : Tree) (hn : names_valid n = true) :
    names_valid (delNode k n) = true := by
  rw [names_valid_iff] at hn ⊢
  intro kv hkv
  simp only [delNode, directories_mk] at hkv
  exact hn kv (List.mem_filter.1 hkv).1

/-- In a well-formed tree with neutral locks the listing of a directory contains a name
exactly when the child of that name exists. -/
theorem listing_contains_child (t : Tree) (ps : Addr) (c : List Char) (n : Tree)
    (hw : names_valid t = true) (hc : valid_name c = true) (hp : deref t ps = some n) :
    listing_contains (make_map_contents_string n.directories) c ↔
      (deref t (ps ++ [c])).isSome = true := by
  rw [listing_contains_iff _ c (names_valid_keys (names_valid_deref hw ps n hp))
    (valid_name_ne_nil hc), ← hmap_get_mem_keys, deref_snoc, dirsAt_of_deref hp]

theorem moved_tree_target (t : Tree) (tp sp : Addr) (tn sn : List Char) (n src : Tree)
    (hn : all_neutral t = true) (hp : deref t tp = some n)
    (hg : hmap_get n.directories tn = none) (hsrc : deref t (sp ++ [sn]) = some src)
    (hsub : ¬ (sp ++ [sn]) <+: (tp ++ [tn])) :
    deref (modifyAt (delNode sn)
      (modifyAt (insNode tn (.mk src.directories rw_new)) t tp) sp) (tp ++ [tn]) = some src := by
  obtain ⟨m, hm, _⟩ := deref_parent_of_child hsrc
  have hnone : deref t (tp ++ [tn]) = none := by rw [deref_snoc, dirsAt_of_deref hp, hg]
  have c2 : ¬ (tp ++ [tn]) <+: sp := by
    intro hpre
    rw [deref_none_below t sp _ hnone hpre] at hm
    cases hm
  rw [deref_edit (delNode sn) sn (hget_delNode sn) sp (tp ++ [tn]) _ c2 hsub, deref_append,
    deref_modifyAt, hp]
  show deref (insNode tn (Tree.mk src.directories rw_new) n) [tn] = some src
  rw [deref_cons]
  simp only [insNode, directories_mk]
  rw [hmap_get_append, hg]
  simp only [if_true]
  have : Tree.mk src.directories rw_new = src := by
    rw [← all_neutral_lock (all_neutral_deref hn _ src hsrc)]
    exact Tree.eta src
  rw [this]
  rfl

theorem moved_tree_source_parent (t : Tree) (tp sp : Addr) (tn sn : List Char) (n src x : Tree)
    (hp : deref t tp = some n) (hg : hmap_get n.directories tn = none)
    (hsrc : deref t (sp ++ [sn]) = some src) :
    ∃ m, deref (modifyAt (delNode sn) (modifyAt (insNode tn x) t tp) sp) sp =
      some (delNode sn m) := by
  obtain ⟨m, hm, _⟩ := deref_parent_of_child hsrc
  have hnone : deref t (tp ++ [tn]) = none := by rw [deref_snoc, dirsAt_of_deref hp, hg]
  have c2 : ¬ (tp ++ [tn]) <+: sp := by
    intro hpre
    rw [deref_none_below t sp _ hnone hpre] at hm
    cases hm
  rw [deref_modifyAt]
  by_cases hpre : sp <+: tp
  · obtain ⟨r, rfl⟩ := hpre
    rw [deref_inside, hm]
    exact ⟨_, rfl⟩
  · rw [deref_edit (insNode tn x) tn (hget_insNode tn x) tp sp _ hpre c2, hm]
    exact ⟨_, rfl⟩

theorem moved_tree_source (t : Tree) (tp sp : Addr) (tn sn : List Char) (n src x : Tree)
    (hp : deref t tp = some n) (hg : hmap_get n.directories tn = none)
    (hsrc : deref t (sp ++ [sn]) = some src) :
    deref (modifyAt (delNode sn) (modifyAt (insNode tn x) t tp) sp) (sp ++ [sn]) = none := by
  obtain ⟨m, hm⟩ := moved_tree_source_parent t tp sp tn sn n src x hp hg hsrc
  rw [deref_append, hm]
  show deref (delNode sn m) [sn] = none
  rw [deref_cons]
  simp only [delNode, directories_mk]
  rw [hmap_get_filter_same]
  rfl

theorem names_valid_moved (t : Tree) (tp sp : Addr) (tn sn : List Char) (src : Tree)
    (hw : names_valid t = true) (htn : valid_name tn = true)
    (hsrc : deref t (sp ++ [sn]) = some src) :
    names_valid (modifyAt (delNode sn)
      (modifyAt (insNode tn (.mk src.directories rw_new)) t tp) sp) = true := by
  have hx : names_valid (Tree.mk src.directories rw_new) = true := by
    have := names_valid_deref hw _ src hsrc
    rw [names_valid_iff] at this ⊢
    exact this
  have h1 : names_valid (modifyAt (insNode tn (.mk src.directories rw_new)) t tp) = true :=
    names_valid_modifyAt _ t tp hw
      (fun n h => names_valid_insNode tn _ n htn hx (names_valid_deref hw tp n h))
  exact names_valid_modifyAt _ _ sp h1
    (fun n h => names_valid_delNode sn n (names_valid_deref h1 sp n h))

/-- What a successful `tree_move` between different paths has done. -/
theorem tree_move_zero (t t1 : Tree) (a b : List Char) (hn : all_neutral t = true)
    (hab : a ≠ b) (h : tree_move t a b = some (t1, 0)) :
    ∃ sp sn tp tn n src, a = render (sp ++ [sn]) ∧ b = render (tp ++ [tn]) ∧
      (∀ x ∈ sp ++ [sn], valid_name x = true) ∧ (∀ x ∈ tp ++ [tn], valid_name x = true) ∧
      (render (sp ++ [sn])).length ≤ MAX_PATH_LEN ∧
      (render (tp ++ [tn])).length ≤ MAX_PATH_LEN ∧
      ¬ (sp ++ [sn]) <+: (tp ++ [tn]) ∧
      deref t tp = some n ∧ hmap_get n.directories tn = none ∧
      deref t (sp ++ [sn]) = some src ∧
      t1 = modifyAt (delNode sn)
        (modifyAt (insNode tn (.mk src.directories rw_new)) t tp) sp := by
  have bad : ∀ {r : Int} {t2 : Tree}, tree_move t a b = some (t2, r) → r ≠ 0 → False := by
    intro r t2 h2 hr
    rw [h2] at h
    simp only [Option.some.injEq, Prod.mk.injEq] at h
    exact hr h.2
  cases hvs : is_path_valid a with
  | false => exact absurd (bad (tree_move_invalid t a b (Or.inl hvs)) (by decide)) id
  | true =>
    cases hvt : is_path_valid b with
    | false => exact absurd (bad (tree_move_invalid t a b (Or.inr hvt)) (by decide)) id
    | true =>
      by_cases hrs : a = ['/']
      · exact absurd (bad (tree_move_source_root t a b hvs hvt hrs) (by decide)) id
      · by_cases hrt : b = ['/']
        · exact absurd (bad (tree_move_target_root t a b hvs hvt hrs hrt) (by decide)) id
        · cases hsub : is_subdirectory a b with
          | true =>
            exact absurd (bad (tree_move_inside t a b hvs hvt hrs hrt hab hsub)
              (by decide)) id
          | false =>
            obtain ⟨sp, sn, tp, tn, rfl, rfl, hvs1, hvt1, hls, hlt, hne1, hsub1⟩ :=
              move_paths_parse a b hvs hvt hab hrs hrt hsub
            cases hp : deref t tp with
            | none =>
              exact absurd (bad (tree_move_enoent_target t sp tp sn tn hn hvs1 hvt1 hls hlt
                hne1 hsub1 hp) (by decide)) id
            | some n =>
              cases hg : hmap_get n.directories tn with
              | some x =>
                exact absurd (bad (tree_move_eexist t sp tp sn tn n x hn hvs1 hvt1 hls hlt
                  hne1 hsub1 hp hg) (by decide)) id
              | none =>
                cases hsrc : deref t (sp ++ [sn]) with
                | none =>
                  exact absurd (bad (tree_move_enoent_source t sp tp sn tn n hn hvs1 hvt1 hls
                    hlt hne1 hsub1 hp hg hsrc) (by decide)) id
                | some src =>
                  rw [tree_move_ok t sp tp sn tn n src hn hvs1 hvt1 hls hlt hne1 hsub1
                    hp hg hsrc] at h
                  simp only [Option.some.injEq, Prod.mk.injEq, and_true] at h
                  exact ⟨sp, sn, tp, tn, n, src, rfl, rfl, hvs1, hvt1, hls, hlt, hsub1, hp, hg,
                    hsrc, h.symm⟩

/-- A path that continues a valid path: the components continue. -/
theorem valid_extension (A : Addr) (s : List Char) (hA : ∀ x ∈ A, valid_name x = true)
    (hv : is_path_valid (render A ++ s) = true) :
    ∃ S : Addr, render A ++ s = render (A ++ S) ∧ render S = '/' :: s ∧
      (∀ x ∈ A ++ S, valid_name x = true) := by
  obtain ⟨_, X, hX, hvX⟩ := (is_path_valid_iff _).1 hv
  have hpre : A <+: X := by
    apply (render_prefix_iff A X (valid_slash_free hA) (valid_slash_free hvX)).1
    rw [← hX]
    exact List.prefix_append _ _
  obtain ⟨S, rfl⟩ := hpre
  refine ⟨S, hX, ?_, hvX⟩
  rw [render_append] at hX
  have e : render A ++ s = stem A ++ ('/' :: s) := by simp [render]
  rw [e] at hX
  exact (List.append_cancel_left hX).symm

/-- C6, amended: on a well-formed tree with neutral locks, when `tree_move(a, b)` between
different paths returns 0, then afterwards `tree_list` of the parent of `b` contains the
last component of `b`, `tree_list` of the parent of `a` does not contain the last
component of `a`, and for every suffix `s` for which `a+s` and `b+s` are both valid paths
or both invalid, `tree_list(b+s)` afterwards returns what `tree_list(a+s)` returned
before. -/
theorem tree_move_moves_subtree (t t1 : Tree) (a b : List Char)
    (hn : all_neutral t = true) (hw : names_valid t = true) (hab : a ≠ b)
    (h : tree_move t a b = some (t1, 0)) :
    (∃ s, tree_list t1 (parent_of b) = some (t1, some s) ∧ listing_contains s (basename b)) ∧
    (∃ s, tree_list t1 (parent_of a) = some (t1, some s) ∧
      ¬ listing_contains s (basename a)) ∧
    (∀ s, is_path_valid (a ++ s) = is_path_valid (b ++ s) →
      ∃ r, tree_list t1 (b ++ s) = some (t1, r) ∧ tree_list t (a ++ s) = some (t, r)) := by
  obtain ⟨sp, sn, tp, tn, n, src, rfl, rfl, hvs, hvt, hls, hlt, hsub, hp, hg, hsrc, rfl⟩ :=
    tree_move_zero t t1 a b hn hab h
  have hvsn : valid_name sn = true := hvs sn (by simp)
  have hvtn : valid_name tn = true := hvt tn (by simp)
  have hvsp : ∀ x ∈ sp, valid_name x = true := fun x hx => hvs x (by simp [hx])
  have hvtp : ∀ x ∈ tp, valid_name x = true := fun x hx => hvt x (by simp [hx])
  have hlsp : (render sp).length ≤ MAX_PATH_LEN := le_trans (length_render_le sp sn) hls
  have hltp : (render tp).length ≤ MAX_PATH_LEN := le_trans (length_render_le tp tn) hlt
  have hn1 := all_neutral_moved t tp sp tn sn src hn (all_neutral_deref hn _ src hsrc)
  have hw1 := names_valid_moved t tp sp tn sn src hw hvtn hsrc
  have f1 := moved_tree_target t tp sp tn sn n src hn hp hg hsrc hsub
  have f2 := moved_tree_source t tp sp tn sn n src (.mk src.directories rw_new) hp hg hsrc
  obtain ⟨m, f3⟩ :=
    moved_tree_source_parent t tp sp tn sn n src (.mk src.directories rw_new) hp hg hsrc
  obtain ⟨m1, f4, _⟩ := deref_parent_of_child f1
  rw [parent_of_render tp tn (valid_name_slash hvtn), basename_render tp tn (valid_name_slash hvtn),
    parent_of_render sp sn (valid_name_slash hvsn), basename_render sp sn (valid_name_slash hvsn)]
  refine ⟨⟨make_map_contents_string m1.directories, ?_, ?_⟩,
    ⟨make_map_contents_string (delNode sn m).directories, ?_, ?_⟩, fun s hs => ?_⟩
  · rw [tree_list_spec _ tp hn1 hvtp hltp, f4]; rfl
  · rw [listing_contains_child _ tp tn m1 hw1 hvtn f4, f1]; rfl
  · rw [tree_list_spec _ sp hn1 hvsp hlsp, f3]; rfl
  · rw [listing_contains_child _ sp sn _ hw1 hvsn f3, f2]
    simp
  · cases hva : is_path_valid (render (sp ++ [sn]) ++ s) with
    | false =>
      rw [hva] at hs
      exact ⟨none, tree_list_invalid _ _ hs.symm, tree_list_invalid _ _ hva⟩
    | true =>
      rw [hva] at hs
      obtain ⟨S, e1, e2, hvS⟩ := valid_extension (sp ++ [sn]) s hvs hva
      have e3 : render (tp ++ [tn]) ++ s = render ((tp ++ [tn]) ++ S) := by
        rw [render_append (tp ++ [tn]) S, e2]
        simp [render]
      have hvS2 : ∀ x ∈ (tp ++ [tn]) ++ S, valid_name x = true := by
        intro x hx
        rcases List.mem_append.1 hx with hx | hx
        · exact hvt x hx
        · exact hvS x (List.mem_append.2 (Or.inr hx))
      have hl1 : (render ((sp ++ [sn]) ++ S)).length ≤ MAX_PATH_LEN := by
        rw [← e1]; exact ((is_path_valid_iff _).1 hva).1
      have hl2 : (render ((tp ++ [tn]) ++ S)).length ≤ MAX_PATH_LEN := by
        rw [← e3]; exact ((is_path_valid_iff _).1 hs.symm).1
      rw [e1, e3, tree_list_spec _ _ hn1 hvS2 hl2, tree_list_spec t _ hn hvS hl1,
        deref_append, f1, deref_append, hsrc]
      exact ⟨_, rfl, rfl⟩

theorem tree_move_moves_subtree_witness :
    all_neutral example_tree = true ∧ names_valid example_tree = true ∧
    ['/', 'a', '/'] ≠ ['/', 'b', '/', 'y', '/'] ∧
    tree_move example_tree ['/', 'a', '/'] ['/', 'b', '/', 'y', '/'] =
      some (.mk [(['b'], .mk [(['y'], .mk [(['x'], tree_new)] rw_new)] rw_new)] rw_new, 0) ∧
    tree_list (.mk [(['b'], .mk [(['y'], .mk [(['x'], tree_new)] rw_new)] rw_new)] rw_new)
      ['/', 'b', '/', 'y', '/'] =
      some (.mk [(['b'], .mk [(['y'], .mk [(['x'], tree_new)] rw_new)] rw_new)] rw_new,
        some ['x']) ∧
    ((∃ s, tree_list
        (.mk [(['b'], .mk [(['y'], .mk [(['x'], tree_new)] rw_new)] rw_new)] rw_new)
        (parent_of ['/', 'b', '/', 'y', '/']) =
        some (.mk [(['b'], .mk [(['y'], .mk [(['x'], tree_new)] rw_new)] rw_new)] rw_new,
          some s) ∧ listing_contains s (basename ['/', 'b', '/', 'y', '/'])) ∧
    (∃ s, tree_list
        (.mk [(['b'], .mk [(['y'], .mk [(['x'], tree_new)] rw_new)] rw_new)] rw_new)
        (parent_of ['/', 'a', '/']) =
        some (.mk [(['b'], .mk [(['y'], .mk [(['x'], tree_new)] rw_new)] rw_new)] rw_new,
          some s) ∧ ¬ listing_contains s (basename ['/', 'a', '/'])) ∧
    (∀ s, is_path_valid (['/', 'a', '/'] ++ s) = is_path_valid (['/', 'b', '/', 'y', '/'] ++ s) →
      ∃ r, tree_list
          (.mk [(['b'], .mk [(['y'], .mk [(['x'], tree_new)] rw_new)] rw_new)] rw_new)
          (['/', 'b', '/', 'y', '/'] ++ s) =
          some (.mk [(['b'], .mk [(['y'], .mk [(['x'], tree_new)] rw_new)] rw_new)] rw_new, r) ∧
        tree_list example_tree (['/', 'a', '/'] ++ s) = some (example_tree, r))) :=
  ⟨by decide, by decide, by decide, by decide, by decide,
    tree_move_moves_subtree example_tree _ _ _ (by decide) (by decide) (by decide)
      (by decide)⟩

/-! ## A subtree moved under a longer path -/

theorem stem_length_replicate (n : Nat) (c : List Char) :
    (stem (List.replicate n c)).length = n * (c.length + 1) := by
  induction n with
  | zero => simp [stem]
  | succ k ih =>
    rw [List.replicate_succ, stem, List.length_cons, List.length_append, ih]
    ring

theorem is_path_valid_too_long (p : List Char) (h : MAX_PATH_LEN < p.length) :
    is_path_valid p = false := by
  unfold is_path_valid
  rw [decide_eq_false (Nat.not_le.2 h)]
  rfl

theorem all_neutral_deep_chain (cs : Addr) : all_neutral (deep_chain cs) = true := by
  induction cs with
  | nil => rfl
  | cons c cs ih =>
    rw [deep_chain, all_neutral_mk, allLocksList_cons]
    exact ⟨rfl, ih, rfl⟩

theorem names_valid_deep_chain (cs : Addr) (h : ∀ c ∈ cs, valid_name c = true) :
    names_valid (deep_chain cs) = true := by
  induction cs with
  | nil => rfl
  | cons c cs ih =>
    rw [deep_chain, names_valid_mk, names_valid_list_cons]
    exact ⟨h c (List.mem_cons.2 (Or.inl rfl)),
      ih (fun x hx => h x (List.mem_cons.2 (Or.inr hx))), rfl⟩

theorem deref_deep_chain (cs : Addr) : deref (deep_chain cs) cs = some tree_new := by
  induction cs with
  | nil => rfl
  | cons c cs ih =>
    rw [deep_chain, deref_cons, directories_mk, hmap_get_cons_same]
    exact ih

theorem long_names_valid : ∀ c ∈ long_names, valid_name c = true := by
  intro c hc
  unfold long_names at hc
  rcases List.mem_append.1 hc with h | h
  · rw [List.eq_of_mem_replicate h]
    decide
  · rw [List.mem_singleton.1 h]
    decide

theorem long_names_stem_length : (stem long_names).length = 4032 := by
  unfold long_names
  rw [stem_append, List.length_append, stem_length_replicate]
  simp [stem]

theorem long_suffix_length : long_suffix.length = 4032 := by
  unfold long_suffix render
  obtain ⟨r, hr⟩ := render_eq_cons long_names
  have h1 : (stem long_names ++ ['/']).length = 4033 := by
    rw [List.length_append, long_names_stem_length]; rfl
  unfold render at hr
  rw [hr] at h1 ⊢
  simpa using h1

theorem long_source_path :
    ['/', 'a', '/'] ++ long_suffix = render (['a'] :: long_names) := by
  obtain ⟨r, hr⟩ := render_eq_cons long_names
  rw [render_cons, long_suffix, hr]
  rfl

/-- C6, as the claim states it, fails: `/a/` with a chain of directories below it whose
deepest path has 4035 characters is moved to a path of 66 characters; `tree_list` of the
deepest directory succeeded before the call, and afterwards `tree_list` of the target
with the same suffix returns `NULL`, the path being longer than `MAX_PATH_LEN`. -/
theorem tree_move_subtree_path_too_long :
    all_neutral long_tree = true ∧ names_valid long_tree = true ∧
    is_path_valid ['/', 'a', '/'] = true ∧ is_path_valid long_target = true ∧
    ['/', 'a', '/'] ≠ long_target ∧
    ∃ t1, tree_move long_tree ['/', 'a', '/'] long_target = some (t1, 0) ∧
      tree_list long_tree (['/', 'a', '/'] ++ long_suffix) = some (long_tree, some []) ∧
      tree_list t1 (long_target ++ long_suffix) = some (t1, none) := by
  have hn : all_neutral long_tree = true := by
    rw [long_tree, all_neutral_mk, allLocksList_cons]
    exact ⟨rfl, all_neutral_deep_chain _, rfl⟩
  have hw : names_valid long_tree = true := by
    rw [long_tree, names_valid_mk, names_valid_list_cons]
    exact ⟨by decide, names_valid_deep_chain _ long_names_valid, rfl⟩
  have hvs : ∀ x ∈ ([] : Addr) ++ [['a']], valid_name x = true := by decide
  have hvt : ∀ x ∈ ([] : Addr) ++ [List.replicate 64 'b'], valid_name x = true := by decide
  have hmove := tree_move_ok long_tree [] [] ['a'] (List.replicate 64 'b') long_tree
    (deep_chain long_names) hn hvs hvt (by decide) (by decide) (by decide) (by decide)
    rfl (by decide) rfl
  refine ⟨hn, hw, by decide, by decide, by decide, _, hmove, ?_, ?_⟩
  · have hv : ∀ x ∈ ['a'] :: long_names, valid_name x = true := by
      intro x hx
      rcases List.mem_cons.1 hx with h | h
      · rw [h]; decide
      · exact long_names_valid x h
    have hl : (render (['a'] :: long_names)).length ≤ MAX_PATH_LEN := by
      rw [← long_source_path, List.length_append, long_suffix_length]
      decide
    rw [long_source_path, tree_list_spec long_tree _ hn hv hl]
    have : deref long_tree (['a'] :: long_names) = some tree_new := by
      rw [long_tree, deref_cons, directories_mk, hmap_get_cons_same]
      exact deref_deep_chain long_names
    rw [this]
    rfl
  · apply tree_list_invalid
    apply is_path_valid_too_long
    rw [List.length_append, long_suffix_length]
    decide

/-! ## One lock and its threads -/

theorem count_set_pc (x pc pc1 : Pc) : ∀ (l : List Pc) (i : Nat), l[i]? = some pc →
    ((l.set i pc1).count x : Int) =
      (l.count x : Int) - (if pc = x then 1 else 0) + (if pc1 = x then 1 else 0) := by
  intro l
  induction l with
  | nil => intro i h; simp at h
  | cons y l ih =>
    intro i h
    cases i with
    | zero =>
      simp only [List.getElem?_cons_zero, Option.some.injEq] at h
      subst h
      simp only [List.set_cons_zero, List.count_cons, beq_iff_eq]
      split <;> split <;> simp
    | succ j =>
      simp only [List.getElem?_cons_succ] at h
      simp only [List.set_cons_succ, List.count_cons, beq_iff_eq]
      have := ih j h
      push_cast
      rw [this]
      omega

theorem count_pos_pc (pc : Pc) (l : List Pc) (i : Nat) (h : l[i]? = some pc) :
    (1 : Int) ≤ (l.count pc : Int) := by
  have hm : pc ∈ l := List.getElem?_mem h
  have := List.count_pos_iff.2 hm
  omega

theorem lock_inv_new (n : Nat) : lock_inv (lock_sys_new n) := by
  simp [lock_inv, lock_sys_new, rw_new, List.count_replicate]

theorem lock_inv_step (s s1 : LockSys) (i : Nat) (a : Act) (h : lock_inv s)
    (hs : lock_sys_step s i a = some s1) : lock_inv s1 := by
  obtain ⟨⟨rc, wc, rwt, wwt, ch⟩, pcs⟩ := s
  unfold lock_sys_step at hs
  simp only at hs
  cases hpc : pcs[i]? with
  | none => rw [hpc] at hs; cases hs
  | some pc =>
    rw [hpc] at hs
    simp only at hs
    cases hts : thread_step ⟨rc, wc, rwt, wwt, ch⟩ pc a with
    | none => rw [hts] at hs; cases hs
    | some r =>
      obtain ⟨rw1, pc1⟩ := r
      rw [hts] at hs
      simp only [Option.some.injEq] at hs
      subst hs
      have c := fun x => count_set_pc x pc pc1 pcs i hpc
      unfold lock_inv at h ⊢
      simp only at h ⊢
      rw [c .reading, c .writing, c .read_waiting, c .write_waiting]
      obtain ⟨h1, h2, h3, h4, h5, h6, h7, h8, h9⟩ := h
      clear c
      have hpos := count_pos_pc pc pcs i hpc
      cases pc <;> cases a <;>
        simp only [thread_step, Option.some.injEq, reduceCtorEq,
          rw_before_read_turn, rw_before_read_waits, rw_before_read_enter,
          rw_before_write_turn, rw_before_write_waits, rw_before_write_enter,
          rw_before_remove_turn, rw_before_remove_waits, rw_after_read, rw_after_write,
          Bool.and_eq_true, decide_eq_true_eq] at hts <;>
        (repeat' split at hts) <;>
        simp only [Prod.mk.injEq] at hts <;>
        obtain ⟨rfl, rfl⟩ := hts <;>
        simp <;>
        omega

theorem lock_inv_run : ∀ (sched : List (Nat × Act)) (s s1 : LockSys), lock_inv s →
    lock_sys_run s sched = some s1 → lock_inv s1
  | [], s, s1, h, hr => by
    simp only [lock_sys_run, Option.some.injEq] at hr
    rw [← hr]; exact h
  | (i, a) :: rest, s, s1, h, hr => by
    simp only [lock_sys_run] at hr
    cases hs : lock_sys_step s i a with
    | none => rw [hs] at hr; cases hr
    | some s2 =>
      rw [hs] at hr
      exact lock_inv_run rest s2 s1 (lock_inv_step s s2 i a h hs) hr

/-- Every state that a schedule reaches from a fresh lock satisfies the invariant. -/
theorem lock_inv_reachable (n : Nat) (sched : List (Nat × Act)) (s : LockSys)
    (h : lock_sys_run (lock_sys_new n) sched = some s) : lock_inv s :=
  lock_inv_run sched _ s (lock_inv_new n) h

theorem lock_sys_step_eq (s s1 : LockSys) (i : Nat) (a : Act)
    (h : lock_sys_step s i a = some s1) :
    ∃ pc pc1, s.pcs[i]? = some pc ∧ thread_step s.rw pc a = some (s1.rw, pc1) ∧
      s1.pcs[i]? = some pc1 := by
  unfold lock_sys_step at h
  cases hpc : s.pcs[i]? with
  | none => rw [hpc] at h; cases h
  | some pc =>
    rw [hpc] at h
    simp only at h
    cases hts : thread_step s.rw pc a with
    | none => rw [hts] at h; cases h
    | some r =>
      obtain ⟨rw1, pc1⟩ := r
      rw [hts] at h
      simp only [Option.some.injEq] at h
      subst h
      refine ⟨pc, pc1, rfl, hts, ?_⟩
      have hlt : i < s.pcs.length := by
        rcases Nat.lt_or_ge i s.pcs.length with hl | hl
        · exact hl
        · rw [List.getElem?_eq_none hl] at hpc; cases hpc
      simp only
      rw [List.getElem?_set_self hlt]

/-- No thread is where the matching counter is zero. -/
theorem lock_inv_absent (s : LockSys) (h : lock_inv s) (i : Nat) :
    (s.rw.rcount = 0 → s.pcs[i]? ≠ some .reading) ∧
    (s.rw.wcount = 0 → s.pcs[i]? ≠ some .writing) := by
  obtain ⟨h1, h2, _⟩ := h
  refine ⟨fun h0 hp => ?_, fun h0 hp => ?_⟩
  · have := count_pos_pc _ _ _ hp
    omega
  · have := count_pos_pc _ _ _ hp
    omega

/-- C12: in every state that a schedule of steps of `rw_before_read`, `rw_after_read`,
`rw_before_write`, `rw_after_write` (and `rw_before_remove`) of any number of threads
reaches from the lock of `rw_new`, with every wake-up from `pthread_cond_wait`
allowed and the release functions called by holders only, `wcount` is 0 or 1, no
counter is negative, and `wcount > 0` implies `rcount = 0`; in terms of the threads,
at most one is between `rw_before_write` and `rw_after_write`, and then none is
between `rw_before_read` and `rw_after_read`. -/
theorem lock_mutual_exclusion (n : Nat) (sched : List (Nat × Act)) (s : LockSys)
    (h : lock_sys_run (lock_sys_new n) sched = some s) :
    (s.rw.wcount = 0 ∨ s.rw.wcount = 1) ∧ counters_nonneg s.rw ∧
    (0 < s.rw.wcount → s.rw.rcount = 0) ∧
    s.pcs.count .writing ≤ 1 ∧ (Pc.writing ∈ s.pcs → Pc.reading ∉ s.pcs) := by
  obtain ⟨h1, h2, h3, h4, h5, h6, _⟩ := lock_inv_reachable n sched s h
  unfold counters_nonneg
  refine ⟨by omega, ⟨by omega, by omega, by omega, by omega⟩, h6, by omega, ?_⟩
  intro hw hr
  have e1 := List.count_pos_iff.2 hw
  have e2 := List.count_pos_iff.2 hr
  have := h6 (by omega)
  omega

theorem lock_mutual_exclusion_witness :
    lock_sys_run (lock_sys_new 2) [(0, .before_write), (1, .before_read)] =
      some { rw := { rcount := 0, wcount := 1, rwait := 1, wwait := 0, change := 0 },
             pcs := [.writing, .read_waiting] } ∧
    (((1 : Int) = 0 ∨ (1 : Int) = 1) ∧
      counters_nonneg { rcount := 0, wcount := 1, rwait := 1, wwait := 0, change := 0 } ∧
      ((0 : Int) < 1 → (0 : Int) = 0) ∧
      [Pc.writing, Pc.read_waiting].count .writing ≤ 1 ∧
      (Pc.writing ∈ [Pc.writing, Pc.read_waiting] →
        Pc.reading ∉ [Pc.writing, Pc.read_waiting])) :=
  ⟨by decide,
    lock_mutual_exclusion 2 [(0, .before_write), (1, .before_read)]
      { rw := { rcount := 0, wcount := 1, rwait := 1, wwait := 0, change := 0 },
        pcs := [.writing, .read_waiting] } (by decide)⟩

/-- C14, as the claim states it, fails: after a writer has left a lock on which a
reader waits, `change` is 1, and a writer that calls `rw_before_write` then is
admitted at once – its wait test looks at `wcount + rcount` only – and resets
`change` to 0 ahead of the reader. -/
theorem writer_enters_while_change_positive :
    lock_sys_run (lock_sys_new 3) [(0, .before_write), (1, .before_read), (0, .after_write)] =
      some { rw := { rcount := 0, wcount := 0, rwait := 1, wwait := 0, change := 1 },
             pcs := [.idle, .read_waiting, .idle] } ∧
    rw_before_write { rcount := 0, wcount := 0, rwait := 1, wwait := 0, change := 1 } =
      some { rcount := 0, wcount := 1, rwait := 1, wwait := 0, change := 0 } ∧
    lock_sys_step { rw := { rcount := 0, wcount := 0, rwait := 1, wwait := 0, change := 1 },
                    pcs := [.idle, .read_waiting, .idle] } 2 .before_write =
      some { rw := { rcount := 0, wcount := 1, rwait := 1, wwait := 0, change := 0 },
             pcs := [.idle, .read_waiting, .writing] } := by
  decide

/-- C14, amended: in every reachable state of one lock with `change > 0` no writer
is inside and at least `change` readers wait; a reader that calls `rw_before_read`,
or wakes in it, is admitted at once and lowers `change` by one; no remover is
admitted; and `rw_before_write` admits a writer, arriving or woken, exactly when no
reader is inside, its entry setting `change` to 0. -/
theorem readers_turn (n : Nat) (sched : List (Nat × Act)) (s : LockSys)
    (h : lock_sys_run (lock_sys_new n) sched = some s) (hc : 0 < s.rw.change) :
    s.rw.wcount = 0 ∧ s.rw.change ≤ s.rw.rwait ∧
    rw_before_read_waits s.rw = false ∧
    (rw_before_read_enter s.rw).change = s.rw.change - 1 ∧
    rw_before_read_waits { s.rw with rwait := s.rw.rwait - 1 } = false ∧
    (rw_before_read_enter { s.rw with rwait := s.rw.rwait - 1 }).change = s.rw.change - 1 ∧
    rw_before_remove_waits s.rw = true ∧
    (rw_before_write_waits s.rw = false ↔ s.rw.rcount = 0) ∧
    (rw_before_write_waits { s.rw with wwait := s.rw.wwait - 1 } = false ↔ s.rw.rcount = 0) ∧
    (rw_before_write_enter s.rw).change = 0 ∧
    ∀ i a s1, lock_sys_step s i a = some s1 → s.pcs[i]? ≠ some .writing →
      s1.pcs[i]? = some .writing → s.rw.rcount = 0 ∧ s1.rw.change = 0 := by
  have hinv := lock_inv_reachable n sched s h
  obtain ⟨h1, h2, h3, h4, h5, h6, h7, h8, h9⟩ := hinv
  obtain ⟨h8a, h8b⟩ := h8 hc
  have n1 : (0 : Int) ≤ (s.pcs.count .reading : Int) := Int.ofNat_nonneg _
  refine ⟨h8a, h8b, ?_, ?_, ?_, ?_, ?_, ?_, ?_, ?_, ?_⟩
  · simp only [rw_before_read_waits, Bool.and_eq_false_iff, decide_eq_false_iff_not]
    left; omega
  · simp only [rw_before_read_enter, if_pos hc]
  · simp only [rw_before_read_waits, Bool.and_eq_false_iff, decide_eq_false_iff_not]
    left; omega
  · simp only [rw_before_read_enter, if_pos hc]
  · simp only [rw_before_remove_waits, decide_eq_true_eq]
    have n2 : (0 : Int) ≤ (s.pcs.count .write_waiting : Int) := Int.ofNat_nonneg _
    omega
  · simp only [rw_before_write_waits, Bool.and_eq_false_iff, decide_eq_false_iff_not]
    constructor
    · intro h; omega
    · intro h; right; omega
  · simp only [rw_before_write_waits, Bool.and_eq_false_iff, decide_eq_false_iff_not]
    constructor
    · intro h; omega
    · intro h; right; omega
  · rfl
  · intro i a s1 hs hold hnew
    obtain ⟨pc, pc1, hpc, hts, hpc1⟩ := lock_sys_step_eq s s1 i a hs
    rw [hpc1] at hnew
    simp only [Option.some.injEq] at hnew
    subst hnew
    rw [hpc] at hold
    cases pc <;> cases a <;>
      simp only [thread_step, Option.some.injEq, reduceCtorEq,
        rw_before_read_turn, rw_before_write_turn, rw_before_remove_turn] at hts
    all_goals first
      | exact absurd rfl hold
      | (split at hts <;> simp only [Prod.mk.injEq, reduceCtorEq, and_false] at hts)
      | (simp only [Prod.mk.injEq, reduceCtorEq, and_false] at hts)
    all_goals (
      rename_i hw
      simp only [rw_before_write_waits, Bool.and_eq_true, decide_eq_true_eq, not_and] at hw
      rw [← hts.1]
      refine ⟨?_, rfl⟩
      have := hw (by omega)
      omega)

theorem readers_turn_witness :
    lock_sys_run (lock_sys_new 3) [(0, .before_write), (1, .before_read), (0, .after_write)] =
      some { rw := { rcount := 0, wcount := 0, rwait := 1, wwait := 0, change := 1 },
             pcs := [.idle, .read_waiting, .idle] } ∧
    (0 : Int) < 1 ∧
    rw_before_read_waits { rcount := 0, wcount := 0, rwait := 1, wwait := 0, change := 1 } =
      false ∧
    (rw_before_write_waits { rcount := 0, wcount := 0, rwait := 1, wwait := 0, change := 1 } =
      false ↔ (0 : Int) = 0) :=
  ⟨by decide, by decide,
    (readers_turn 3 [(0, .before_write), (1, .before_read), (0, .after_write)]
      { rw := { rcount := 0, wcount := 0, rwait := 1, wwait := 0, change := 1 },
        pcs := [.idle, .read_waiting, .idle] } (by decide) (by decide)).2.2.1,
    (readers_turn 3 [(0, .before_write), (1, .before_read), (0, .after_write)]
      { rw := { rcount := 0, wcount := 0, rwait := 1, wwait := 0, change := 1 },
        pcs := [.idle, .read_waiting, .idle] } (by decide) (by decide)).2.2.2.2.2.2.2.1⟩

/-- C15: in every reachable state of one lock with `change = -1` nobody is inside and
a writer waits (`rcount = 0`, `wcount = 0`, `wwait > 0`); the wait test of
`rw_before_read` holds for a reader that arrives and for one that wakes, and so does
the wait test of `rw_before_remove`; hence every step from such a state either is the
entry of a writer, which sets `change` to 0, or leaves `change` at `-1` and its thread
waiting. -/
theorem writers_turn (n : Nat) (sched : List (Nat × Act)) (s : LockSys)
    (h : lock_sys_run (lock_sys_new n) sched = some s) (hc : s.rw.change = -1) :
    (s.rw.rcount = 0 ∧ s.rw.wcount = 0 ∧ 0 < s.rw.wwait) ∧
    rw_before_read_waits s.rw = true ∧
    rw_before_read_waits { s.rw with rwait := s.rw.rwait - 1 } = true ∧
    rw_before_remove_waits s.rw = true ∧
    ∀ i a s1, lock_sys_step s i a = some s1 →
      (s1.pcs[i]? = some .writing ∧ s1.rw.change = 0) ∨
      (s1.rw.change = -1 ∧
        (s1.pcs[i]? = some .read_waiting ∨ s1.pcs[i]? = some .remove_waiting)) := by
  have hinv := lock_inv_reachable n sched s h
  have habs := lock_inv_absent s hinv
  obtain ⟨h1, h2, h3, h4, h5, h6, h7, h8, h9⟩ := hinv
  obtain ⟨h7a, h7b, h7c⟩ := h7 hc
  have n3 : (0 : Int) ≤ (s.pcs.count .read_waiting : Int) := Int.ofNat_nonneg _
  have e1 : rw_before_read_waits s.rw = true := by
    simp only [rw_before_read_waits, Bool.and_eq_true, decide_eq_true_eq]
    omega
  have e2 : rw_before_read_waits { s.rw with rwait := s.rw.rwait - 1 } = true := by
    simp only [rw_before_read_waits, Bool.and_eq_true, decide_eq_true_eq]
    omega
  have e3 : rw_before_remove_waits s.rw = true := by
    simp only [rw_before_remove_waits, decide_eq_true_eq]
    omega
  have e4 : rw_before_write_waits s.rw = false := by
    simp only [rw_before_write_waits, Bool.and_eq_false_iff, decide_eq_false_iff_not]
    left; omega
  have e5 : rw_before_write_waits { s.rw with wwait := s.rw.wwait - 1 } = false := by
    simp only [rw_before_write_waits, Bool.and_eq_false_iff, decide_eq_false_iff_not]
    left; omega
  refine ⟨⟨h7a, h7b, h7c⟩, e1, e2, e3, ?_⟩
  intro i a s1 hs
  obtain ⟨pc, pc1, hpc, hts, hpc1⟩ := lock_sys_step_eq s s1 i a hs
  rw [hpc1]
  have hr := (habs i).1 h7a
  have hw := (habs i).2 h7b
  rw [hpc] at hr hw
  cases pc <;> cases a <;>
    simp only [thread_step, Option.some.injEq, reduceCtorEq,
      rw_before_read_turn, rw_before_write_turn, rw_before_remove_turn,
      e1, e2, e3, e4, e5, if_true, Bool.false_eq_true, if_false, Prod.mk.injEq] at hts
  all_goals first
    | exact absurd rfl hr
    | exact absurd rfl hw
    | (obtain ⟨hrw, rfl⟩ := hts
       rw [← hrw]
       first
         | exact Or.inl ⟨rfl, rfl⟩
         | exact Or.inr ⟨hc, Or.inl rfl⟩
         | exact Or.inr ⟨hc, Or.inr rfl⟩)

theorem writers_turn_witness :
    lock_sys_run (lock_sys_new 2) [(0, .before_read), (1, .before_write), (0, .after_read)] =
      some { rw := { rcount := 0, wcount := 0, rwait := 0, wwait := 1, change := -1 },
             pcs := [.idle, .write_waiting] } ∧
    (-1 : Int) = -1 ∧
    rw_before_read_waits { rcount := 0, wcount := 0, rwait := 0, wwait := 1, change := -1 } =
      true ∧
    rw_before_remove_waits { rcount := 0, wcount := 0, rwait := 0, wwait := 1, change := -1 } =
      true :=
  ⟨by decide, rfl,
    (writers_turn 2 [(0, .before_read), (1, .before_write), (0, .after_read)]
      { rw := { rcount := 0, wcount := 0, rwait := 0, wwait := 1, change := -1 },
        pcs := [.idle, .write_waiting] } (by decide) rfl).2.1,
    (writers_turn 2 [(0, .before_read), (1, .before_write), (0, .after_read)]
      { rw := { rcount := 0, wcount := 0, rwait := 0, wwait := 1, change := -1 },
        pcs := [.idle, .write_waiting] } (by decide) rfl).2.2.2.1⟩

/-! ## Admission and release at one lock -/

/-- C18: `rw_after_read` lowers `rcount` by one and, when `rcount` became 0 and
`wwait > 0`, sets `change` to `-1` and signals `writers`; else, when `rcount` became
0, signals `removers` and leaves `change`; else signals nothing and leaves `change`.
`rw_after_write` lowers `wcount` by one and, when `rwait > 0`, sets `change` to
`rwait` and signals `readers`; else, when `wwait > 0`, sets `change` to `-1` and
signals `writers`; else signals `removers` and leaves `change`.  Neither writes
another counter. -/
theorem release_policy (rw : Readwrite) :
    ((rw_after_read rw).rcount = rw.rcount - 1 ∧ (rw_after_read rw).wcount = rw.wcount ∧
      (rw_after_read rw).rwait = rw.rwait ∧ (rw_after_read rw).wwait = rw.wwait ∧
      (rw.rcount - 1 = 0 ∧ 0 < rw.wwait →
        (rw_after_read rw).change = -1 ∧ rw_after_read_signal rw = some .writers) ∧
      (rw.rcount - 1 = 0 ∧ ¬ 0 < rw.wwait →
        (rw_after_read rw).change = rw.change ∧ rw_after_read_signal rw = some .removers) ∧
      (rw.rcount - 1 ≠ 0 →
        (rw_after_read rw).change = rw.change ∧ rw_after_read_signal rw = none)) ∧
    ((rw_after_write rw).wcount = rw.wcount - 1 ∧ (rw_after_write rw).rcount = rw.rcount ∧
      (rw_after_write rw).rwait = rw.rwait ∧ (rw_after_write rw).wwait = rw.wwait ∧
      (0 < rw.rwait →
        (rw_after_write rw).change = rw.rwait ∧ rw_after_write_signal rw = some .readers) ∧
      (¬ 0 < rw.rwait ∧ 0 < rw.wwait →
        (rw_after_write rw).change = -1 ∧ rw_after_write_signal rw = some .writers) ∧
      (¬ 0 < rw.rwait ∧ ¬ 0 < rw.wwait →
        (rw_after_write rw).change = rw.change ∧
          rw_after_write_signal rw = some .removers)) := by
  obtain ⟨rc, wc, rwt, wwt, ch⟩ := rw
  simp only [rw_after_read, rw_after_write, rw_after_read_signal, rw_after_write_signal,
    gt_iff_lt]
  refine ⟨⟨?_, ?_, ?_, ?_, ?_, ?_, ?_⟩, ⟨?_, ?_, ?_, ?_, ?_, ?_, ?_⟩⟩
  · split <;> rfl
  · split <;> rfl
  · split <;> rfl
  · split <;> rfl
  · intro h
    rw [if_pos h, if_pos h]
    exact ⟨rfl, rfl⟩
  · intro h
    have hn : ¬ (rc - 1 = 0 ∧ 0 < wwt) := fun x => h.2 x.2
    rw [if_neg hn, if_neg hn, if_pos h.1]
    exact ⟨rfl, rfl⟩
  · intro h
    have hn : ¬ (rc - 1 = 0 ∧ 0 < wwt) := fun x => h x.1
    rw [if_neg hn, if_neg hn, if_neg h]
    exact ⟨rfl, rfl⟩
  · split
    · rfl
    · split <;> rfl
  · split
    · rfl
    · split <;> rfl
  · split
    · rfl
    · split <;> rfl
  · split
    · rfl
    · split <;> rfl
  · intro h
    rw [if_pos h, if_pos h]
    exact ⟨rfl, rfl⟩
  · intro h
    rw [if_neg h.1, if_neg h.1, if_pos h.2, if_pos h.2]
    exact ⟨rfl, rfl⟩
  · intro h
    rw [if_neg h.1, if_neg h.1, if_neg h.2, if_neg h.2]
    exact ⟨rfl, rfl⟩

theorem release_policy_witness :
    ((1 : Int) - 1 = 0 ∧ (0 : Int) < 1) ∧
    ((rw_after_read { rcount := 1, wcount := 0, rwait := 0, wwait := 1, change := 0 }).change
        = -1 ∧
      rw_after_read_signal { rcount := 1, wcount := 0, rwait := 0, wwait := 1, change := 0 }
        = some .writers) ∧
    (0 : Int) < 2 ∧
    ((rw_after_write { rcount := 0, wcount := 1, rwait := 2, wwait := 1, change := 0 }).change
        = 2 ∧
      rw_after_write_signal { rcount := 0, wcount := 1, rwait := 2, wwait := 1, change := 0 }
        = some .readers) :=
  ⟨by decide,
    (release_policy
      { rcount := 1, wcount := 0, rwait := 0, wwait := 1, change := 0 }).1.2.2.2.2.1
      (by decide),
    by decide,
    (release_policy
      { rcount := 0, wcount := 1, rwait := 2, wwait := 1, change := 0 }).2.2.2.2.2.1
      (by decide)⟩

/-! ## The contract of the descent -/

/-- C13: in a tree whose locks are all neutral, `get_directory_tree`, started at any
node, on any path `/c1/.../cn/` (every valid path is one) and in either mode,
returns.  When the path denotes a node below the start, the result is that node, its
lock is held once in the mode asked for (`rcount = 1` for a reader, `wcount = 1` for a
writer, the other counters 0), and the lock of every other node is neutral, the tree
being otherwise as before.  When a component is missing the result is `NULL` and the
tree is as before, every lock neutral. -/
theorem get_directory_tree_contract (t : Tree) (hn : all_neutral t = true) (root cs : Addr)
    (hr : (deref t root).isSome = true) (hs : ∀ c ∈ cs, '/' ∉ c) (as_writer : Bool) :
    ((deref t (root ++ cs)).isSome = true ∧
      ∃ st, get_directory_tree t root (render cs) as_writer = some (st, some (root ++ cs)) ∧
        st = modifyAt (setRw (rw_held as_writer)) t (root ++ cs) ∧
        lockAt st (root ++ cs) = some (rw_held as_writer) ∧
        (rw_held as_writer).rcount = (if as_writer then 0 else 1) ∧
        (rw_held as_writer).wcount = (if as_writer then 1 else 0) ∧
        (rw_held as_writer).rwait = 0 ∧ (rw_held as_writer).wwait = 0 ∧
        (rw_held as_writer).change = 0 ∧
        (∀ a, a ≠ root ++ cs → lockAt st a = lockAt t a) ∧
        (∀ a rw, a ≠ root ++ cs → lockAt st a = some rw → rw = rw_new)) ∨
    ((deref t (root ++ cs)).isSome = false ∧
      ∃ st, get_directory_tree t root (render cs) as_writer = some (st, none) ∧
        st = t ∧ all_neutral st = true) := by
  have hl : lockAt t root = some rw_new := neutral_of_isSome hn root hr
  have hspec := get_directory_tree_spec as_writer cs t root hs hl
    (fun q _ rw h => all_neutral_lockAt hn _ rw h)
  cases hd : (deref t (root ++ cs)).isSome with
  | true =>
    left
    rw [hd, if_pos rfl] at hspec
    refine ⟨rfl, _, hspec, rfl, ?_, ?_, ?_, ?_, ?_, ?_, ?_, ?_⟩
    · rw [lockAt_setRw_same, neutral_of_isSome hn _ hd]; rfl
    · cases as_writer <;> rfl
    · cases as_writer <;> rfl
    · cases as_writer <;> rfl
    · cases as_writer <;> rfl
    · cases as_writer <;> rfl
    · intro a ha
      exact lockAt_setRw_ne _ _ _ _ (Ne.symm ha)
    · intro a rw ha h
      rw [lockAt_setRw_ne _ _ _ _ (Ne.symm ha)] at h
      exact all_neutral_lockAt hn a rw h
  | false =>
    right
    rw [hd] at hspec
    simp only [Bool.false_eq_true, if_false] at hspec
    exact ⟨rfl, t, hspec, rfl, hn⟩

theorem get_directory_tree_contract_witness :
    all_neutral example_tree = true ∧ (deref example_tree []).isSome = true ∧
    (∀ c ∈ [['a'], ['x']], '/' ∉ c) ∧
    get_directory_tree example_tree [] ['/', 'a', '/', 'x', '/'] true =
      some (.mk [(['a'], .mk [(['x'],
          .mk [] { rcount := 0, wcount := 1, rwait := 0, wwait := 0, change := 0 })] rw_new),
        (['b'], tree_new)] rw_new, some [['a'], ['x']]) ∧
    (((deref example_tree ([] ++ [['a'], ['x']])).isSome = true ∧
      ∃ st, get_directory_tree example_tree [] (render [['a'], ['x']]) true =
          some (st, some ([] ++ [['a'], ['x']])) ∧
        st = modifyAt (setRw (rw_held true)) example_tree ([] ++ [['a'], ['x']]) ∧
        lockAt st ([] ++ [['a'], ['x']]) = some (rw_held true) ∧
        (rw_held true).rcount = (if true then 0 else 1) ∧
        (rw_held true).wcount = (if true then 1 else 0) ∧
        (rw_held true).rwait = 0 ∧ (rw_held true).wwait = 0 ∧
        (rw_held true).change = 0 ∧
        (∀ a, a ≠ [] ++ [['a'], ['x']] → lockAt st a = lockAt example_tree a) ∧
        (∀ a rw, a ≠ [] ++ [['a'], ['x']] → lockAt st a = some rw → rw = rw_new)) ∨
    ((deref example_tree ([] ++ [['a'], ['x']])).isSome = false ∧
      ∃ st, get_directory_tree example_tree [] (render [['a'], ['x']]) true =
          some (st, none) ∧
        st = example_tree ∧ all_neutral st = true)) :=
  ⟨by decide, by decide, by decide, by decide,
    get_directory_tree_contract example_tree (by decide) [] [['a'], ['x']] (by decide)
      (by decide) true⟩

/-! ## What a call writes: the locks on the way only -/

theorem rw_before_isSome (rw : Readwrite) :
    ((rw_before_read rw).isSome = !rw_before_read_waits rw) ∧
    ((rw_before_write rw).isSome = !rw_before_write_waits rw) ∧
    ((rw_before_remove rw).isSome = !rw_before_remove_waits rw) := by
  unfold rw_before_read rw_before_write rw_before_remove
  refine ⟨?_, ?_, ?_⟩
  · cases rw_before_read_waits rw <;> rfl
  · cases rw_before_write_waits rw <;> rfl
  · cases rw_before_remove_waits rw <;> rfl

/-- Both write descents of `tree_move` from the LCA node, which the caller holds as
writer, return: the one towards the target's parent, and, with the target's parent
held as well, the one towards the source's parent. -/
theorem tree_move_descents_return (t : Tree) (hn : all_neutral t = true) (sp tp : Addr)
    (hfsp : ∀ x ∈ sp, '/' ∉ x) (hftp : ∀ x ∈ tp, '/' ∉ x)
    (hl : (deref t (common_components sp tp)).isSome = true) :
    (tree_move_lock_from_lca (modifyAt (setRw (rw_held true)) t (common_components sp tp))
      (common_components sp tp) (render (common_components sp tp)) (render tp)).isSome = true ∧
    ((deref t tp).isSome = true →
      (tree_move_lock_from_lca
        (modifyAt (setRw (rw_held true))
          (modifyAt (setRw (rw_held true)) t (common_components sp tp)) tp)
        (common_components sp tp) (render (common_components sp tp)) (render sp)).isSome
        = true) := by
  obtain ⟨s1, hs1⟩ := common_components_left sp tp
  obtain ⟨t1, ht1⟩ := common_components_right sp tp
  have hdiv : ∀ x xs y ys, s1 = x :: xs → t1 = y :: ys → x ≠ y := by
    intro x xs y ys e1 e2
    apply common_components_diverge sp tp xs ys x y
    · rw [← e1, hs1]
    · rw [← e2, ht1]
  generalize common_components sp tp = l at hs1 ht1 hl
  subst hs1
  subst ht1
  have hfs1 : ∀ x ∈ s1, '/' ∉ x := fun x hx => hfsp x (by simp [hx])
  have hft1 : ∀ x ∈ t1, '/' ∉ x := fun x hx => hftp x (by simp [hx])
  have hLl : lockAt t l = some rw_new := neutral_of_isSome hn l hl
  have hq1 : ∀ q, q ≠ [] → q <+: t1 → ∀ rw,
      lockAt (modifyAt (setRw (rw_held true)) t l) (l ++ q) = some rw → rw = rw_new := by
    intro q hq _ rw h
    rw [lockAt_setRw_ne _ _ _ _ (append_ne_self_of_ne_nil l q hq)] at h
    exact all_neutral_lockAt hn _ rw h
  refine ⟨?_, fun hdt => ?_⟩
  · rw [tree_move_lock_from_lca_spec _ l t1 hft1 (lockAt_held _ _ _ hLl) hq1]
    rfl
  · have hLtp : lockAt t (l ++ t1) = some rw_new := neutral_of_isSome hn _ hdt
    have hq2 : ∀ q, q ≠ [] → q <+: s1 → ∀ rw,
        lockAt (modifyAt (setRw (rw_held true)) (modifyAt (setRw (rw_held true)) t l)
          (l ++ t1)) (l ++ q) = some rw → rw = rw_new := by
      intro q hq hqp rw h
      have hne1 : l ++ t1 ≠ l ++ q := by
        intro e
        have e1 : t1 = q := List.append_cancel_left e
        cases q with
        | nil => exact hq rfl
        | cons x q1 =>
          obtain ⟨r, hr⟩ := hqp
          exact hdiv x (q1 ++ r) x q1 (by rw [← hr]; rfl) e1 rfl
      rw [lockAt_setRw_ne _ _ _ _ hne1,
        lockAt_setRw_ne _ _ _ _ (append_ne_self_of_ne_nil l q hq)] at h
      exact all_neutral_lockAt hn _ rw h
    rw [tree_move_lock_from_lca_spec _ l s1 hfs1 (lockAt_held2 t l (l ++ t1) hLl hLtp).1 hq2]
    rfl

/-- C20: run by the only thread on a tree whose locks are all neutral, `tree_list`,
`tree_create`, `tree_remove` and `tree_move` return, whatever their arguments: a lock
function that finds its wait test true never returns (the result `none`), so no
acquisition of theirs enters its wait loop.  So do their parts: every descent by
`get_directory_tree` from a node of the tree, in either mode; both write descents of
`tree_move` from the LCA node it holds; and `lock_subtree` on every node, whose
remove-mode acquisitions leave the subtree as it is. -/
theorem no_self_blocking (t : Tree) (hn : all_neutral t = true) :
    (∀ rw, (rw_before_read rw).isSome = !rw_before_read_waits rw) ∧
    (∀ rw, (rw_before_write rw).isSome = !rw_before_write_waits rw) ∧
    (∀ rw, (rw_before_remove rw).isSome = !rw_before_remove_waits rw) ∧
    (∀ p, (tree_list t p).isSome = true) ∧
    (∀ p, (tree_create t p).isSome = true) ∧
    (∀ p, (tree_remove t p).isSome = true) ∧
    (∀ source target, (tree_move t source target).isSome = true) ∧
    (∀ root cs as_writer, (deref t root).isSome = true → (∀ c ∈ cs, '/' ∉ c) →
      (get_directory_tree t root (render cs) as_writer).isSome = true) ∧
    (∀ sp tp, (∀ x ∈ sp, '/' ∉ x) → (∀ x ∈ tp, '/' ∉ x) →
      (deref t (common_components sp tp)).isSome = true →
      (tree_move_lock_from_lca
        (modifyAt (setRw (rw_held true)) t (common_components sp tp))
        (common_components sp tp) (render (common_components sp tp)) (render tp)).isSome
        = true ∧
      ((deref t tp).isSome = true →
        (tree_move_lock_from_lca
          (modifyAt (setRw (rw_held true))
            (modifyAt (setRw (rw_held true)) t (common_components sp tp)) tp)
          (common_components sp tp) (render (common_components sp tp)) (render sp)).isSome
          = true)) ∧
    (∀ a n, deref t a = some n → lock_subtree n = some n) := by
  refine ⟨fun rw => (rw_before_isSome rw).1, fun rw => (rw_before_isSome rw).2.1,
    fun rw => (rw_before_isSome rw).2.2, fun p => ?_, fun p => ?_, fun p => ?_,
    fun s g => ?_, fun root cs w hr hs => ?_, fun sp tp h1 h2 h3 => ?_, fun a n h => ?_⟩
  · obtain ⟨r, h⟩ := tree_list_outcome t p hn
    rw [h]; rfl
  · obtain ⟨t1, r, h, _⟩ := tree_create_outcome t p hn
    rw [h]; rfl
  · obtain ⟨t1, r, h, _⟩ := tree_remove_outcome t p hn
    rw [h]; rfl
  · obtain ⟨t1, r, h, _⟩ := tree_move_outcome t s g hn
    rw [h]; rfl
  · rw [get_directory_tree_spec w cs t root hs (neutral_of_isSome hn root hr)
      (fun q _ rw h => all_neutral_lockAt hn _ rw h)]
    rfl
  · exact tree_move_descents_return t hn sp tp h1 h2 h3
  · exact lock_subtree_neutral n (all_neutral_deref hn a n h)

theorem no_self_blocking_witness :
    all_neutral example_tree = true ∧
    tree_move example_tree ['/', 'a', '/', 'x', '/'] ['/', 'b', '/', 'y', '/'] =
      some (.mk [(['a'], tree_new), (['b'], .mk [(['y'], tree_new)] rw_new)] rw_new, 0) ∧
    (∀ source target, (tree_move example_tree source target).isSome = true) ∧
    (∀ a n, deref example_tree a = some n → lock_subtree n = some n) :=
  ⟨by decide, by decide,
    (no_self_blocking example_tree (by decide)).2.2.2.2.2.2.1,
    (no_self_blocking example_tree (by decide)).2.2.2.2.2.2.2.2.2⟩

end Filetree
